import Mathlib

/-!
# Sparse matrix multiplication in coordinate form

A shallow embedding of `sparseMatrix.cpp`: the dense-to-coordinate conversion
`matrixToCOO`, the two coordinate multipliers `multiplyCOO` and
`multiMultiplyCOO`, the dense baselines `singleClassicalMultiplication` and
`threadedClassicalMultiplication`, the generator `SparseMatrixGenerator`, and
the two range partitions that distribute work over the workers.

Conventions of the embedding.

* The C++ type `int` is modelled by `Int`; every `int` addition and
  multiplication performed by the program is followed by `wrap32`, the
  two's-complement reduction to 32 bits.
* Loop counters, sizes and the worker count `numThreads` are natural numbers;
  `numThreads` is a parameter `W` of every function that reads it.
* `std::vector<int>` is a `List Int`; `push_back` appends at the end.
* `std::unordered_map` is an association list with pairwise different keys;
  `operator[]` inserts a value-initialised entry (at the end) when the key is
  absent.  The iteration order of the real container is unspecified, the
  embedding iterates in insertion order.
* Workers write only to their own buffers, or to their own rows of a shared
  matrix, and are joined in index order, so a parallel section is the sequence
  of the workers' effects in index order.
* The random draws of the generator are an arbitrary outcome per cell: whether
  the cell is selected, and the number drawn for it.
* Beside the total functions there are executions with checked steps, which
  return `none` when a division by the worker count, an access to a vector
  element or (if asked) an arithmetic operation goes wrong.
-/

namespace SparseMatrix

/-! ## Machine integers -/

/-- Reduction of an integer to the 32-bit two's-complement range. -/
def wrap32 (x : Int) : Int := (x + 2147483648) % 4294967296 - 2147483648

/-- Addition on `int`. -/
def addInt (a b : Int) : Int := wrap32 (a + b)

/-- Multiplication on `int`. -/
def mulInt (a b : Int) : Int := wrap32 (a * b)

/-! ## Dense matrices -/

/-- A dense matrix, `std::vector<std::vector<int>>`, stored row by row. -/
abbrev DenseMatrix := List (List Int)

/-- The cell `M[i][j]`. -/
def cell (M : DenseMatrix) (i j : Nat) : Int := (M.getD i []).getD j 0

/-- The matrix after `M[i][j] = f (M[i][j])`. -/
def updateCell (M : DenseMatrix) (i j : Nat) (f : Int → Int) : DenseMatrix :=
  M.set i ((M.getD i []).set j (f (cell M i j)))

/-- The `n × n` matrix of zeros, `std::vector(n, std::vector<int>(n, 0))`. -/
def zeroMatrix (n : Nat) : DenseMatrix := List.replicate n (List.replicate n 0)

/-- A matrix with `n` rows of `n` cells each. -/
def IsSquare (M : DenseMatrix) (n : Nat) : Prop := M.length = n ∧ ∀ row ∈ M, row.length = n

instance (M : DenseMatrix) (n : Nat) : Decidable (IsSquare M n) := by
  unfold IsSquare; infer_instance

/-- The triple loop of `singleClassicalMultiplication`:
`M3[i][j] += M1[i][k] * M2[k][j]` for `i`, `j`, `k` in `[0, n)`. -/
def singleClassicalMultiplication (M1 M2 M3 : DenseMatrix) (n : Nat) : DenseMatrix :=
  (List.range n).foldl (fun M3 i =>
    (List.range n).foldl (fun M3 j =>
      (List.range n).foldl (fun M3 k =>
        updateCell M3 i j (fun x => addInt x (mulInt (cell M1 i k) (cell M2 k j)))) M3) M3) M3

/-! ## Coordinate lists -/

/-- A coordinate list: the three parallel vectors `rows`, `cols`, `vals`. -/
structure COO where
  rows : List Int
  cols : List Int
  vals : List Int
deriving DecidableEq, Repr

/-- Three empty vectors. -/
def COO.empty : COO := ⟨[], [], []⟩

/-- One `push_back` on each of the three vectors. -/
def COO.push (C : COO) (r c v : Int) : COO := ⟨C.rows ++ [r], C.cols ++ [c], C.vals ++ [v]⟩

/-- The three `insert(end(), ...)` calls that append the buffers `D` to `C`. -/
def COO.insertEnd (C D : COO) : COO := ⟨C.rows ++ D.rows, C.cols ++ D.cols, C.vals ++ D.vals⟩

/-- The three vectors have the same length. -/
def COO.WellFormed (C : COO) : Prop := C.rows.length = C.cols.length ∧ C.cols.length = C.vals.length

instance (C : COO) : Decidable C.WellFormed := by
  unfold COO.WellFormed; infer_instance

/-- The entry `(rows[k], cols[k], vals[k])`. -/
def COO.entry (C : COO) (k : Nat) : Int × Int × Int :=
  (C.rows.getD k 0, C.cols.getD k 0, C.vals.getD k 0)

/-- The entries of a coordinate list, index by index over `rows.size()`. -/
def COO.triples (C : COO) : List (Int × Int × Int) := (List.range C.rows.length).map C.entry

/-! ## Range partitions -/

/-- The row range `[startRow, endRow)` of worker `t` in `SparseMatrixGenerator`,
`threadedClassicalMultiplication` and `matrixToCOO`. -/
def rowRange (n W t : Nat) : Nat × Nat :=
  let rowsPerThread := n / W
  let remainder := n % W
  let startRow := t * rowsPerThread + min t remainder
  let endRow := startRow + rowsPerThread
  let endRow := if t < remainder then endRow + 1 else endRow
  (startRow, endRow)

/-- The loop of `multiMultiplyCOO` that hands out entry ranges: the state is the
running `start` together with the ranges handed out so far. -/
def entryRangesLoop (K W : Nat) : Nat × List (Nat × Nat) :=
  let elementsPerThread := K / W
  let remainder := K % W
  (List.range W).foldl (fun st t =>
    let last := st.1 + elementsPerThread + (if t < remainder then 1 else 0)
    (last, st.2 ++ [(st.1, last)])) (0, [])

/-- The entry ranges `[start, end)` of the workers of `multiMultiplyCOO`, in worker order. -/
def entryRanges (K W : Nat) : List (Nat × Nat) := (entryRangesLoop K W).2

/-! ## Dense to coordinate conversion -/

/-- The worker body `processRows` of `matrixToCOO`, appending to the worker's buffer. -/
def processRows (M : DenseMatrix) (n : Nat) (buf : COO) (startRow endRow : Nat) : COO :=
  (List.range' startRow (endRow - startRow)).foldl (fun buf i =>
    (List.range n).foldl (fun buf j =>
      if cell M i j ≠ 0 then buf.push (i : Int) (j : Int) (cell M i j) else buf) buf) buf

/-- The conversion `matrixToCOO` run with `W` workers: every worker fills its own
buffer, then the buffers are appended to the output vectors in worker order. -/
def matrixToCOO (W : Nat) (M : DenseMatrix) (n : Nat) (out : COO) : COO :=
  let threadBufs := (List.range W).map (fun t =>
    processRows M n COO.empty (rowRange n W t).1 (rowRange n W t).2)
  threadBufs.foldl COO.insertEnd out

/-! ## Accumulators -/

/-- The inner map `std::unordered_map<int, int>` from column to value. -/
abbrev ColMap := List (Int × Int)

/-- The accumulator `std::unordered_map<int, std::unordered_map<int, int>>`. -/
abbrev Accumulator := List (Int × ColMap)

/-- The statement `m[col] += v` on an inner map. -/
def colMapAdd : ColMap → Int → Int → ColMap
  | [], col, v => [(col, addInt 0 v)]
  | (k, x) :: rest, col, v =>
    if k = col then (k, addInt x v) :: rest else (k, x) :: colMapAdd rest col v

/-- The statement `result[row][col] += v`. -/
def accAdd : Accumulator → Int → Int → Int → Accumulator
  | [], row, col, v => [(row, colMapAdd [] col v)]
  | (k, m) :: rest, row, col, v =>
    if k = row then (k, colMapAdd m col v) :: rest else (k, m) :: accAdd rest row col v

/-- The body of the loop over the entries of `A`: entry `i` of `A` is joined with
every entry `j` of `B` whose row is the column of `A`'s entry. -/
def joinEntry (A B : COO) (result : Accumulator) (i : Nat) : Accumulator :=
  let rowA := A.rows.getD i 0
  let colA := A.cols.getD i 0
  let valA := A.vals.getD i 0
  (List.range B.rows.length).foldl (fun result j =>
    if B.rows.getD j 0 = colA then
      accAdd result rowA (B.cols.getD j 0) (mulInt valA (B.vals.getD j 0))
    else result) result

/-- The worker body `threadTask` of `multiMultiplyCOO`: a local accumulator over
the entries `[start, end)` of `A`. -/
def threadTask (A B : COO) (start stop : Nat) : Accumulator :=
  (List.range' start (stop - start)).foldl (joinEntry A B) []

/-- The emission loop shared by both multipliers: every cell of the accumulator
with a non-zero value is pushed to the output vectors. -/
def emit (result : Accumulator) (C : COO) : COO :=
  result.foldl (fun C rowEntry =>
    rowEntry.2.foldl (fun C colEntry =>
      if colEntry.2 ≠ 0 then C.push rowEntry.1 colEntry.1 colEntry.2 else C) C) C

/-- The sequential multiplier `multiplyCOO`; `C` holds the output vectors on entry. -/
def multiplyCOO (A B C : COO) : COO :=
  emit ((List.range A.rows.length).foldl (joinEntry A B) []) C

/-- The merge of one worker's local accumulator into `result`:
`result[row][col] += value` for every cell of `localResult`. -/
def mergeLocal (result localResult : Accumulator) : Accumulator :=
  localResult.foldl (fun result rowEntry =>
    rowEntry.2.foldl (fun result colEntry =>
      accAdd result rowEntry.1 colEntry.1 colEntry.2) result) result

/-- The parallel multiplier `multiMultiplyCOO` run with `W` workers; `C` holds the
output vectors on entry. -/
def multiMultiplyCOO (W : Nat) (A B C : COO) : COO :=
  let futures := (entryRanges A.rows.length W).map (fun r => threadTask A B r.1 r.2)
  emit (futures.foldl mergeLocal []) C

/-! ## Notions used to state the properties -/

/-- The coordinate list whose entries are the given triples, in order. -/
def COO.ofTriples (l : List (Int × Int × Int)) : COO :=
  ⟨l.map (fun t => t.1), l.map (fun t => t.2.1), l.map (fun t => t.2.2)⟩

/-- The sum of the values stored at `(r, c)` in a coordinate list, `0` when there is none. -/
def cellSum (C : COO) (r c : Int) : Int :=
  ((List.range C.rows.length).map (fun k =>
    if C.rows.getD k 0 = r ∧ C.cols.getD k 0 = c then C.vals.getD k 0 else 0)).sum

/-- The exact integer sum of `valsA[i] * valsB[j]` over the index pairs `(i, j)` with
`rowsA[i] = r`, `colsB[j] = c` and `rowsB[j] = colsA[i]`. -/
def pairSum (A B : COO) (r c : Int) : Int :=
  ((List.range A.rows.length).map (fun i =>
    ((List.range B.rows.length).map (fun j =>
      if A.rows.getD i 0 = r ∧ B.cols.getD j 0 = c ∧ B.rows.getD j 0 = A.cols.getD i 0 then
        A.vals.getD i 0 * B.vals.getD j 0
      else 0)).sum)).sum

/-- The dense reconstruction of a coordinate list: starting from the `n × n` zero
matrix, `vals[k]` is added at `(rows[k], cols[k])` for every `k`; an entry outside the
matrix is skipped. -/
def toDense (n : Nat) (C : COO) : DenseMatrix :=
  (List.range C.rows.length).foldl (fun D k =>
    if 0 ≤ C.rows.getD k 0 ∧ 0 ≤ C.cols.getD k 0 then
      updateCell D (C.rows.getD k 0).toNat (C.cols.getD k 0).toNat (fun x => x + C.vals.getD k 0)
    else D) (zeroMatrix n)

/-- The order "row first, then column" on triples; the value is not compared. -/
def keyLe (a b : Int × Int × Int) : Prop := a.1 < b.1 ∨ (a.1 = b.1 ∧ a.2.1 ≤ b.2.1)

/-- The strict order "row first, then column" on triples. -/
def keyLt (a b : Int × Int × Int) : Prop := a.1 < b.1 ∨ (a.1 = b.1 ∧ a.2.1 < b.2.1)

/-- Two triples sit at different `(row, col)` positions. -/
def keyNe (a b : Int × Int × Int) : Prop := a.1 ≠ b.1 ∨ a.2.1 ≠ b.2.1

instance : DecidableRel keyLe := fun a b => by unfold keyLe; infer_instance

instance : DecidableRel keyLt := fun a b => by unfold keyLt; infer_instance

instance : IsTotal (Int × Int × Int) keyLe := ⟨fun a b => by unfold keyLe; omega⟩

instance : IsTrans (Int × Int × Int) keyLe := ⟨fun a b c hab hbc => by
  unfold keyLe at *; omega⟩

instance : IsAntisymm (Int × Int × Int) keyLt := ⟨fun a b hab hba => by
  unfold keyLt at *; omega⟩

/-- Sorting a sequence of triples by `(row, col)`. -/
def sortTriples (l : List (Int × Int × Int)) : List (Int × Int × Int) := List.insertionSort keyLe l

/-- The non-zero cells of row `i` of `M`, by increasing column. -/
def rowScan (M : DenseMatrix) (n i : Nat) : List (Int × Int × Int) :=
  (List.range n).filterMap (fun j =>
    if cell M i j ≠ 0 then some ((i : Int), (j : Int), cell M i j) else none)

/-- The single-pass row-major scan of `M`: rows by increasing index, and inside a row
the non-zero cells by increasing column. -/
def rowMajorScan (M : DenseMatrix) (n : Nat) : List (Int × Int × Int) :=
  (List.range n).flatMap (rowScan M n)

/-- The ranges `P 0, ..., P (W - 1)` are contiguous, start at `0`, end at `K`, and every
index of `[0, K)` lies in exactly one of them. -/
def IsExactCover (K W : Nat) (P : Nat → Nat × Nat) : Prop :=
  (P 0).1 = 0 ∧
  (∀ t, t + 1 < W → (P t).2 = (P (t + 1)).1) ∧
  (∀ t, t < W → (P t).1 ≤ (P t).2) ∧
  (P (W - 1)).2 = K ∧
  (∀ k, k < K → ∃! t, t < W ∧ (P t).1 ≤ k ∧ k < (P t).2)

/-- The sum of the values of the triples of `l` that sit at `(r, c)`. -/
def tripleSum (l : List (Int × Int × Int)) (r c : Int) : Int :=
  (l.map (fun t => if t.1 = r ∧ t.2.1 = c then t.2.2 else 0)).sum

/-- The value stored under `col` in an inner map, `0` when the key is absent. -/
def colGet : ColMap → Int → Int
  | [], _ => 0
  | (k, x) :: rest, col => if k = col then x else colGet rest col

/-- The value stored at `(row, col)` in an accumulator, `0` when the cell is absent. -/
def accGet : Accumulator → Int → Int → Int
  | [], _, _ => 0
  | (k, m) :: rest, row, col => if k = row then colGet m col else accGet rest row col

/-- The keys of an inner map are pairwise different. -/
def ColWF (m : ColMap) : Prop := (m.map Prod.fst).Nodup

/-- The row keys of an accumulator are pairwise different, and so are the column
keys of each of its inner maps. -/
def AccWF (acc : Accumulator) : Prop := (acc.map Prod.fst).Nodup ∧ ∀ e ∈ acc, ColWF e.2

/-- All cells `(row, col, value)` of an accumulator, in iteration order. -/
def allCells (acc : Accumulator) : List (Int × Int × Int) :=
  acc.flatMap (fun e => e.2.map (fun ce => (e.1, ce.1, ce.2)))

/-- The statements `acc[row][col] += value`, one for each triple of `cs` in order. -/
def addAll (cs : List (Int × Int × Int)) (acc : Accumulator) : Accumulator :=
  cs.foldl (fun acc t => accAdd acc t.1 t.2.1 t.2.2) acc

/-- The exact products `valsA[i] * valsB[j]` that entry `i` of `A` forms with the
entries of `B`, each with its target cell. -/
def exactProducts (A B : COO) (i : Nat) : List (Int × Int × Int) :=
  (List.range B.rows.length).filterMap (fun j =>
    if B.rows.getD j 0 = A.cols.getD i 0 then
      some (A.rows.getD i 0, B.cols.getD j 0, A.vals.getD i 0 * B.vals.getD j 0)
    else none)

/-- A triple with its value reduced to `int`. -/
def wrapVal (t : Int × Int × Int) : Int × Int × Int := (t.1, t.2.1, wrap32 t.2.2)

/-- The exact dot product of row `i` of `M1` and column `j` of `M2`. -/
def dot (M1 M2 : DenseMatrix) (n i j : Nat) : Int :=
  ((List.range n).map (fun k => cell M1 i k * cell M2 k j)).sum

/-- Every cell of the `n × n` matrix holds an `int`. -/
def InIntRange (M : DenseMatrix) (n : Nat) : Prop :=
  ∀ i j, i < n → j < n → wrap32 (cell M i j) = cell M i j

/-- The closed form of the start of block `t`. -/
def blockStart (K W t : Nat) : Nat := t * (K / W) + min t (K % W)

/-! ## The threaded classical multiplication -/

/-- The worker body `multiplyRows` of `threadedClassicalMultiplication`:
`M3[i][j] += M1[i][k] * M2[k][j]` for the rows `[startRow, endRow)`. -/
def multiplyRows (M1 M2 M3 : DenseMatrix) (n startRow endRow : Nat) : DenseMatrix :=
  (List.range' startRow (endRow - startRow)).foldl (fun M3 i =>
    (List.range n).foldl (fun M3 j =>
      (List.range n).foldl (fun M3 k =>
        updateCell M3 i j (fun x => addInt x (mulInt (cell M1 i k) (cell M2 k j)))) M3) M3) M3

/-- The multiplication `threadedClassicalMultiplication` run with `W` workers; the
workers own disjoint row ranges of `M3` and are taken in index order. -/
def threadedClassicalMultiplication (W : Nat) (M1 M2 M3 : DenseMatrix) (n : Nat) : DenseMatrix :=
  (List.range W).foldl (fun M3 t =>
    multiplyRows M1 M2 M3 n (rowRange n W t).1 (rowRange n W t).2) M3

/-! ## The coordinate part of `main` -/

/-- The two conversions and the two multiplications of `main`: `multiplyCOO` and then
`multiMultiplyCOO` push to the same vectors `rows3`, `cols3`, `vals3`. -/
def mainCoordinate (W n : Nat) (M1 M2 : DenseMatrix) : COO :=
  let c1 := matrixToCOO W M1 n COO.empty
  let c2 := matrixToCOO W M2 n COO.empty
  let c3 := multiplyCOO c1 c2 COO.empty
  multiMultiplyCOO W c1 c2 c3

/-- The number of indices `k` with `(rows[k], cols[k]) = (r, c)`. -/
def cellCount (C : COO) (r c : Int) : Nat :=
  ((List.range C.rows.length).filter (fun k =>
    decide (C.rows.getD k 0 = r ∧ C.cols.getD k 0 = c))).length

/-! ## Executions with checked steps

The functions below repeat the loops of the program with every step that can go wrong
made explicit: a division by the worker count, a read or a write of a vector element, and
an arithmetic operation on `int`.  A failed step yields `none`. -/

/-- The arithmetic used by a checked execution: `none` marks a result that is not
accepted. -/
structure Arith where
  add : Int → Int → Option Int
  mul : Int → Int → Option Int

/-- The arithmetic of the embedding: every result is reduced to 32 bits and accepted. -/
def wrapArith : Arith := ⟨fun a b => some (addInt a b), fun a b => some (mulInt a b)⟩

/-- Exact arithmetic that accepts a result only when it lies in `[lo, hi]`. -/
def boundedArith (lo hi : Int) : Arith :=
  ⟨fun a b => if lo ≤ a + b ∧ a + b ≤ hi then some (a + b) else none,
   fun a b => if lo ≤ a * b ∧ a * b ≤ hi then some (a * b) else none⟩

/-- The statement `m[col] += v` with checked arithmetic. -/
def colMapAddChecked (ar : Arith) : ColMap → Int → Int → Option ColMap
  | [], col, v => (ar.add 0 v).map (fun s => [(col, s)])
  | (k, x) :: rest, col, v =>
    if k = col then (ar.add x v).map (fun s => (k, s) :: rest)
    else (colMapAddChecked ar rest col v).map (fun m => (k, x) :: m)

/-- The statement `result[row][col] += v` with checked arithmetic. -/
def accAddChecked (ar : Arith) : Accumulator → Int → Int → Int → Option Accumulator
  | [], row, col, v => (colMapAddChecked ar [] col v).map (fun m => [(row, m)])
  | (k, m) :: rest, row, col, v =>
    if k = row then (colMapAddChecked ar m col v).map (fun m' => (k, m') :: rest)
    else (accAddChecked ar rest row col v).map (fun acc => (k, m) :: acc)

/-- The body of the loop over the entries of `A`, with checked reads and arithmetic. -/
def joinEntryChecked (ar : Arith) (A B : COO) (result : Accumulator) (i : Nat) :
    Option Accumulator := do
  let rowA ← A.rows[i]?
  let colA ← A.cols[i]?
  let valA ← A.vals[i]?
  (List.range B.rows.length).foldlM (fun result j => do
    let rowB ← B.rows[j]?
    if rowB = colA then do
      let colB ← B.cols[j]?
      let valB ← B.vals[j]?
      let product ← ar.mul valA valB
      accAddChecked ar result rowA colB product
    else pure result) result

/-- The worker body `threadTask` with checked steps. -/
def threadTaskChecked (ar : Arith) (A B : COO) (start stop : Nat) : Option Accumulator :=
  (List.range' start (stop - start)).foldlM (joinEntryChecked ar A B) []

/-- The sequential multiplier `multiplyCOO` with checked steps. -/
def multiplyCOOChecked (ar : Arith) (A B C : COO) : Option COO := do
  let result ← (List.range A.rows.length).foldlM (joinEntryChecked ar A B) []
  pure (emit result C)

/-- The merge of one local accumulator with checked arithmetic. -/
def mergeLocalChecked (ar : Arith) (result localResult : Accumulator) : Option Accumulator :=
  localResult.foldlM (fun result rowEntry =>
    rowEntry.2.foldlM (fun result colEntry =>
      accAddChecked ar result rowEntry.1 colEntry.1 colEntry.2) result) result

/-- The parallel multiplier `multiMultiplyCOO` with checked steps: the division by the
worker count, the workers pushed to `futures` in index order, the merge, the emission. -/
def multiMultiplyCOOChecked (ar : Arith) (W : Nat) (A B C : COO) : Option COO :=
  if W = 0 then none else do
    let futures ← (entryRanges A.rows.length W).foldlM (fun futures r => do
      let localResult ← threadTaskChecked ar A B r.1 r.2
      pure (futures ++ [localResult])) []
    let result ← futures.foldlM (mergeLocalChecked ar) []
    pure (emit result C)

/-- The worker body `processRows` with checked reads of `M[i][j]`. -/
def processRowsChecked (M : DenseMatrix) (n : Nat) (buf : COO) (startRow endRow : Nat) :
    Option COO :=
  (List.range' startRow (endRow - startRow)).foldlM (fun buf (i : Nat) =>
    (List.range n).foldlM (fun buf (j : Nat) => do
      let row ← (M[i]? : Option (List Int))
      let x ← (row[j]? : Option Int)
      pure (if x ≠ 0 then buf.push (i : Int) (j : Int) x else buf)) buf) buf

/-- The conversion `matrixToCOO` with checked steps. -/
def matrixToCOOChecked (W : Nat) (M : DenseMatrix) (n : Nat) (out : COO) : Option COO :=
  if W = 0 then none else do
    let threadBufs ← (List.range W).foldlM (fun bufs t => do
      let buf ← processRowsChecked M n COO.empty (rowRange n W t).1 (rowRange n W t).2
      pure (bufs ++ [buf])) []
    pure (threadBufs.foldl COO.insertEnd out)

/-! ## The generator -/

/-- The outcomes of the random draws made for the cell `(i, j)`: whether the draw of `dis`
falls below `prob`, and the number that `randnum` returns when it is asked. -/
structure Draws where
  below : Nat → Nat → Bool
  value : Nat → Nat → Int

/-- The assignment `Matrix[i][j] = v`; `none` when the cell does not exist. -/
def writeCell (M : DenseMatrix) (i j : Nat) (v : Int) : Option DenseMatrix :=
  if i < M.length ∧ j < (M.getD i []).length then some (updateCell M i j (fun _ => v)) else none

/-- The worker body `generateRows` of `SparseMatrixGenerator`. -/
def generateRows (d : Draws) (Matrix : DenseMatrix) (n startRow endRow : Nat) :
    Option DenseMatrix :=
  (List.range' startRow (endRow - startRow)).foldlM (fun Matrix i =>
    (List.range n).foldlM (fun Matrix j =>
      if d.below i j then writeCell Matrix i j (d.value i j) else pure Matrix) Matrix) Matrix

/-- The generator `SparseMatrixGenerator` run with `W` workers on the draws `d`; the
workers own disjoint row ranges and are taken in index order. -/
def SparseMatrixGenerator (W : Nat) (d : Draws) (Matrix : DenseMatrix) (n : Nat) :
    Option DenseMatrix :=
  if W = 0 then none else
    (List.range W).foldlM (fun Matrix t =>
      generateRows d Matrix n (rowRange n W t).1 (rowRange n W t).2) Matrix

/-- The accumulator holds a cell at `(row, col)`. -/
def hasKey (acc : Accumulator) (r c : Int) : Prop :=
  ∃ m, (r, m) ∈ acc ∧ c ∈ m.map Prod.fst

/-- The statements `acc[row][col] += value` with checked arithmetic, one for each triple
of `cs` in order. -/
def addAllChecked (ar : Arith) (cs : List (Int × Int × Int)) (acc : Accumulator) :
    Option Accumulator :=
  cs.foldlM (fun acc t => accAddChecked ar acc t.1 t.2.1 t.2.2) acc

/-! # Properties -/

/-! ## The range partitions -/

theorem rowRange_fst (K W t : Nat) : (rowRange K W t).1 = blockStart K W t := rfl

theorem rowRange_snd (K W t : Nat) : (rowRange K W t).2 = blockStart K W (t + 1) := by
  simp only [rowRange, blockStart, Nat.add_mul, Nat.one_mul]
  split <;> omega

theorem blockStart_zero (K W : Nat) : blockStart K W 0 = 0 := by
  simp [blockStart]

theorem blockStart_last (K W : Nat) (hW : 1 ≤ W) : blockStart K W W = K := by
  have h1 : K % W < W := Nat.mod_lt _ (by omega)
  have h2 := Nat.div_add_mod K W
  simp only [blockStart]
  rw [Nat.min_eq_right (by omega)]
  exact h2

theorem blockStart_succ (K W t : Nat) :
    blockStart K W (t + 1) = blockStart K W t + K / W + (if t < K % W then 1 else 0) := by
  simp only [blockStart, Nat.add_mul, Nat.one_mul]
  split <;> omega

theorem blockStart_mono (K W : Nat) {s t : Nat} (h : s ≤ t) :
    blockStart K W s ≤ blockStart K W t := by
  induction t with
  | zero => have : s = 0 := by omega
            subst this; exact Nat.le_refl _
  | succ t ih =>
    rcases Nat.lt_or_ge s (t + 1) with h1 | h1
    · have h2 := ih (by omega)
      have h3 : blockStart K W t ≤ blockStart K W (t + 1) := by
        rw [blockStart_succ, Nat.add_assoc]; exact Nat.le_add_right _ _
      exact Nat.le_trans h2 h3
    · have : s = t + 1 := by omega
      subst this; exact Nat.le_refl _

theorem blockStart_exists (K W k : Nat) :
    ∀ m, k < blockStart K W m → ∃ t, t < m ∧ blockStart K W t ≤ k ∧ k < blockStart K W (t + 1) := by
  intro m
  induction m with
  | zero => intro h; rw [blockStart_zero] at h; omega
  | succ m ih =>
    intro h
    rcases Nat.lt_or_ge k (blockStart K W m) with h1 | h1
    · obtain ⟨t, ht, h2, h3⟩ := ih h1
      exact ⟨t, by omega, h2, h3⟩
    · exact ⟨m, by omega, h1, h⟩

theorem entryRanges_foldl (K W m : Nat) :
    (List.range m).foldl (fun (st : Nat × List (Nat × Nat)) t =>
        (st.1 + K / W + (if t < K % W then 1 else 0),
          st.2 ++ [(st.1, st.1 + K / W + (if t < K % W then 1 else 0))])) (0, [])
      = (blockStart K W m, (List.range m).map (fun t => (blockStart K W t, blockStart K W (t + 1)))) := by
  induction m with
  | zero => simp [blockStart]
  | succ m ih =>
    rw [List.range_succ, List.foldl_append, ih]
    simp [blockStart_succ]

theorem entryRanges_eq (K W : Nat) :
    entryRanges K W = (List.range W).map (fun t => (blockStart K W t, blockStart K W (t + 1))) := by
  unfold entryRanges entryRangesLoop
  exact congrArg Prod.snd (entryRanges_foldl K W W)

theorem entryRanges_length (K W : Nat) : (entryRanges K W).length = W := by
  simp [entryRanges_eq]

theorem entryRanges_getD (K W t : Nat) (ht : t < W) :
    (entryRanges K W).getD t (0, 0) = (blockStart K W t, blockStart K W (t + 1)) := by
  rw [entryRanges_eq, List.getD_eq_getElem?_getD, List.getElem?_map,
    List.getElem?_range ht]
  rfl

theorem isExactCover_blockStart (K W : Nat) (hW : 1 ≤ W) (P : Nat → Nat × Nat)
    (hP : ∀ t, t < W → P t = (blockStart K W t, blockStart K W (t + 1))) :
    IsExactCover K W P := by
  refine ⟨?_, ?_, ?_, ?_, ?_⟩
  · rw [hP 0 (by omega)]; exact blockStart_zero K W
  · intro t ht
    rw [hP t (by omega), hP (t + 1) ht]
  · intro t ht
    rw [hP t ht]; exact blockStart_mono K W (Nat.le_succ t)
  · rw [hP (W - 1) (by omega)]
    have : W - 1 + 1 = W := by omega
    simp only [this]; exact blockStart_last K W hW
  · intro k hk
    obtain ⟨t, ht, h1, h2⟩ := blockStart_exists K W k W (by rw [blockStart_last K W hW]; exact hk)
    refine ⟨t, ⟨ht, by rw [hP t ht]; exact h1, by rw [hP t ht]; exact h2⟩, ?_⟩
    rintro u ⟨hu, h3, h4⟩
    rw [hP u hu] at h3 h4
    simp only at h3 h4
    rcases Nat.lt_trichotomy u t with h | h | h
    · have h5 : blockStart K W (u + 1) ≤ blockStart K W t := blockStart_mono K W h
      omega
    · exact h
    · have h5 : blockStart K W (t + 1) ≤ blockStart K W u := blockStart_mono K W h
      omega

/-- C7: for every size `K` and every worker count `W ≥ 1`, the `W` ranges of the
closed-form row partition (`SparseMatrixGenerator`, `matrixToCOO`) and the `W` ranges
of the running-start entry partition (`multiMultiplyCOO`) start at `0`, are contiguous
(`end_t = start_(t+1)`), are non-decreasing (`start_t ≤ end_t`), end at `K`, and every
index of `[0, K)` lies in exactly one range. -/
theorem partition_exact_cover (K W : Nat) (hW : 1 ≤ W) :
    IsExactCover K W (rowRange K W) ∧
    (entryRanges K W).length = W ∧
    IsExactCover K W (fun t => (entryRanges K W).getD t (0, 0)) := by
  refine ⟨?_, entryRanges_length K W, ?_⟩
  · apply isExactCover_blockStart K W hW
    intro t _
    exact Prod.ext (rowRange_fst K W t) (rowRange_snd K W t)
  · apply isExactCover_blockStart K W hW
    intro t ht
    exact entryRanges_getD K W t ht

theorem partition_exact_cover_witness :
    1 ≤ 3 ∧ (IsExactCover 10 3 (rowRange 10 3) ∧
      (entryRanges 10 3).length = 3 ∧
      IsExactCover 10 3 (fun t => (entryRanges 10 3).getD t (0, 0))) :=
  ⟨by decide, partition_exact_cover 10 3 (by decide)⟩

/-- C8: for every size `K`, worker count `W` and block index `t < W`, block `t` has
`K / W + 1` elements when `t < K mod W` and `K / W` elements otherwise, in the
closed-form row partition and in the running-start entry partition alike, and block
`t` of the entry partition starts at `t * (K / W) + min t (K mod W)`. -/
theorem block_sizes (K W t : Nat) (ht : t < W) :
    (rowRange K W t).1 = t * (K / W) + min t (K % W) ∧
    (rowRange K W t).2 = (rowRange K W t).1 + (if t < K % W then K / W + 1 else K / W) ∧
    ((entryRanges K W).getD t (0, 0)).1 = t * (K / W) + min t (K % W) ∧
    ((entryRanges K W).getD t (0, 0)).2
      = ((entryRanges K W).getD t (0, 0)).1 + (if t < K % W then K / W + 1 else K / W) := by
  rw [entryRanges_getD K W t ht, rowRange_fst, rowRange_snd, blockStart_succ]
  refine ⟨rfl, ?_, rfl, ?_⟩ <;> split <;> omega

theorem block_sizes_witness :
    (2 : Nat) < 5 ∧ ((rowRange 13 5 2).1 = 2 * (13 / 5) + min 2 (13 % 5) ∧
    (rowRange 13 5 2).2 = (rowRange 13 5 2).1 + (if 2 < 13 % 5 then 13 / 5 + 1 else 13 / 5) ∧
    ((entryRanges 13 5).getD 2 (0, 0)).1 = 2 * (13 / 5) + min 2 (13 % 5) ∧
    ((entryRanges 13 5).getD 2 (0, 0)).2
      = ((entryRanges 13 5).getD 2 (0, 0)).1 + (if 2 < 13 % 5 then 13 / 5 + 1 else 13 / 5)) :=
  ⟨by decide, block_sizes 13 5 2 (by decide)⟩

/-! ## Coordinate lists as lists of triples -/

theorem insertEnd_empty (C : COO) : C.insertEnd COO.empty = C := by
  simp [COO.insertEnd, COO.empty]

theorem empty_insertEnd (C : COO) : COO.empty.insertEnd C = C := by
  simp [COO.insertEnd, COO.empty]

theorem insertEnd_assoc (C D E : COO) : (C.insertEnd D).insertEnd E = C.insertEnd (D.insertEnd E) := by
  simp [COO.insertEnd]

theorem ofTriples_nil : COO.ofTriples [] = COO.empty := rfl

theorem ofTriples_append (l₁ l₂ : List (Int × Int × Int)) :
    COO.ofTriples (l₁ ++ l₂) = (COO.ofTriples l₁).insertEnd (COO.ofTriples l₂) := by
  simp [COO.ofTriples, COO.insertEnd]

theorem push_eq_insertEnd (C : COO) (r c v : Int) :
    C.push r c v = C.insertEnd (COO.ofTriples [(r, c, v)]) := by
  simp [COO.push, COO.insertEnd, COO.ofTriples]

theorem insertEnd_ofTriples_push (C : COO) (l : List (Int × Int × Int)) (r c v : Int) :
    (C.insertEnd (COO.ofTriples l)).push r c v = C.insertEnd (COO.ofTriples (l ++ [(r, c, v)])) := by
  rw [push_eq_insertEnd, insertEnd_assoc, ← ofTriples_append]

theorem ofTriples_wellFormed (l : List (Int × Int × Int)) : (COO.ofTriples l).WellFormed := by
  simp [COO.ofTriples, COO.WellFormed]

theorem entry_ofTriples (l : List (Int × Int × Int)) (k : Nat) (hk : k < l.length) :
    (COO.ofTriples l).entry k = l[k] := by
  simp [COO.entry, COO.ofTriples, List.getD_eq_getElem?_getD, List.getElem?_map,
    List.getElem?_eq_getElem hk]

theorem triples_ofTriples (l : List (Int × Int × Int)) : (COO.ofTriples l).triples = l := by
  apply List.ext_getElem
  · simp [COO.triples, COO.ofTriples]
  · intro k h1 h2
    simp only [COO.triples, List.getElem_map, List.getElem_range]
    exact entry_ofTriples l k h2

/-! ## Dense to coordinate conversion -/

theorem rowLoop_eq (M : DenseMatrix) (i : Nat) (js : List Nat) (buf : COO)
    (l : List (Int × Int × Int)) :
    js.foldl (fun buf j => if cell M i j ≠ 0 then buf.push (i : Int) (j : Int) (cell M i j) else buf)
        (buf.insertEnd (COO.ofTriples l))
      = buf.insertEnd (COO.ofTriples (l ++ js.filterMap (fun j =>
          if cell M i j ≠ 0 then some ((i : Int), (j : Int), cell M i j) else none))) := by
  induction js generalizing l with
  | nil => simp
  | cons j js ih =>
    rw [List.foldl_cons, List.filterMap_cons]
    by_cases h : cell M i j ≠ 0
    · rw [if_pos h, if_pos h, insertEnd_ofTriples_push, ih]
      simp
    · rw [if_neg h, if_neg h, ih]

theorem rowsLoop_eq (M : DenseMatrix) (n : Nat) (is : List Nat) (buf : COO)
    (l : List (Int × Int × Int)) :
    is.foldl (fun buf i =>
        (List.range n).foldl (fun buf j =>
          if cell M i j ≠ 0 then buf.push (i : Int) (j : Int) (cell M i j) else buf) buf)
        (buf.insertEnd (COO.ofTriples l))
      = buf.insertEnd (COO.ofTriples (l ++ is.flatMap (rowScan M n))) := by
  induction is generalizing l with
  | nil => simp
  | cons i is ih =>
    rw [List.foldl_cons, rowLoop_eq, ih]
    simp [rowScan, List.flatMap_cons]

theorem processRows_eq (M : DenseMatrix) (n : Nat) (buf : COO) (a b : Nat) :
    processRows M n buf a b
      = buf.insertEnd (COO.ofTriples ((List.range' a (b - a)).flatMap (rowScan M n))) := by
  have h := rowsLoop_eq M n (List.range' a (b - a)) buf []
  rw [ofTriples_nil, insertEnd_empty, List.nil_append] at h
  exact h

theorem foldl_insertEnd_ofTriples {α : Type} (f : α → List (Int × Int × Int)) (ts : List α)
    (out : COO) (l : List (Int × Int × Int)) :
    (ts.map (fun t => COO.ofTriples (f t))).foldl COO.insertEnd (out.insertEnd (COO.ofTriples l))
      = out.insertEnd (COO.ofTriples (l ++ ts.flatMap f)) := by
  induction ts generalizing l with
  | nil => simp
  | cons t ts ih =>
    rw [List.map_cons, List.foldl_cons, insertEnd_assoc, ← ofTriples_append, ih]
    simp [List.flatMap_cons]

theorem range_blocks (K W : Nat) (m : Nat) :
    (List.range m).flatMap (fun t =>
        List.range' (blockStart K W t) (blockStart K W (t + 1) - blockStart K W t))
      = List.range' 0 (blockStart K W m) := by
  induction m with
  | zero => simp [blockStart_zero]
  | succ m ih =>
    rw [List.range_succ, List.flatMap_append, ih]
    have h := blockStart_mono K W (Nat.le_add_right m 1)
    have h2 := List.range'_append 0 (blockStart K W m) (blockStart K W (m + 1) - blockStart K W m) 1
    simp only [Nat.zero_add, Nat.one_mul] at h2
    simp only [List.flatMap_cons, List.flatMap_nil, List.append_nil]
    rw [h2]
    congr 1
    omega

theorem matrixToCOO_eq (W : Nat) (hW : 1 ≤ W) (M : DenseMatrix) (n : Nat) (out : COO) :
    matrixToCOO W M n out = out.insertEnd (COO.ofTriples (rowMajorScan M n)) := by
  unfold matrixToCOO
  have h1 : (List.range W).map (fun t =>
        processRows M n COO.empty (rowRange n W t).1 (rowRange n W t).2)
      = (List.range W).map (fun t => COO.ofTriples
          ((List.range' (blockStart n W t) (blockStart n W (t + 1) - blockStart n W t)).flatMap
            (rowScan M n))) := by
    apply List.map_congr_left
    intro t _
    rw [processRows_eq, empty_insertEnd, rowRange_fst, rowRange_snd]
  have h2 := foldl_insertEnd_ofTriples (fun t =>
      (List.range' (blockStart n W t) (blockStart n W (t + 1) - blockStart n W t)).flatMap
        (rowScan M n)) (List.range W) out []
  rw [ofTriples_nil, insertEnd_empty, List.nil_append] at h2
  simp only []
  rw [h1, h2]
  congr 2
  have h3 := range_blocks n W W
  rw [blockStart_last n W hW] at h3
  rw [rowMajorScan, List.range_eq_range' n, ← h3, List.flatMap_assoc]

/-! ## Sums over coordinate lists -/

theorem cellSum_eq_tripleSum (C : COO) (r c : Int) : cellSum C r c = tripleSum C.triples r c := by
  simp only [cellSum, tripleSum, COO.triples, List.map_map]
  rfl

theorem tripleSum_nil (r c : Int) : tripleSum [] r c = 0 := rfl

theorem tripleSum_cons (t : Int × Int × Int) (l : List (Int × Int × Int)) (r c : Int) :
    tripleSum (t :: l) r c = (if t.1 = r ∧ t.2.1 = c then t.2.2 else 0) + tripleSum l r c := by
  simp [tripleSum]

theorem tripleSum_append (l₁ l₂ : List (Int × Int × Int)) (r c : Int) :
    tripleSum (l₁ ++ l₂) r c = tripleSum l₁ r c + tripleSum l₂ r c := by
  simp [tripleSum]

theorem tripleSum_flatMap {α : Type} (f : α → List (Int × Int × Int)) (l : List α) (r c : Int) :
    tripleSum (l.flatMap f) r c = (l.map (fun a => tripleSum (f a) r c)).sum := by
  induction l with
  | nil => rfl
  | cons a l ih => simp [List.flatMap_cons, tripleSum_append, ih]

theorem sum_range_ite (n c : Nat) (g : Nat → Int) :
    ((List.range n).map (fun j => if j = c then g j else 0)).sum = if c < n then g c else 0 := by
  induction n with
  | zero => simp
  | succ n ih =>
    rw [List.range_succ, List.map_append, List.sum_append, ih]
    by_cases h1 : c < n
    · have h2 : ¬ n = c := by omega
      have h3 : c < n + 1 := by omega
      simp [h1, h2, h3]
    · by_cases h2 : n = c
      · subst h2; simp
      · have h3 : ¬ c < n + 1 := by omega
        simp [h1, h2, h3]

theorem tripleSum_rowScan (M : DenseMatrix) (n i : Nat) (r c : Int) :
    tripleSum (rowScan M n i) r c
      = ((List.range n).map (fun (j : Nat) =>
          if (i : Int) = r ∧ (j : Int) = c then cell M i j else 0)).sum := by
  unfold rowScan
  induction (List.range n) with
  | nil => rfl
  | cons j js ih =>
    rw [List.filterMap_cons, List.map_cons, List.sum_cons]
    by_cases h : cell M i j ≠ 0
    · rw [if_pos h, tripleSum_cons, ih]
    · rw [if_neg h, ih]
      have h0 : cell M i j = 0 := by simpa using h
      simp [h0]

theorem tripleSum_rowMajorScan (M : DenseMatrix) (n i j : Nat) (hi : i < n) (hj : j < n) :
    tripleSum (rowMajorScan M n) (i : Int) (j : Int) = cell M i j := by
  unfold rowMajorScan
  rw [tripleSum_flatMap]
  have h1 : (fun a => tripleSum (rowScan M n a) (i : Int) (j : Int))
      = (fun a => if a = i then cell M a j else 0) := by
    funext a
    rw [tripleSum_rowScan]
    by_cases h : a = i
    · subst h
      have := sum_range_ite n j (fun b => cell M a b)
      simp only [hj, if_true] at this
      simpa using this
    · have h2 : ¬ ((a : Int) = (i : Int)) := by omega
      simp [h, h2]
  rw [h1, sum_range_ite n i (fun a => cell M a j), if_pos hi]

/-! ## Dense matrices -/

theorem cell_eq (M : DenseMatrix) (i j : Nat) : cell M i j = ((M[i]?.getD [])[j]?).getD 0 := by
  simp [cell, List.getD_eq_getElem?_getD]

theorem cell_updateCell (M : DenseMatrix) (n i j : Nat) (f : Int → Int) (hM : IsSquare M n)
    (hi : i < n) (hj : j < n) (i' j' : Nat) :
    cell (updateCell M i j f) i' j' = if i = i' ∧ j = j' then f (cell M i j) else cell M i' j' := by
  obtain ⟨h1, h2⟩ := hM
  have hi' : i < M.length := by omega
  have hrow : (M[i]?.getD []).length = n := by
    rw [List.getElem?_eq_getElem hi']
    exact h2 _ (List.getElem_mem hi')
  rw [cell_eq, updateCell, List.getD_eq_getElem?_getD, List.getElem?_set]
  by_cases h3 : i = i'
  · subst h3
    rw [if_pos rfl, if_pos hi', Option.getD_some, List.getElem?_set]
    by_cases h4 : j = j'
    · subst h4
      simp [hrow, hj]
    · simp [h4, cell_eq, List.getD_eq_getElem?_getD]
  · simp [h3, cell_eq]

theorem isSquare_updateCell (M : DenseMatrix) (n i j : Nat) (f : Int → Int) (hM : IsSquare M n) :
    IsSquare (updateCell M i j f) n := by
  obtain ⟨h1, h2⟩ := hM
  refine ⟨by simp [updateCell, h1], ?_⟩
  intro row hrow
  by_cases hi : i < M.length
  · rcases List.mem_or_eq_of_mem_set hrow with h | h
    · exact h2 row h
    · rw [h, List.length_set, List.getD_eq_getElem?_getD, List.getElem?_eq_getElem hi]
      exact h2 _ (List.getElem_mem hi)
  · have h3 : updateCell M i j f = M := by
      unfold updateCell
      exact List.set_eq_of_length_le (by omega)
    rw [h3] at hrow
    exact h2 row hrow

theorem isSquare_zeroMatrix (n : Nat) : IsSquare (zeroMatrix n) n := by
  refine ⟨by simp [zeroMatrix], ?_⟩
  intro row hrow
  simp only [zeroMatrix, List.mem_replicate] at hrow
  simp [hrow.2]

theorem cell_zeroMatrix (n i j : Nat) : cell (zeroMatrix n) i j = 0 := by
  rw [cell_eq, zeroMatrix, List.getElem?_replicate]
  by_cases hi : i < n
  · rw [if_pos hi, Option.getD_some, List.getElem?_replicate]
    by_cases hj : j < n
    · simp [hj]
    · simp [hj]
  · simp [hi]

theorem isSquare_ext (M M' : DenseMatrix) (n : Nat) (hM : IsSquare M n) (hM' : IsSquare M' n)
    (h : ∀ i j, i < n → j < n → cell M i j = cell M' i j) : M = M' := by
  obtain ⟨h1, h2⟩ := hM
  obtain ⟨h1', h2'⟩ := hM'
  apply List.ext_getElem (by omega)
  intro i hi hi'
  have e1 := h2 _ (List.getElem_mem hi)
  have e2 := h2' _ (List.getElem_mem hi')
  apply List.ext_getElem (by omega)
  intro j hj hj'
  have := h i j (by omega) (by omega)
  rw [cell_eq, cell_eq, List.getElem?_eq_getElem hi, List.getElem?_eq_getElem hi'] at this
  simpa [List.getElem?_eq_getElem hj, List.getElem?_eq_getElem hj'] using this

theorem cell_updateCell_ne (M : DenseMatrix) (i j : Nat) (f : Int → Int) (i' j' : Nat)
    (h : ¬ (i = i' ∧ j = j')) : cell (updateCell M i j f) i' j' = cell M i' j' := by
  rw [cell_eq, cell_eq, updateCell, List.getD_eq_getElem?_getD, List.getElem?_set]
  by_cases h1 : i = i'
  · subst h1
    have h2 : ¬ j = j' := fun h3 => h ⟨rfl, h3⟩
    by_cases hi : i < M.length
    · rw [if_pos rfl, if_pos hi, Option.getD_some, List.getElem?_set, if_neg h2]
    · rw [if_pos rfl, if_neg hi, List.getElem?_eq_none (Nat.le_of_not_lt hi)]
  · rw [if_neg h1]

theorem toDense_foldl (C : COO) (n : Nat) (ks : List Nat) (D : DenseMatrix) (hD : IsSquare D n) :
    IsSquare (ks.foldl (fun D k =>
        if 0 ≤ C.rows.getD k 0 ∧ 0 ≤ C.cols.getD k 0 then
          updateCell D (C.rows.getD k 0).toNat (C.cols.getD k 0).toNat (fun x => x + C.vals.getD k 0)
        else D) D) n ∧
    ∀ i j, i < n → j < n →
      cell (ks.foldl (fun D k =>
        if 0 ≤ C.rows.getD k 0 ∧ 0 ≤ C.cols.getD k 0 then
          updateCell D (C.rows.getD k 0).toNat (C.cols.getD k 0).toNat (fun x => x + C.vals.getD k 0)
        else D) D) i j
      = cell D i j + (ks.map (fun k =>
          if C.rows.getD k 0 = (i : Int) ∧ C.cols.getD k 0 = (j : Int) then C.vals.getD k 0
          else 0)).sum := by
  induction ks generalizing D with
  | nil => exact ⟨hD, by simp⟩
  | cons k ks ih =>
    rw [List.foldl_cons]
    by_cases h : 0 ≤ C.rows.getD k 0 ∧ 0 ≤ C.cols.getD k 0
    · rw [if_pos h]
      obtain ⟨h1, h2⟩ := ih _ (isSquare_updateCell D n (C.rows.getD k 0).toNat
        (C.cols.getD k 0).toNat (fun x => x + C.vals.getD k 0) hD)
      refine ⟨h1, ?_⟩
      intro i j hi hj
      rw [h2 i j hi hj, List.map_cons, List.sum_cons, ← Int.add_assoc]
      congr 1
      by_cases h3 : C.rows.getD k 0 = (i : Int) ∧ C.cols.getD k 0 = (j : Int)
      · have e1 : (C.rows.getD k 0).toNat = i := by omega
        have e2 : (C.cols.getD k 0).toNat = j := by omega
        rw [if_pos h3, e1, e2, cell_updateCell D n i j _ hD hi hj, if_pos ⟨rfl, rfl⟩]
      · rw [if_neg h3, cell_updateCell_ne, Int.add_zero]
        intro h4
        apply h3
        omega
    · rw [if_neg h]
      obtain ⟨h1, h2⟩ := ih _ hD
      refine ⟨h1, ?_⟩
      intro i j hi hj
      rw [h2 i j hi hj, List.map_cons, List.sum_cons]
      have h3 : ¬ (C.rows.getD k 0 = (i : Int) ∧ C.cols.getD k 0 = (j : Int)) := by
        intro h4
        apply h
        omega
      rw [if_neg h3, Int.zero_add]

theorem isSquare_toDense (n : Nat) (C : COO) : IsSquare (toDense n C) n :=
  (toDense_foldl C n (List.range C.rows.length) (zeroMatrix n) (isSquare_zeroMatrix n)).1

theorem cell_toDense (n : Nat) (C : COO) (i j : Nat) (hi : i < n) (hj : j < n) :
    cell (toDense n C) i j = cellSum C (i : Int) (j : Int) := by
  have h := (toDense_foldl C n (List.range C.rows.length) (zeroMatrix n)
    (isSquare_zeroMatrix n)).2 i j hi hj
  rw [cell_zeroMatrix, Int.zero_add] at h
  exact h

/-! ## The conversion `matrixToCOO` -/

theorem mem_rowScan (M : DenseMatrix) (n i : Nat) (t : Int × Int × Int) :
    t ∈ rowScan M n i ↔ ∃ j, j < n ∧ cell M i j ≠ 0 ∧ t = ((i : Int), (j : Int), cell M i j) := by
  unfold rowScan
  rw [List.mem_filterMap]
  constructor
  · rintro ⟨j, hj, h⟩
    by_cases h0 : cell M i j ≠ 0
    · rw [if_pos h0] at h
      exact ⟨j, List.mem_range.mp hj, h0, (Option.some.inj h).symm⟩
    · rw [if_neg h0] at h
      exact absurd h (by simp)
  · rintro ⟨j, hj, h0, rfl⟩
    exact ⟨j, List.mem_range.mpr hj, by rw [if_pos h0]⟩

theorem mem_rowMajorScan (M : DenseMatrix) (n : Nat) (t : Int × Int × Int) :
    t ∈ rowMajorScan M n
      ↔ ∃ i j, i < n ∧ j < n ∧ cell M i j ≠ 0 ∧ t = ((i : Int), (j : Int), cell M i j) := by
  unfold rowMajorScan
  rw [List.mem_flatMap]
  constructor
  · rintro ⟨i, hi, h⟩
    obtain ⟨j, hj, h0, rfl⟩ := (mem_rowScan M n i t).mp h
    exact ⟨i, j, List.mem_range.mp hi, hj, h0, rfl⟩
  · rintro ⟨i, j, hi, hj, h0, rfl⟩
    exact ⟨i, List.mem_range.mpr hi, (mem_rowScan M n i _).mpr ⟨j, hj, h0, rfl⟩⟩

theorem pairwise_keyLt_rowMajorScan (M : DenseMatrix) (n : Nat) :
    (rowMajorScan M n).Pairwise keyLt := by
  unfold rowMajorScan
  rw [List.pairwise_flatMap]
  constructor
  · intro i _
    unfold rowScan
    rw [List.pairwise_filterMap]
    apply (List.pairwise_lt_range n).imp
    intro a b hab x hx y hy
    by_cases ha : cell M i a ≠ 0
    · by_cases hb : cell M i b ≠ 0
      · rw [if_pos ha] at hx
        rw [if_pos hb] at hy
        have ex := Option.some.inj hx
        have ey := Option.some.inj hy
        subst ex; subst ey
        exact Or.inr ⟨rfl, by simpa using hab⟩
      · rw [if_neg hb] at hy
        exact absurd hy (by simp)
    · rw [if_neg ha] at hx
      exact absurd hx (by simp)
  · apply (List.pairwise_lt_range n).imp
    intro a b hab x hx y hy
    obtain ⟨j, _, _, rfl⟩ := (mem_rowScan M n a x).mp hx
    obtain ⟨j', _, _, rfl⟩ := (mem_rowScan M n b y).mp hy
    exact Or.inl (by simpa using hab)

theorem keyNe_of_keyLt {a b : Int × Int × Int} (h : keyLt a b) : keyNe a b := by
  unfold keyLt at h
  unfold keyNe
  omega

theorem index_inj_of_pairwise_keyNe (l : List (Int × Int × Int)) (h : l.Pairwise keyNe)
    (k m : Nat) (hk : k < (COO.ofTriples l).rows.length) (hm : m < (COO.ofTriples l).rows.length)
    (hr : (COO.ofTriples l).rows.getD k 0 = (COO.ofTriples l).rows.getD m 0)
    (hc : (COO.ofTriples l).cols.getD k 0 = (COO.ofTriples l).cols.getD m 0) : k = m := by
  have hlen : (COO.ofTriples l).rows.length = l.length := by simp [COO.ofTriples]
  rw [hlen] at hk hm
  have ek := entry_ofTriples l k hk
  have em := entry_ofTriples l m hm
  simp only [COO.entry] at ek em
  have hk1 : (COO.ofTriples l).rows.getD k 0 = l[k].1 := congrArg (fun t => t.1) ek
  have hk2 : (COO.ofTriples l).cols.getD k 0 = l[k].2.1 := congrArg (fun t => t.2.1) ek
  have hm1 : (COO.ofTriples l).rows.getD m 0 = l[m].1 := congrArg (fun t => t.1) em
  have hm2 : (COO.ofTriples l).cols.getD m 0 = l[m].2.1 := congrArg (fun t => t.2.1) em
  rw [hk1, hm1] at hr
  rw [hk2, hm2] at hc
  rw [List.pairwise_iff_getElem] at h
  rcases Nat.lt_trichotomy k m with h1 | h1 | h1
  · have := h k m hk hm h1
    unfold keyNe at this
    omega
  · exact h1
  · have := h m k hm hk h1
    unfold keyNe at this
    omega

/-- C4: for an `n × n` matrix `M` and `W ≥ 1` workers, `matrixToCOO` with empty output
vectors returns a list in which the triple `(r, c, v)` occurs exactly when
`0 ≤ r, c < n` and `M[r][c] = v ≠ 0`, and no `(row, col)` pair sits at two different
indices. -/
theorem matrixToCOO_exact (W : Nat) (M : DenseMatrix) (n : Nat) (hW : 1 ≤ W)
    (hM : IsSquare M n) :
    (∀ r c v : Int, (r, c, v) ∈ (matrixToCOO W M n COO.empty).triples
      ↔ (0 ≤ r ∧ r < n ∧ 0 ≤ c ∧ c < n ∧ cell M r.toNat c.toNat = v ∧ v ≠ 0)) ∧
    (∀ k m : Nat, k < (matrixToCOO W M n COO.empty).rows.length →
      m < (matrixToCOO W M n COO.empty).rows.length →
      (matrixToCOO W M n COO.empty).rows.getD k 0 = (matrixToCOO W M n COO.empty).rows.getD m 0 →
      (matrixToCOO W M n COO.empty).cols.getD k 0 = (matrixToCOO W M n COO.empty).cols.getD m 0 →
      k = m) := by
  have _ := hM
  rw [matrixToCOO_eq W hW, empty_insertEnd, triples_ofTriples]
  constructor
  · intro r c v
    rw [mem_rowMajorScan]
    constructor
    · rintro ⟨i, j, hi, hj, h0, h⟩
      simp only [Prod.mk.injEq] at h
      obtain ⟨rfl, rfl, rfl⟩ := h
      refine ⟨by omega, by omega, by omega, by omega, ?_, h0⟩
      simp
    · rintro ⟨h1, h2, h3, h4, h5, h6⟩
      refine ⟨r.toNat, c.toNat, by omega, by omega, by rw [h5]; exact h6, ?_⟩
      rw [h5]
      have e1 : ((r.toNat : Nat) : Int) = r := Int.toNat_of_nonneg h1
      have e2 : ((c.toNat : Nat) : Int) = c := Int.toNat_of_nonneg h3
      rw [e1, e2]
  · exact index_inj_of_pairwise_keyNe _
      ((pairwise_keyLt_rowMajorScan M n).imp keyNe_of_keyLt)

theorem matrixToCOO_exact_witness :
    1 ≤ 2 ∧ IsSquare [[0, 2, 0], [0, 0, 0], [5, 0, 1]] 3 ∧
    ((∀ r c v : Int,
      (r, c, v) ∈ (matrixToCOO 2 [[0, 2, 0], [0, 0, 0], [5, 0, 1]] 3 COO.empty).triples
      ↔ (0 ≤ r ∧ r < (3 : Nat) ∧ 0 ≤ c ∧ c < (3 : Nat) ∧
          cell [[0, 2, 0], [0, 0, 0], [5, 0, 1]] r.toNat c.toNat = v ∧ v ≠ 0)) ∧
    (∀ k m : Nat, k < (matrixToCOO 2 [[0, 2, 0], [0, 0, 0], [5, 0, 1]] 3 COO.empty).rows.length →
      m < (matrixToCOO 2 [[0, 2, 0], [0, 0, 0], [5, 0, 1]] 3 COO.empty).rows.length →
      (matrixToCOO 2 [[0, 2, 0], [0, 0, 0], [5, 0, 1]] 3 COO.empty).rows.getD k 0
        = (matrixToCOO 2 [[0, 2, 0], [0, 0, 0], [5, 0, 1]] 3 COO.empty).rows.getD m 0 →
      (matrixToCOO 2 [[0, 2, 0], [0, 0, 0], [5, 0, 1]] 3 COO.empty).cols.getD k 0
        = (matrixToCOO 2 [[0, 2, 0], [0, 0, 0], [5, 0, 1]] 3 COO.empty).cols.getD m 0 →
      k = m)) :=
  ⟨by decide, by decide, matrixToCOO_exact 2 [[0, 2, 0], [0, 0, 0], [5, 0, 1]] 3 (by decide) (by decide)⟩

/-- C5: for an `n × n` matrix `M` and `W ≥ 1` workers, the dense reconstruction of the
output of `matrixToCOO` (from zeros, adding `vals[k]` at `(rows[k], cols[k])`) is `M`. -/
theorem matrixToCOO_roundtrip (W : Nat) (M : DenseMatrix) (n : Nat) (hW : 1 ≤ W)
    (hM : IsSquare M n) : toDense n (matrixToCOO W M n COO.empty) = M := by
  apply isSquare_ext _ _ n (isSquare_toDense n _) hM
  intro i j hi hj
  rw [cell_toDense n _ i j hi hj, cellSum_eq_tripleSum, matrixToCOO_eq W hW, empty_insertEnd,
    triples_ofTriples, tripleSum_rowMajorScan M n i j hi hj]

theorem matrixToCOO_roundtrip_witness :
    1 ≤ 2 ∧ IsSquare [[0, 2, 0], [0, 0, 0], [5, 0, 1]] 3 ∧
    toDense 3 (matrixToCOO 2 [[0, 2, 0], [0, 0, 0], [5, 0, 1]] 3 COO.empty)
      = [[0, 2, 0], [0, 0, 0], [5, 0, 1]] :=
  ⟨by decide, by decide,
    matrixToCOO_roundtrip 2 [[0, 2, 0], [0, 0, 0], [5, 0, 1]] 3 (by decide) (by decide)⟩

/-- C6: for an `n × n` matrix `M`, the sequence returned by `matrixToCOO` is the same for
all worker counts `W, W' ≥ 1`, it is the single-pass row-major scan of `M`, and its
`(row, col)` pairs are strictly increasing in the order "row first, then column". -/
theorem matrixToCOO_row_major (W W' : Nat) (M : DenseMatrix) (n : Nat) (hW : 1 ≤ W)
    (hW' : 1 ≤ W') (hM : IsSquare M n) :
    matrixToCOO W M n COO.empty = matrixToCOO W' M n COO.empty ∧
    matrixToCOO W M n COO.empty = COO.ofTriples (rowMajorScan M n) ∧
    (matrixToCOO W M n COO.empty).triples = rowMajorScan M n ∧
    (matrixToCOO W M n COO.empty).triples.Pairwise keyLt := by
  have _ := hM
  rw [matrixToCOO_eq W hW, matrixToCOO_eq W' hW', empty_insertEnd, triples_ofTriples]
  exact ⟨rfl, rfl, rfl, pairwise_keyLt_rowMajorScan M n⟩

theorem matrixToCOO_row_major_witness :
    1 ≤ 2 ∧ 1 ≤ 5 ∧ IsSquare [[0, 2, 0], [0, 0, 0], [5, 0, 1]] 3 ∧
    (matrixToCOO 2 [[0, 2, 0], [0, 0, 0], [5, 0, 1]] 3 COO.empty
      = matrixToCOO 5 [[0, 2, 0], [0, 0, 0], [5, 0, 1]] 3 COO.empty ∧
    matrixToCOO 2 [[0, 2, 0], [0, 0, 0], [5, 0, 1]] 3 COO.empty
      = COO.ofTriples (rowMajorScan [[0, 2, 0], [0, 0, 0], [5, 0, 1]] 3) ∧
    (matrixToCOO 2 [[0, 2, 0], [0, 0, 0], [5, 0, 1]] 3 COO.empty).triples
      = rowMajorScan [[0, 2, 0], [0, 0, 0], [5, 0, 1]] 3 ∧
    (matrixToCOO 2 [[0, 2, 0], [0, 0, 0], [5, 0, 1]] 3 COO.empty).triples.Pairwise keyLt) :=
  ⟨by decide, by decide, by decide,
    matrixToCOO_row_major 2 5 [[0, 2, 0], [0, 0, 0], [5, 0, 1]] 3 (by decide) (by decide)
      (by decide)⟩

/-! ## Arithmetic on `int` -/

theorem wrap32_zero : wrap32 0 = 0 := by decide

theorem wrap32_range (x : Int) : -2147483648 ≤ wrap32 x ∧ wrap32 x < 2147483648 := by
  unfold wrap32; omega

theorem wrap32_of_range (x : Int) (h1 : -2147483648 ≤ x) (h2 : x < 2147483648) : wrap32 x = x := by
  unfold wrap32; omega

theorem wrap32_wrap32 (x : Int) : wrap32 (wrap32 x) = wrap32 x := by
  unfold wrap32; omega

theorem wrap32_add_wrap32 (x y : Int) : wrap32 (x + wrap32 y) = wrap32 (x + y) := by
  unfold wrap32; omega

theorem wrap32_wrap32_add (x y : Int) : wrap32 (wrap32 x + y) = wrap32 (x + y) := by
  unfold wrap32; omega

theorem addInt_wrap32 (s v : Int) : addInt (wrap32 s) v = wrap32 (s + v) := by
  unfold addInt; exact wrap32_wrap32_add s v

/-! ## Accumulators -/

theorem colGet_colMapAdd (m : ColMap) (c v c' : Int) :
    colGet (colMapAdd m c v) c' = if c = c' then addInt (colGet m c) v else colGet m c' := by
  induction m with
  | nil => simp [colMapAdd, colGet]
  | cons e m ih =>
    obtain ⟨k, x⟩ := e
    by_cases h1 : k = c
    · subst h1
      by_cases h2 : k = c' <;> simp [colMapAdd, colGet, h2]
    · by_cases h2 : c = c'
      · subst h2
        simp [colMapAdd, colGet, h1, ih]
      · by_cases h3 : k = c'
        · subst h3
          simp [colMapAdd, colGet, h1, h2]
        · simp [colMapAdd, colGet, h1, h2, h3, ih]

theorem accGet_accAdd (acc : Accumulator) (r c v r' c' : Int) :
    accGet (accAdd acc r c v) r' c'
      = if r = r' ∧ c = c' then addInt (accGet acc r c) v else accGet acc r' c' := by
  induction acc with
  | nil =>
    by_cases h1 : r = r'
    · subst h1
      simp [accAdd, accGet, colGet_colMapAdd, colGet]
    · simp [accAdd, accGet, h1]
  | cons e acc ih =>
    obtain ⟨k, m⟩ := e
    by_cases h1 : k = r
    · subst h1
      by_cases h2 : k = r'
      · subst h2
        simp [accAdd, accGet, colGet_colMapAdd]
      · simp [accAdd, accGet, h2]
    · by_cases h2 : k = r'
      · subst h2
        have h3 : ¬ r = k := fun h => h1 h.symm
        simp [accAdd, accGet, h1, h3]
      · simp [accAdd, accGet, h1, h2, ih]

theorem keys_colMapAdd (m : ColMap) (c v k : Int) :
    k ∈ (colMapAdd m c v).map Prod.fst ↔ k = c ∨ k ∈ m.map Prod.fst := by
  induction m with
  | nil => simp [colMapAdd]
  | cons e m ih =>
    obtain ⟨k', x⟩ := e
    by_cases h1 : k' = c
    · subst h1
      simp [colMapAdd]
    · simp only [colMapAdd, if_neg h1, List.map_cons, List.mem_cons, ih]
      tauto

theorem colWF_colMapAdd (m : ColMap) (c v : Int) (h : ColWF m) : ColWF (colMapAdd m c v) := by
  unfold ColWF at *
  induction m with
  | nil => simp [colMapAdd]
  | cons e m ih =>
    obtain ⟨k, x⟩ := e
    rw [List.map_cons, List.nodup_cons] at h
    by_cases h1 : k = c
    · subst h1
      simp only [colMapAdd, if_true, List.map_cons, List.nodup_cons]
      exact h
    · simp only [colMapAdd, if_neg h1, List.map_cons, List.nodup_cons]
      refine ⟨?_, ih h.2⟩
      rw [keys_colMapAdd]
      rintro (h2 | h2)
      · exact h1 h2
      · exact h.1 h2

theorem keys_accAdd (acc : Accumulator) (r c v k : Int) :
    k ∈ (accAdd acc r c v).map Prod.fst ↔ k = r ∨ k ∈ acc.map Prod.fst := by
  induction acc with
  | nil => simp [accAdd]
  | cons e acc ih =>
    obtain ⟨k', m⟩ := e
    by_cases h1 : k' = r
    · subst h1
      simp [accAdd]
    · simp only [accAdd, if_neg h1, List.map_cons, List.mem_cons, ih]
      tauto

theorem accWF_accAdd (acc : Accumulator) (r c v : Int) (h : AccWF acc) :
    AccWF (accAdd acc r c v) := by
  induction acc with
  | nil =>
    refine ⟨by simp [accAdd], ?_⟩
    intro e he
    simp only [accAdd, List.mem_singleton] at he
    subst he
    exact colWF_colMapAdd [] c v (by simp [ColWF])
  | cons e acc ih =>
    obtain ⟨k, m⟩ := e
    obtain ⟨h1, h2⟩ := h
    rw [List.map_cons, List.nodup_cons] at h1
    have hrest : AccWF acc := ⟨h1.2, fun e he => h2 e (List.mem_cons_of_mem _ he)⟩
    by_cases h3 : k = r
    · subst h3
      simp only [accAdd, if_true]
      refine ⟨by rw [List.map_cons, List.nodup_cons]; exact h1, ?_⟩
      intro e he
      rcases List.mem_cons.mp he with h4 | h4
      · subst h4
        exact colWF_colMapAdd m c v (h2 _ (List.mem_cons_self _ _))
      · exact h2 e (List.mem_cons_of_mem _ h4)
    · simp only [accAdd, if_neg h3]
      obtain ⟨h5, h6⟩ := ih hrest
      refine ⟨?_, ?_⟩
      · rw [List.map_cons, List.nodup_cons]
        refine ⟨?_, h5⟩
        rw [keys_accAdd]
        rintro (h7 | h7)
        · exact h3 h7
        · exact h1.1 h7
      · intro e he
        rcases List.mem_cons.mp he with h4 | h4
        · subst h4
          exact h2 _ (List.mem_cons_self _ _)
        · exact h6 e h4

theorem accWF_nil : AccWF [] := ⟨by simp, by simp⟩

theorem accWF_addAll (cs : List (Int × Int × Int)) (acc : Accumulator) (h : AccWF acc) :
    AccWF (addAll cs acc) := by
  unfold addAll
  induction cs generalizing acc with
  | nil => exact h
  | cons t cs ih => exact ih _ (accWF_accAdd acc _ _ _ h)

theorem addAll_append (cs₁ cs₂ : List (Int × Int × Int)) (acc : Accumulator) :
    addAll (cs₁ ++ cs₂) acc = addAll cs₂ (addAll cs₁ acc) := by
  simp [addAll, List.foldl_append]

theorem accGet_addAll (cs : List (Int × Int × Int)) (acc : Accumulator) (r c S : Int)
    (h : accGet acc r c = wrap32 S) :
    accGet (addAll cs acc) r c = wrap32 (S + tripleSum cs r c) := by
  unfold addAll
  induction cs generalizing acc S with
  | nil => simpa [tripleSum] using h
  | cons t cs ih =>
    rw [List.foldl_cons, tripleSum_cons, ← Int.add_assoc]
    apply ih
    rw [accGet_accAdd]
    by_cases h1 : t.1 = r ∧ t.2.1 = c
    · rw [if_pos h1, if_pos h1, h1.1, h1.2, h, addInt_wrap32]
    · rw [if_neg h1, if_neg h1, Int.add_zero, h]

theorem colGet_of_not_mem (m : ColMap) (c : Int) (h : c ∉ m.map Prod.fst) : colGet m c = 0 := by
  induction m with
  | nil => rfl
  | cons e m ih =>
    obtain ⟨k, x⟩ := e
    rw [List.map_cons, List.mem_cons, not_or] at h
    have h1 : ¬ k = c := fun h2 => h.1 h2.symm
    simp only [colGet, if_neg h1]
    exact ih h.2

theorem accGet_of_not_mem (acc : Accumulator) (r c : Int) (h : r ∉ acc.map Prod.fst) :
    accGet acc r c = 0 := by
  induction acc with
  | nil => rfl
  | cons e acc ih =>
    obtain ⟨k, m⟩ := e
    rw [List.map_cons, List.mem_cons, not_or] at h
    have h1 : ¬ k = r := fun h2 => h.1 h2.symm
    simp only [accGet, if_neg h1]
    exact ih h.2

theorem tripleSum_colCells (k : Int) (m : ColMap) (r c : Int) (h : ColWF m) :
    tripleSum (m.map (fun ce => (k, ce.1, ce.2))) r c = if k = r then colGet m c else 0 := by
  unfold ColWF at h
  induction m with
  | nil => simp [tripleSum, colGet]
  | cons e m ih =>
    obtain ⟨k', x⟩ := e
    rw [List.map_cons, List.nodup_cons] at h
    rw [List.map_cons, tripleSum_cons, ih h.2]
    by_cases h1 : k = r
    · by_cases h2 : k' = c
      · subst h2
        simp [h1, colGet, colGet_of_not_mem m k' h.1]
      · simp [h1, h2, colGet]
    · simp [h1]

theorem allCells_cons (k : Int) (m : ColMap) (acc : Accumulator) :
    allCells ((k, m) :: acc) = m.map (fun ce => (k, ce.1, ce.2)) ++ allCells acc := by
  simp [allCells, List.flatMap_cons]

theorem tripleSum_allCells (acc : Accumulator) (r c : Int) (h : AccWF acc) :
    tripleSum (allCells acc) r c = accGet acc r c := by
  induction acc with
  | nil => rfl
  | cons e acc ih =>
    obtain ⟨k, m⟩ := e
    obtain ⟨h1, h2⟩ := h
    rw [List.map_cons, List.nodup_cons] at h1
    have hrest : AccWF acc := ⟨h1.2, fun e he => h2 e (List.mem_cons_of_mem _ he)⟩
    rw [allCells_cons, tripleSum_append, tripleSum_colCells k m r c (h2 _ (List.mem_cons_self _ _)),
      ih hrest]
    by_cases h3 : k = r
    · subst h3
      simp [accGet, accGet_of_not_mem acc k c h1.1]
    · simp [accGet, h3]

theorem tripleSum_filter (l : List (Int × Int × Int)) (r c : Int) :
    tripleSum (l.filter (fun t => decide (t.2.2 ≠ 0))) r c = tripleSum l r c := by
  induction l with
  | nil => rfl
  | cons t l ih =>
    by_cases h : t.2.2 ≠ 0
    · rw [List.filter_cons_of_pos (by simpa using h), tripleSum_cons, tripleSum_cons, ih]
    · rw [List.filter_cons_of_neg (by simpa using h), tripleSum_cons, ih]
      have h0 : t.2.2 = 0 := by simpa using h
      simp [h0]

theorem pairwise_keyNe_allCells (acc : Accumulator) (h : AccWF acc) :
    (allCells acc).Pairwise keyNe := by
  obtain ⟨h1, h2⟩ := h
  unfold allCells
  rw [List.pairwise_flatMap]
  constructor
  · intro e he
    have h3 := h2 e he
    unfold ColWF List.Nodup at h3
    rw [List.pairwise_map] at h3 ⊢
    exact h3.imp (fun hab => Or.inr hab)
  · unfold List.Nodup at h1
    rw [List.pairwise_map] at h1
    apply h1.imp
    intro a b hab x hx y hy
    obtain ⟨_, _, rfl⟩ := List.mem_map.mp hx
    obtain ⟨_, _, rfl⟩ := List.mem_map.mp hy
    exact Or.inl hab

/-! ## The emission loop -/

theorem emitRow_eq (k : Int) (ces : ColMap) (C : COO) (l : List (Int × Int × Int)) :
    ces.foldl (fun C colEntry =>
        if colEntry.2 ≠ 0 then C.push k colEntry.1 colEntry.2 else C)
        (C.insertEnd (COO.ofTriples l))
      = C.insertEnd (COO.ofTriples
          (l ++ (ces.map (fun ce => (k, ce.1, ce.2))).filter (fun t => decide (t.2.2 ≠ 0)))) := by
  induction ces generalizing l with
  | nil => simp
  | cons ce ces ih =>
    rw [List.foldl_cons, List.map_cons]
    by_cases h : ce.2 ≠ 0
    · rw [if_pos h, insertEnd_ofTriples_push, ih,
        List.filter_cons_of_pos (by simpa using h)]
      simp
    · rw [if_neg h, ih, List.filter_cons_of_neg (by simpa using h)]

theorem emitLoop_eq (result : Accumulator) (C : COO) (l : List (Int × Int × Int)) :
    result.foldl (fun C rowEntry =>
        rowEntry.2.foldl (fun C colEntry =>
          if colEntry.2 ≠ 0 then C.push rowEntry.1 colEntry.1 colEntry.2 else C) C)
        (C.insertEnd (COO.ofTriples l))
      = C.insertEnd (COO.ofTriples
          (l ++ (allCells result).filter (fun t => decide (t.2.2 ≠ 0)))) := by
  induction result generalizing l with
  | nil => simp [allCells]
  | cons e result ih =>
    obtain ⟨k, m⟩ := e
    rw [List.foldl_cons, emitRow_eq, ih, allCells_cons, List.filter_append, List.append_assoc]

theorem emit_eq (result : Accumulator) (C : COO) :
    emit result C
      = C.insertEnd (COO.ofTriples ((allCells result).filter (fun t => decide (t.2.2 ≠ 0)))) := by
  have h := emitLoop_eq result C []
  rw [ofTriples_nil, insertEnd_empty, List.nil_append] at h
  exact h

/-! ## The join loops -/

theorem joinLoop_eq (A B : COO) (i : Nat) (js : List Nat) (acc : Accumulator) :
    js.foldl (fun result j =>
        if B.rows.getD j 0 = A.cols.getD i 0 then
          accAdd result (A.rows.getD i 0) (B.cols.getD j 0)
            (mulInt (A.vals.getD i 0) (B.vals.getD j 0))
        else result) acc
      = addAll ((js.filterMap (fun j =>
          if B.rows.getD j 0 = A.cols.getD i 0 then
            some (A.rows.getD i 0, B.cols.getD j 0, A.vals.getD i 0 * B.vals.getD j 0)
          else none)).map wrapVal) acc := by
  induction js generalizing acc with
  | nil => rfl
  | cons j js ih =>
    rw [List.foldl_cons, List.filterMap_cons, ih]
    by_cases h : B.rows.getD j 0 = A.cols.getD i 0
    · rw [if_pos h, if_pos h]
      rfl
    · rw [if_neg h, if_neg h]

theorem joinEntry_eq (A B : COO) (acc : Accumulator) (i : Nat) :
    joinEntry A B acc i = addAll ((exactProducts A B i).map wrapVal) acc :=
  joinLoop_eq A B i (List.range B.rows.length) acc

theorem joinEntries_eq (A B : COO) (is : List Nat) (acc : Accumulator) :
    is.foldl (joinEntry A B) acc
      = addAll ((is.flatMap (exactProducts A B)).map wrapVal) acc := by
  induction is generalizing acc with
  | nil => rfl
  | cons i is ih =>
    rw [List.foldl_cons, ih, joinEntry_eq, List.flatMap_cons, List.map_append, addAll_append]

theorem wrap32_tripleSum_wrapVal (l : List (Int × Int × Int)) (r c S : Int) :
    wrap32 (S + tripleSum (l.map wrapVal) r c) = wrap32 (S + tripleSum l r c) := by
  induction l generalizing S with
  | nil => rfl
  | cons t l ih =>
    rw [List.map_cons, tripleSum_cons, tripleSum_cons, ← Int.add_assoc, ← Int.add_assoc, ih]
    by_cases h : t.1 = r ∧ t.2.1 = c
    · have h' : (wrapVal t).1 = r ∧ (wrapVal t).2.1 = c := h
      rw [if_pos h, if_pos h']
      have e : (wrapVal t).2.2 = wrap32 t.2.2 := rfl
      rw [e, Int.add_right_comm, wrap32_add_wrap32, Int.add_right_comm]
    · have h' : ¬ ((wrapVal t).1 = r ∧ (wrapVal t).2.1 = c) := h
      rw [if_neg h, if_neg h']

theorem tripleSum_exactProducts (A B : COO) (i : Nat) (r c : Int) :
    tripleSum (exactProducts A B i) r c
      = ((List.range B.rows.length).map (fun j =>
          if A.rows.getD i 0 = r ∧ B.cols.getD j 0 = c ∧ B.rows.getD j 0 = A.cols.getD i 0 then
            A.vals.getD i 0 * B.vals.getD j 0
          else 0)).sum := by
  unfold exactProducts
  induction (List.range B.rows.length) with
  | nil => rfl
  | cons j js ih =>
    rw [List.filterMap_cons, List.map_cons, List.sum_cons]
    by_cases h : B.rows.getD j 0 = A.cols.getD i 0
    · rw [if_pos h, tripleSum_cons, ih]
      congr 1
      by_cases h2 : A.rows.getD i 0 = r ∧ B.cols.getD j 0 = c
      · rw [if_pos h2, if_pos ⟨h2.1, h2.2, h⟩]
      · rw [if_neg h2, if_neg (fun h3 => h2 ⟨h3.1, h3.2.1⟩)]
    · rw [if_neg h, ih, if_neg (fun h3 => h h3.2.2), Int.zero_add]

theorem tripleSum_allProducts (A B : COO) (r c : Int) :
    tripleSum ((List.range A.rows.length).flatMap (exactProducts A B)) r c = pairSum A B r c := by
  rw [tripleSum_flatMap, pairSum]
  congr 1
  apply List.map_congr_left
  intro i _
  exact tripleSum_exactProducts A B i r c

/-- The accumulator of `multiplyCOO` holds at `(r, c)` the exact sum of products reduced
to `int`. -/
theorem accGet_joinAll (A B : COO) (r c : Int) :
    accGet ((List.range A.rows.length).foldl (joinEntry A B) []) r c
      = wrap32 (pairSum A B r c) := by
  rw [joinEntries_eq, accGet_addAll _ [] r c 0 (by rw [wrap32_zero]; rfl),
    wrap32_tripleSum_wrapVal, tripleSum_allProducts, Int.zero_add]

/-! ## The merge of the workers' accumulators -/

theorem mergeRow_eq (k : Int) (ces : ColMap) (result : Accumulator) :
    ces.foldl (fun result colEntry => accAdd result k colEntry.1 colEntry.2) result
      = addAll (ces.map (fun ce => (k, ce.1, ce.2))) result := by
  unfold addAll
  rw [List.foldl_map]

theorem mergeLocal_eq (result localResult : Accumulator) :
    mergeLocal result localResult = addAll (allCells localResult) result := by
  unfold mergeLocal
  induction localResult generalizing result with
  | nil => rfl
  | cons e localResult ih =>
    obtain ⟨k, m⟩ := e
    rw [List.foldl_cons, ih, mergeRow_eq, allCells_cons, addAll_append]

theorem threadTask_eq (A B : COO) (a b : Nat) :
    threadTask A B a b
      = addAll (((List.range' a (b - a)).flatMap (exactProducts A B)).map wrapVal) [] :=
  joinEntries_eq A B (List.range' a (b - a)) []

theorem accWF_mergeAll (ls : List Accumulator) (acc : Accumulator) (h : AccWF acc) :
    AccWF (ls.foldl mergeLocal acc) := by
  induction ls generalizing acc with
  | nil => exact h
  | cons l ls ih =>
    rw [List.foldl_cons, mergeLocal_eq]
    exact ih _ (accWF_addAll _ _ h)

theorem accGet_mergeAll (Ps : List (List (Int × Int × Int))) (acc : Accumulator) (r c S : Int)
    (h : accGet acc r c = wrap32 S) :
    accGet ((Ps.map (fun P => addAll (P.map wrapVal) [])).foldl mergeLocal acc) r c
      = wrap32 (S + tripleSum (Ps.flatMap id) r c) := by
  induction Ps generalizing acc S with
  | nil => simpa [tripleSum] using h
  | cons P Ps ih =>
    rw [List.map_cons, List.foldl_cons, List.flatMap_cons, tripleSum_append, ← Int.add_assoc]
    apply ih
    rw [mergeLocal_eq, accGet_addAll _ acc r c S h,
      tripleSum_allCells _ r c (accWF_addAll _ _ accWF_nil),
      accGet_addAll _ [] r c 0 (by rw [wrap32_zero]; rfl), wrap32_tripleSum_wrapVal,
      Int.zero_add, wrap32_add_wrap32]
    rfl

theorem futures_eq (W : Nat) (A B : COO) :
    (entryRanges A.rows.length W).map (fun r => threadTask A B r.1 r.2)
      = ((List.range W).map (fun t =>
          (List.range' (blockStart A.rows.length W t)
            (blockStart A.rows.length W (t + 1) - blockStart A.rows.length W t)).flatMap
              (exactProducts A B))).map (fun P => addAll (P.map wrapVal) []) := by
  rw [entryRanges_eq, List.map_map, List.map_map]
  apply List.map_congr_left
  intro t _
  exact threadTask_eq A B _ _

theorem flatMap_id_map {α β : Type} (l : List α) (f : α → List β) :
    (l.map f).flatMap id = l.flatMap f := by
  induction l with
  | nil => rfl
  | cons a l ih => simp [List.flatMap_cons, ih]

/-- The merged accumulator of `multiMultiplyCOO` holds at `(r, c)` the exact sum of
products reduced to `int`. -/
theorem accGet_mergedAll (W : Nat) (hW : 1 ≤ W) (A B : COO) (r c : Int) :
    accGet (((entryRanges A.rows.length W).map (fun r => threadTask A B r.1 r.2)).foldl
        mergeLocal []) r c
      = wrap32 (pairSum A B r c) := by
  rw [futures_eq, accGet_mergeAll _ [] r c 0 (by rw [wrap32_zero]; rfl), flatMap_id_map,
    ← List.flatMap_assoc, range_blocks, blockStart_last _ W hW, ← List.range_eq_range',
    tripleSum_allProducts, Int.zero_add]

theorem accWF_joinAll (A B : COO) :
    AccWF ((List.range A.rows.length).foldl (joinEntry A B) []) := by
  rw [joinEntries_eq]
  exact accWF_addAll _ _ accWF_nil

theorem accWF_mergedAll (W : Nat) (A B : COO) :
    AccWF (((entryRanges A.rows.length W).map (fun r => threadTask A B r.1 r.2)).foldl
        mergeLocal []) :=
  accWF_mergeAll _ _ accWF_nil

/-! ## The multipliers -/

theorem cellSum_emit (acc : Accumulator) (h : AccWF acc) (r c : Int) :
    cellSum (emit acc COO.empty) r c = accGet acc r c := by
  rw [emit_eq, empty_insertEnd, cellSum_eq_tripleSum, triples_ofTriples, tripleSum_filter,
    tripleSum_allCells acc r c h]

theorem cellSum_multiplyCOO (A B : COO) (r c : Int) :
    cellSum (multiplyCOO A B COO.empty) r c = wrap32 (pairSum A B r c) := by
  unfold multiplyCOO
  rw [cellSum_emit _ (accWF_joinAll A B), accGet_joinAll]

theorem cellSum_multiMultiplyCOO (W : Nat) (hW : 1 ≤ W) (A B : COO) (r c : Int) :
    cellSum (multiMultiplyCOO W A B COO.empty) r c = wrap32 (pairSum A B r c) := by
  unfold multiMultiplyCOO
  simp only []
  rw [cellSum_emit _ (accWF_mergedAll W A B), accGet_mergedAll W hW]

theorem multiplyCOO_eq (A B C : COO) :
    multiplyCOO A B C = C.insertEnd (COO.ofTriples
      ((allCells ((List.range A.rows.length).foldl (joinEntry A B) [])).filter
        (fun t => decide (t.2.2 ≠ 0)))) := emit_eq _ C

theorem multiMultiplyCOO_eq (W : Nat) (A B C : COO) :
    multiMultiplyCOO W A B C = C.insertEnd (COO.ofTriples
      ((allCells (((entryRanges A.rows.length W).map (fun r => threadTask A B r.1 r.2)).foldl
        mergeLocal [])).filter (fun t => decide (t.2.2 ≠ 0)))) := emit_eq _ C

theorem vals_ne_zero_of_filter (l : List (Int × Int × Int)) :
    ∀ v ∈ (COO.ofTriples (l.filter (fun t => decide (t.2.2 ≠ 0)))).vals, v ≠ 0 := by
  intro v hv
  simp only [COO.ofTriples, List.mem_map, List.mem_filter] at hv
  obtain ⟨t, ⟨_, h1⟩, rfl⟩ := hv
  simpa using h1

/-- C1 (as amended): for coordinate lists `A` and `B` with three equal-length vectors
each and empty output vectors, the sum of the output values that `multiplyCOO` stores
at `(r, c)` (`0` when absent) is the sum of `valsA[i] * valsB[j]` over the index pairs
with `rowsA[i] = r`, `colsB[j] = c`, `rowsB[j] = colsA[i]`, reduced to the 32-bit `int`
range; it is that sum itself whenever the sum lies in `[-2^31, 2^31 - 1]`. -/
theorem multiplyCOO_cell_sum (A B : COO) (hA : A.WellFormed) (hB : B.WellFormed) (r c : Int) :
    cellSum (multiplyCOO A B COO.empty) r c = wrap32 (pairSum A B r c) ∧
    (-2147483648 ≤ pairSum A B r c ∧ pairSum A B r c ≤ 2147483647 →
      cellSum (multiplyCOO A B COO.empty) r c = pairSum A B r c) := by
  have _ := hA
  have _ := hB
  refine ⟨cellSum_multiplyCOO A B r c, ?_⟩
  intro h
  rw [cellSum_multiplyCOO A B r c]
  exact wrap32_of_range _ h.1 (by omega)

theorem multiplyCOO_cell_sum_witness :
    COO.WellFormed ⟨[0, 0, 1], [0, 1, 0], [2, -3, 0]⟩ ∧
    COO.WellFormed ⟨[0, 0, 1, 1], [0, 0, 0, 2], [5, 7, 4, 9]⟩ ∧
    (cellSum (multiplyCOO ⟨[0, 0, 1], [0, 1, 0], [2, -3, 0]⟩
        ⟨[0, 0, 1, 1], [0, 0, 0, 2], [5, 7, 4, 9]⟩ COO.empty) 0 0
      = wrap32 (pairSum ⟨[0, 0, 1], [0, 1, 0], [2, -3, 0]⟩
          ⟨[0, 0, 1, 1], [0, 0, 0, 2], [5, 7, 4, 9]⟩ 0 0) ∧
    (-2147483648 ≤ pairSum ⟨[0, 0, 1], [0, 1, 0], [2, -3, 0]⟩
          ⟨[0, 0, 1, 1], [0, 0, 0, 2], [5, 7, 4, 9]⟩ 0 0 ∧
      pairSum ⟨[0, 0, 1], [0, 1, 0], [2, -3, 0]⟩
          ⟨[0, 0, 1, 1], [0, 0, 0, 2], [5, 7, 4, 9]⟩ 0 0 ≤ 2147483647 →
      cellSum (multiplyCOO ⟨[0, 0, 1], [0, 1, 0], [2, -3, 0]⟩
        ⟨[0, 0, 1, 1], [0, 0, 0, 2], [5, 7, 4, 9]⟩ COO.empty) 0 0
      = pairSum ⟨[0, 0, 1], [0, 1, 0], [2, -3, 0]⟩
          ⟨[0, 0, 1, 1], [0, 0, 0, 2], [5, 7, 4, 9]⟩ 0 0)) :=
  ⟨by decide, by decide,
    multiplyCOO_cell_sum ⟨[0, 0, 1], [0, 1, 0], [2, -3, 0]⟩
      ⟨[0, 0, 1, 1], [0, 0, 0, 2], [5, 7, 4, 9]⟩ (by decide) (by decide) 0 0⟩

/-- C1 (as stated) fails when the exact sum leaves the `int` range: for
`A = B = {(0, 0, 65536)}` the only product is `65536 * 65536 = 2^32`, which is `0` in
32-bit arithmetic, so the cell is suppressed and the output is empty, while the exact
sum at `(0, 0)` is `4294967296`. -/
theorem exact_sum_fails_on_overflow :
    COO.WellFormed ⟨[0], [0], [65536]⟩ ∧
    multiplyCOO ⟨[0], [0], [65536]⟩ ⟨[0], [0], [65536]⟩ COO.empty = COO.empty ∧
    cellSum (multiplyCOO ⟨[0], [0], [65536]⟩ ⟨[0], [0], [65536]⟩ COO.empty) 0 0 = 0 ∧
    pairSum ⟨[0], [0], [65536]⟩ ⟨[0], [0], [65536]⟩ 0 0 = 4294967296 ∧
    cellSum (multiplyCOO ⟨[0], [0], [65536]⟩ ⟨[0], [0], [65536]⟩ COO.empty) 0 0
      ≠ pairSum ⟨[0], [0], [65536]⟩ ⟨[0], [0], [65536]⟩ 0 0 := by
  decide

/-- C9: for coordinate lists `A` and `B` and `W ≥ 1` workers, no value in the output of
`multiplyCOO` or of `multiMultiplyCOO` (output vectors empty on entry) is `0`. -/
theorem multipliers_no_zero_value (W : Nat) (A B : COO) (hW : 1 ≤ W) (hA : A.WellFormed)
    (hB : B.WellFormed) :
    (∀ v ∈ (multiplyCOO A B COO.empty).vals, v ≠ 0) ∧
    (∀ v ∈ (multiMultiplyCOO W A B COO.empty).vals, v ≠ 0) := by
  have _ := hW
  have _ := hA
  have _ := hB
  rw [multiplyCOO_eq, multiMultiplyCOO_eq, empty_insertEnd, empty_insertEnd]
  exact ⟨vals_ne_zero_of_filter _, vals_ne_zero_of_filter _⟩

theorem multipliers_no_zero_value_witness :
    1 ≤ 2 ∧ COO.WellFormed ⟨[0, 0, 1], [0, 0, 1], [2, -2, 3]⟩ ∧
    COO.WellFormed ⟨[0, 1, 1], [0, 0, 1], [5, 0, 4]⟩ ∧
    ((∀ v ∈ (multiplyCOO ⟨[0, 0, 1], [0, 0, 1], [2, -2, 3]⟩ ⟨[0, 1, 1], [0, 0, 1], [5, 0, 4]⟩
        COO.empty).vals, v ≠ 0) ∧
    (∀ v ∈ (multiMultiplyCOO 2 ⟨[0, 0, 1], [0, 0, 1], [2, -2, 3]⟩ ⟨[0, 1, 1], [0, 0, 1], [5, 0, 4]⟩
        COO.empty).vals, v ≠ 0)) :=
  ⟨by decide, by decide, by decide,
    multipliers_no_zero_value 2 ⟨[0, 0, 1], [0, 0, 1], [2, -2, 3]⟩ ⟨[0, 1, 1], [0, 0, 1], [5, 0, 4]⟩
      (by decide) (by decide) (by decide)⟩

/-- C10: for coordinate lists `A` and `B` (repeated `(row, col)` pairs allowed) and
`W ≥ 1` workers, the output of `multiplyCOO` and the output of `multiMultiplyCOO`
(output vectors empty on entry) hold no `(row, col)` pair at two different indices. -/
theorem multipliers_no_duplicate_cell (W : Nat) (A B : COO) (hW : 1 ≤ W) (hA : A.WellFormed)
    (hB : B.WellFormed) :
    (∀ k m : Nat, k < (multiplyCOO A B COO.empty).rows.length →
      m < (multiplyCOO A B COO.empty).rows.length →
      (multiplyCOO A B COO.empty).rows.getD k 0 = (multiplyCOO A B COO.empty).rows.getD m 0 →
      (multiplyCOO A B COO.empty).cols.getD k 0 = (multiplyCOO A B COO.empty).cols.getD m 0 →
      k = m) ∧
    (∀ k m : Nat, k < (multiMultiplyCOO W A B COO.empty).rows.length →
      m < (multiMultiplyCOO W A B COO.empty).rows.length →
      (multiMultiplyCOO W A B COO.empty).rows.getD k 0
        = (multiMultiplyCOO W A B COO.empty).rows.getD m 0 →
      (multiMultiplyCOO W A B COO.empty).cols.getD k 0
        = (multiMultiplyCOO W A B COO.empty).cols.getD m 0 →
      k = m) := by
  have _ := hW
  have _ := hA
  have _ := hB
  rw [multiplyCOO_eq, multiMultiplyCOO_eq, empty_insertEnd, empty_insertEnd]
  exact ⟨index_inj_of_pairwise_keyNe _
      ((pairwise_keyNe_allCells _ (accWF_joinAll A B)).filter _),
    index_inj_of_pairwise_keyNe _
      ((pairwise_keyNe_allCells _ (accWF_mergedAll W A B)).filter _)⟩

theorem multipliers_no_duplicate_cell_witness :
    1 ≤ 2 ∧ COO.WellFormed ⟨[0, 0, 1], [0, 0, 1], [2, 3, 4]⟩ ∧
    COO.WellFormed ⟨[0, 0, 1], [1, 1, 1], [5, 6, 7]⟩ ∧
    ((∀ k m : Nat,
      k < (multiplyCOO ⟨[0, 0, 1], [0, 0, 1], [2, 3, 4]⟩ ⟨[0, 0, 1], [1, 1, 1], [5, 6, 7]⟩
        COO.empty).rows.length →
      m < (multiplyCOO ⟨[0, 0, 1], [0, 0, 1], [2, 3, 4]⟩ ⟨[0, 0, 1], [1, 1, 1], [5, 6, 7]⟩
        COO.empty).rows.length →
      (multiplyCOO ⟨[0, 0, 1], [0, 0, 1], [2, 3, 4]⟩ ⟨[0, 0, 1], [1, 1, 1], [5, 6, 7]⟩
        COO.empty).rows.getD k 0
        = (multiplyCOO ⟨[0, 0, 1], [0, 0, 1], [2, 3, 4]⟩ ⟨[0, 0, 1], [1, 1, 1], [5, 6, 7]⟩
        COO.empty).rows.getD m 0 →
      (multiplyCOO ⟨[0, 0, 1], [0, 0, 1], [2, 3, 4]⟩ ⟨[0, 0, 1], [1, 1, 1], [5, 6, 7]⟩
        COO.empty).cols.getD k 0
        = (multiplyCOO ⟨[0, 0, 1], [0, 0, 1], [2, 3, 4]⟩ ⟨[0, 0, 1], [1, 1, 1], [5, 6, 7]⟩
        COO.empty).cols.getD m 0 →
      k = m) ∧
    (∀ k m : Nat,
      k < (multiMultiplyCOO 2 ⟨[0, 0, 1], [0, 0, 1], [2, 3, 4]⟩
        ⟨[0, 0, 1], [1, 1, 1], [5, 6, 7]⟩ COO.empty).rows.length →
      m < (multiMultiplyCOO 2 ⟨[0, 0, 1], [0, 0, 1], [2, 3, 4]⟩
        ⟨[0, 0, 1], [1, 1, 1], [5, 6, 7]⟩ COO.empty).rows.length →
      (multiMultiplyCOO 2 ⟨[0, 0, 1], [0, 0, 1], [2, 3, 4]⟩
        ⟨[0, 0, 1], [1, 1, 1], [5, 6, 7]⟩ COO.empty).rows.getD k 0
        = (multiMultiplyCOO 2 ⟨[0, 0, 1], [0, 0, 1], [2, 3, 4]⟩
        ⟨[0, 0, 1], [1, 1, 1], [5, 6, 7]⟩ COO.empty).rows.getD m 0 →
      (multiMultiplyCOO 2 ⟨[0, 0, 1], [0, 0, 1], [2, 3, 4]⟩
        ⟨[0, 0, 1], [1, 1, 1], [5, 6, 7]⟩ COO.empty).cols.getD k 0
        = (multiMultiplyCOO 2 ⟨[0, 0, 1], [0, 0, 1], [2, 3, 4]⟩
        ⟨[0, 0, 1], [1, 1, 1], [5, 6, 7]⟩ COO.empty).cols.getD m 0 →
      k = m)) :=
  ⟨by decide, by decide, by decide,
    multipliers_no_duplicate_cell 2 ⟨[0, 0, 1], [0, 0, 1], [2, 3, 4]⟩
      ⟨[0, 0, 1], [1, 1, 1], [5, 6, 7]⟩ (by decide) (by decide) (by decide)⟩

/-! ## Comparing the two multipliers -/

theorem tripleSum_eq_zero (l : List (Int × Int × Int)) (r c : Int)
    (h : ∀ t ∈ l, ¬ (t.1 = r ∧ t.2.1 = c)) : tripleSum l r c = 0 := by
  induction l with
  | nil => rfl
  | cons a l ih =>
    rw [tripleSum_cons, if_neg (h a (List.mem_cons_self _ _)),
      ih (fun t ht => h t (List.mem_cons_of_mem _ ht)), Int.add_zero]

theorem tripleSum_of_mem (l : List (Int × Int × Int)) (h : l.Pairwise keyNe)
    (t : Int × Int × Int) (ht : t ∈ l) : tripleSum l t.1 t.2.1 = t.2.2 := by
  induction l with
  | nil => exact absurd ht (List.not_mem_nil _)
  | cons a l ih =>
    rw [List.pairwise_cons] at h
    rw [tripleSum_cons]
    rcases List.mem_cons.mp ht with h1 | h1
    · subst h1
      rw [if_pos ⟨rfl, rfl⟩, tripleSum_eq_zero, Int.add_zero]
      intro b hb h2
      have h3 := h.1 b hb
      unfold keyNe at h3
      omega
    · have h3 := h.1 t h1
      unfold keyNe at h3
      rw [if_neg (by omega), Int.zero_add]
      exact ih h.2 h1

theorem exists_key_of_tripleSum_ne_zero (l : List (Int × Int × Int)) (r c : Int)
    (h : tripleSum l r c ≠ 0) : ∃ t ∈ l, t.1 = r ∧ t.2.1 = c := by
  by_contra h1
  apply h
  apply tripleSum_eq_zero
  intro t ht h2
  exact h1 ⟨t, ht, h2⟩

theorem mem_of_tripleSum_eq (l₁ l₂ : List (Int × Int × Int)) (h₂ : l₂.Pairwise keyNe)
    (h₁ : l₁.Pairwise keyNe) (hv : ∀ t ∈ l₁, t.2.2 ≠ 0)
    (h : ∀ r c, tripleSum l₁ r c = tripleSum l₂ r c) (t : Int × Int × Int) (ht : t ∈ l₁) :
    t ∈ l₂ := by
  have e1 := tripleSum_of_mem l₁ h₁ t ht
  rw [h] at e1
  obtain ⟨u, hu, h3, h4⟩ := exists_key_of_tripleSum_ne_zero l₂ t.1 t.2.1 (by rw [e1]; exact hv t ht)
  have e2 := tripleSum_of_mem l₂ h₂ u hu
  rw [h3, h4, e1] at e2
  have : u = t := Prod.ext h3 (Prod.ext h4 e2.symm)
  rw [← this]
  exact hu

theorem nodup_of_pairwise_keyNe (l : List (Int × Int × Int)) (h : l.Pairwise keyNe) :
    l.Nodup := by
  apply h.imp
  intro a b hab e
  subst e
  unfold keyNe at hab
  omega

theorem perm_of_tripleSum_eq (l₁ l₂ : List (Int × Int × Int)) (h₁ : l₁.Pairwise keyNe)
    (h₂ : l₂.Pairwise keyNe) (hv₁ : ∀ t ∈ l₁, t.2.2 ≠ 0) (hv₂ : ∀ t ∈ l₂, t.2.2 ≠ 0)
    (h : ∀ r c, tripleSum l₁ r c = tripleSum l₂ r c) : l₁.Perm l₂ := by
  rw [List.perm_ext_iff_of_nodup (nodup_of_pairwise_keyNe l₁ h₁) (nodup_of_pairwise_keyNe l₂ h₂)]
  intro t
  exact ⟨mem_of_tripleSum_eq l₁ l₂ h₂ h₁ hv₁ h t,
    mem_of_tripleSum_eq l₂ l₁ h₁ h₂ hv₂ (fun r c => (h r c).symm) t⟩

theorem keyNe_symm {a b : Int × Int × Int} (h : keyNe a b) : keyNe b a := by
  unfold keyNe at *; omega

theorem sortTriples_eq_of_perm (l₁ l₂ : List (Int × Int × Int)) (h : l₁.Perm l₂)
    (h₁ : l₁.Pairwise keyNe) : sortTriples l₁ = sortTriples l₂ := by
  unfold sortTriples
  have p1 := List.perm_insertionSort keyLe l₁
  have p2 := List.perm_insertionSort keyLe l₂
  have n1 : (List.insertionSort keyLe l₁).Pairwise keyNe :=
    (p1.pairwise_iff keyNe_symm).mpr h₁
  have n2 : (List.insertionSort keyLe l₂).Pairwise keyNe :=
    ((p2.trans h.symm).pairwise_iff keyNe_symm).mpr h₁
  have strict : ∀ l : List (Int × Int × Int), l.Pairwise keyLe → l.Pairwise keyNe →
      l.Pairwise keyLt := by
    intro l ha hb
    apply (ha.and hb).imp
    intro a b hab
    obtain ⟨h3, h4⟩ := hab
    unfold keyLe at h3
    unfold keyNe at h4
    unfold keyLt
    omega
  exact List.eq_of_perm_of_sorted (p1.trans (h.trans p2.symm))
    (strict _ (List.sorted_insertionSort keyLe l₁) n1)
    (strict _ (List.sorted_insertionSort keyLe l₂) n2)

theorem filter_val_ne_zero (l : List (Int × Int × Int)) :
    ∀ t ∈ l.filter (fun t => decide (t.2.2 ≠ 0)), t.2.2 ≠ 0 := by
  intro t ht
  have := (List.mem_filter.mp ht).2
  simpa using this

theorem multipliers_perm (W : Nat) (hW : 1 ≤ W) (A B : COO) :
    (multiplyCOO A B COO.empty).triples.Perm (multiMultiplyCOO W A B COO.empty).triples := by
  have h : ∀ r c, tripleSum (multiplyCOO A B COO.empty).triples r c
      = tripleSum (multiMultiplyCOO W A B COO.empty).triples r c := by
    intro r c
    rw [← cellSum_eq_tripleSum, ← cellSum_eq_tripleSum, cellSum_multiplyCOO,
      cellSum_multiMultiplyCOO W hW]
  rw [multiplyCOO_eq, multiMultiplyCOO_eq, empty_insertEnd, empty_insertEnd, triples_ofTriples,
    triples_ofTriples] at h ⊢
  exact perm_of_tripleSum_eq _ _
    ((pairwise_keyNe_allCells _ (accWF_joinAll A B)).filter _)
    ((pairwise_keyNe_allCells _ (accWF_mergedAll W A B)).filter _)
    (filter_val_ne_zero _) (filter_val_ne_zero _) h

theorem pairwise_keyNe_multiplyCOO (A B : COO) :
    (multiplyCOO A B COO.empty).triples.Pairwise keyNe := by
  rw [multiplyCOO_eq, empty_insertEnd, triples_ofTriples]
  exact (pairwise_keyNe_allCells _ (accWF_joinAll A B)).filter _

/-- C3: for coordinate lists `A` and `B` (the empty lists included) and `W ≥ 1` workers,
the outputs of `multiplyCOO` and of `multiMultiplyCOO` (output vectors empty on entry)
are the same sequence of triples once both are sorted by `(row, col)`; this holds for
the emission order of the embedding and for every other order in which the two
accumulators may be iterated. -/
theorem multipliers_sorted_equal (W : Nat) (A B : COO) (hW : 1 ≤ W) (hA : A.WellFormed)
    (hB : B.WellFormed) :
    sortTriples (multiplyCOO A B COO.empty).triples
      = sortTriples (multiMultiplyCOO W A B COO.empty).triples ∧
    (∀ o₁ o₂ : List (Int × Int × Int),
      o₁.Perm (multiplyCOO A B COO.empty).triples →
      o₂.Perm (multiMultiplyCOO W A B COO.empty).triples →
      sortTriples o₁ = sortTriples o₂) := by
  have _ := hA
  have _ := hB
  refine ⟨sortTriples_eq_of_perm _ _ (multipliers_perm W hW A B)
    (pairwise_keyNe_multiplyCOO A B), ?_⟩
  intro o₁ o₂ h₁ h₂
  exact sortTriples_eq_of_perm _ _ (h₁.trans ((multipliers_perm W hW A B).trans h₂.symm))
    ((h₁.pairwise_iff keyNe_symm).mpr (pairwise_keyNe_multiplyCOO A B))

theorem multipliers_sorted_equal_witness :
    1 ≤ 2 ∧ COO.WellFormed ⟨[1, 0, 1], [0, 0, 1], [2, 3, 4]⟩ ∧
    COO.WellFormed ⟨[0, 0, 1], [1, 0, 1], [5, 6, 7]⟩ ∧
    (sortTriples (multiplyCOO ⟨[1, 0, 1], [0, 0, 1], [2, 3, 4]⟩
        ⟨[0, 0, 1], [1, 0, 1], [5, 6, 7]⟩ COO.empty).triples
      = sortTriples (multiMultiplyCOO 2 ⟨[1, 0, 1], [0, 0, 1], [2, 3, 4]⟩
        ⟨[0, 0, 1], [1, 0, 1], [5, 6, 7]⟩ COO.empty).triples ∧
    (∀ o₁ o₂ : List (Int × Int × Int),
      o₁.Perm (multiplyCOO ⟨[1, 0, 1], [0, 0, 1], [2, 3, 4]⟩
        ⟨[0, 0, 1], [1, 0, 1], [5, 6, 7]⟩ COO.empty).triples →
      o₂.Perm (multiMultiplyCOO 2 ⟨[1, 0, 1], [0, 0, 1], [2, 3, 4]⟩
        ⟨[0, 0, 1], [1, 0, 1], [5, 6, 7]⟩ COO.empty).triples →
      sortTriples o₁ = sortTriples o₂)) :=
  ⟨by decide, by decide, by decide,
    multipliers_sorted_equal 2 ⟨[1, 0, 1], [0, 0, 1], [2, 3, 4]⟩
      ⟨[0, 0, 1], [1, 0, 1], [5, 6, 7]⟩ (by decide) (by decide) (by decide)⟩

/-! ## The classical multiplication -/

theorem classical_kLoop (n i j : Nat) (hi : i < n) (hj : j < n) (a b : Nat → Int)
    (ks : List Nat) (D : DenseMatrix) (S : Int) (hD : IsSquare D n)
    (hS : cell D i j = wrap32 S) :
    IsSquare (ks.foldl (fun M3 k =>
        updateCell M3 i j (fun x => addInt x (mulInt (a k) (b k)))) D) n ∧
    cell (ks.foldl (fun M3 k =>
        updateCell M3 i j (fun x => addInt x (mulInt (a k) (b k)))) D) i j
      = wrap32 (S + (ks.map (fun k => a k * b k)).sum) ∧
    ∀ i' j', ¬ (i = i' ∧ j = j') →
      cell (ks.foldl (fun M3 k =>
        updateCell M3 i j (fun x => addInt x (mulInt (a k) (b k)))) D) i' j' = cell D i' j' := by
  induction ks generalizing D S with
  | nil => exact ⟨hD, by simpa using hS, fun _ _ _ => rfl⟩
  | cons k ks ih =>
    rw [List.foldl_cons, List.map_cons, List.sum_cons, ← Int.add_assoc]
    have h1 := isSquare_updateCell D n i j (fun x => addInt x (mulInt (a k) (b k))) hD
    have h2 : cell (updateCell D i j (fun x => addInt x (mulInt (a k) (b k)))) i j
        = wrap32 (S + a k * b k) := by
      rw [cell_updateCell D n i j _ hD hi hj, if_pos ⟨rfl, rfl⟩, hS, addInt_wrap32, mulInt,
        wrap32_add_wrap32]
    obtain ⟨h3, h4, h5⟩ := ih _ _ h1 h2
    refine ⟨h3, h4, ?_⟩
    intro i' j' hne
    rw [h5 i' j' hne, cell_updateCell_ne D i j _ i' j' hne]

theorem classical_jLoop (M1 M2 : DenseMatrix) (n i : Nat) (hi : i < n) (D : DenseMatrix)
    (hD : IsSquare D n) (hR : InIntRange D n) (m : Nat) (hm : m ≤ n) :
    IsSquare ((List.range m).foldl (fun M3 j =>
        (List.range n).foldl (fun M3 k =>
          updateCell M3 i j (fun x => addInt x (mulInt (cell M1 i k) (cell M2 k j)))) M3) D) n ∧
    ∀ i' j', cell ((List.range m).foldl (fun M3 j =>
        (List.range n).foldl (fun M3 k =>
          updateCell M3 i j (fun x => addInt x (mulInt (cell M1 i k) (cell M2 k j)))) M3) D) i' j'
      = if i' = i ∧ j' < m then wrap32 (cell D i j' + dot M1 M2 n i j') else cell D i' j' := by
  induction m with
  | zero => exact ⟨hD, by simp⟩
  | succ m ih =>
    obtain ⟨h1, h2⟩ := ih (by omega)
    rw [List.range_succ, List.foldl_append, List.foldl_cons, List.foldl_nil]
    have hm' : m < n := by omega
    have h3 : cell ((List.range m).foldl (fun M3 j =>
        (List.range n).foldl (fun M3 k =>
          updateCell M3 i j (fun x => addInt x (mulInt (cell M1 i k) (cell M2 k j)))) M3) D) i m
        = wrap32 (cell D i m) := by
      rw [h2 i m, if_neg (by omega), hR i m hi hm']
    obtain ⟨h4, h5, h6⟩ := classical_kLoop n i m hi hm' (fun k => cell M1 i k)
      (fun k => cell M2 k m) (List.range n) _ _ h1 h3
    refine ⟨h4, ?_⟩
    intro i' j'
    by_cases h7 : i = i' ∧ m = j'
    · obtain ⟨rfl, rfl⟩ := h7
      rw [h5, if_pos ⟨rfl, by omega⟩]
      rfl
    · rw [h6 i' j' h7, h2 i' j']
      by_cases h8 : i' = i ∧ j' < m
      · rw [if_pos h8, if_pos ⟨h8.1, by omega⟩]
      · rw [if_neg h8, if_neg]
        intro h9
        apply h7
        constructor
        · exact h9.1.symm
        · have : ¬ j' < m := fun h10 => h8 ⟨h9.1, h10⟩
          omega

theorem classical_iLoop (M1 M2 : DenseMatrix) (n : Nat) (D : DenseMatrix)
    (hD : IsSquare D n) (hR : InIntRange D n) (m : Nat) (hm : m ≤ n) :
    IsSquare ((List.range m).foldl (fun M3 i =>
      (List.range n).foldl (fun M3 j =>
        (List.range n).foldl (fun M3 k =>
          updateCell M3 i j (fun x => addInt x (mulInt (cell M1 i k) (cell M2 k j)))) M3) M3) D) n ∧
    ∀ i' j', cell ((List.range m).foldl (fun M3 i =>
      (List.range n).foldl (fun M3 j =>
        (List.range n).foldl (fun M3 k =>
          updateCell M3 i j (fun x => addInt x (mulInt (cell M1 i k) (cell M2 k j)))) M3) M3) D) i' j'
      = if i' < m ∧ j' < n then wrap32 (cell D i' j' + dot M1 M2 n i' j') else cell D i' j' := by
  induction m with
  | zero => exact ⟨hD, by simp⟩
  | succ m ih =>
    obtain ⟨h1, h2⟩ := ih (by omega)
    rw [List.range_succ, List.foldl_append, List.foldl_cons, List.foldl_nil]
    have hm' : m < n := by omega
    have hR' : InIntRange ((List.range m).foldl (fun M3 i =>
      (List.range n).foldl (fun M3 j =>
        (List.range n).foldl (fun M3 k =>
          updateCell M3 i j (fun x => addInt x (mulInt (cell M1 i k) (cell M2 k j)))) M3) M3) D)
        n := by
      intro i' j' hi' hj'
      rw [h2 i' j']
      by_cases h3 : i' < m ∧ j' < n
      · rw [if_pos h3, wrap32_wrap32]
      · rw [if_neg h3]; exact hR i' j' hi' hj'
    obtain ⟨h4, h5⟩ := classical_jLoop M1 M2 n m hm' _ h1 hR' n (Nat.le_refl n)
    refine ⟨h4, ?_⟩
    intro i' j'
    rw [h5 i' j']
    by_cases h6 : i' = m ∧ j' < n
    · obtain ⟨rfl, h7⟩ := h6
      rw [if_pos ⟨rfl, h7⟩, if_pos ⟨by omega, h7⟩, h2 i' j', if_neg (by omega)]
    · rw [if_neg h6, h2 i' j']
      by_cases h8 : i' < m ∧ j' < n
      · rw [if_pos h8, if_pos ⟨by omega, h8.2⟩]
      · rw [if_neg h8, if_neg]
        intro h9
        have : ¬ i' = m := fun h10 => h6 ⟨h10, h9.2⟩
        apply h8
        exact ⟨by omega, h9.2⟩

/-- The effect of `singleClassicalMultiplication` on a square `M3` holding `int`s: every cell
gains the dot product, in 32-bit arithmetic. -/
theorem cell_singleClassicalMultiplication (M1 M2 M3 : DenseMatrix) (n : Nat)
    (hD : IsSquare M3 n) (hR : InIntRange M3 n) :
    IsSquare (singleClassicalMultiplication M1 M2 M3 n) n ∧
    ∀ i j, i < n → j < n →
      cell (singleClassicalMultiplication M1 M2 M3 n) i j
        = wrap32 (cell M3 i j + dot M1 M2 n i j) := by
  obtain ⟨h1, h2⟩ := classical_iLoop M1 M2 n M3 hD hR n (Nat.le_refl n)
  refine ⟨h1, ?_⟩
  intro i j hi hj
  have := h2 i j
  rw [if_pos ⟨hi, hj⟩] at this
  exact this

theorem inIntRange_zeroMatrix (n : Nat) : InIntRange (zeroMatrix n) n := by
  intro i j _ _
  rw [cell_zeroMatrix]
  exact wrap32_zero

/-! ## The coordinate product of two converted matrices -/

theorem pairSum_eq_triples (A B : COO) (r c : Int) :
    pairSum A B r c
      = (A.triples.map (fun a => (B.triples.map (fun b =>
          if a.1 = r ∧ b.2.1 = c ∧ b.1 = a.2.1 then a.2.2 * b.2.2 else 0)).sum)).sum := by
  simp only [pairSum, COO.triples, List.map_map]
  rfl

theorem sum_map_flatMap {α β : Type} (f : α → List β) (g : β → Int) (l : List α) :
    ((l.flatMap f).map g).sum = (l.map (fun x => ((f x).map g).sum)).sum := by
  induction l with
  | nil => rfl
  | cons a l ih => simp [List.flatMap_cons, ih]

theorem sum_map_rowScan (M : DenseMatrix) (n i : Nat) (g : Int × Int × Int → Int)
    (hg : ∀ j, cell M i j = 0 → g ((i : Int), (j : Int), cell M i j) = 0) :
    ((rowScan M n i).map g).sum
      = ((List.range n).map (fun (j : Nat) => g ((i : Int), (j : Int), cell M i j))).sum := by
  unfold rowScan
  induction (List.range n) with
  | nil => rfl
  | cons j js ih =>
    rw [List.filterMap_cons, List.map_cons, List.sum_cons]
    by_cases h : cell M i j ≠ 0
    · rw [if_pos h, List.map_cons, List.sum_cons, ih]
    · rw [if_neg h, ih, hg j (by simpa using h), Int.zero_add]

theorem sum_map_column (lb : List (Int × Int × Int)) (p : Prop) [Decidable p] (k c v : Int) :
    (lb.map (fun b => if p ∧ b.2.1 = c ∧ b.1 = k then v * b.2.2 else 0)).sum
      = if p then v * tripleSum lb k c else 0 := by
  induction lb with
  | nil => simp [tripleSum]
  | cons b lb ih =>
    rw [List.map_cons, List.sum_cons, ih, tripleSum_cons]
    by_cases hp : p
    · by_cases h : b.1 = k ∧ b.2.1 = c
      · rw [if_pos ⟨hp, h.2, h.1⟩, if_pos hp, if_pos hp, if_pos h, Int.mul_add]
      · rw [if_neg (fun h' => h ⟨h'.2.2, h'.2.1⟩), if_pos hp, if_pos hp, if_neg h,
          Int.zero_add, Int.zero_add]
    · rw [if_neg (fun h' => hp h'.1), if_neg hp, if_neg hp, Int.add_zero]

theorem pairSum_scans (M1 M2 : DenseMatrix) (n i j : Nat) (hi : i < n) (hj : j < n) :
    pairSum (COO.ofTriples (rowMajorScan M1 n)) (COO.ofTriples (rowMajorScan M2 n))
      (i : Int) (j : Int) = dot M1 M2 n i j := by
  rw [pairSum_eq_triples, triples_ofTriples, triples_ofTriples]
  have h1 : (rowMajorScan M1 n).map (fun a => ((rowMajorScan M2 n).map (fun b =>
        if a.1 = (i : Int) ∧ b.2.1 = (j : Int) ∧ b.1 = a.2.1 then a.2.2 * b.2.2 else 0)).sum)
      = (rowMajorScan M1 n).map (fun a =>
        if a.1 = (i : Int) then a.2.2 * cell M2 a.2.1.toNat j else 0) := by
    apply List.map_congr_left
    intro a ha
    obtain ⟨i', k, _, hk, _, rfl⟩ := (mem_rowMajorScan M1 n a).mp ha
    rw [sum_map_column]
    have e : ((k : Int)).toNat = k := Int.toNat_ofNat k
    simp only [e]
    rw [tripleSum_rowMajorScan M2 n k j hk hj]
  rw [h1, rowMajorScan, sum_map_flatMap]
  have h2 : (fun x => ((rowScan M1 n x).map (fun a =>
        if a.1 = (i : Int) then a.2.2 * cell M2 a.2.1.toNat j else 0)).sum)
      = (fun x => if x = i then dot M1 M2 n x j else 0) := by
    funext x
    rw [sum_map_rowScan]
    · by_cases hx : x = i
      · subst hx
        simp [dot]
      · have hx' : ¬ ((x : Int) = (i : Int)) := by omega
        simp [hx, hx']
    · intro k hk
      simp [hk]
  rw [h2, sum_range_ite n i (fun x => dot M1 M2 n x j), if_pos hi]

/-- C2: for `n × n` matrices `M1` and `M2` and `W ≥ 1` workers, the dense reconstruction
of `multiplyCOO` applied to the two `matrixToCOO` conversions (all output vectors empty
on entry) is the matrix that `singleClassicalMultiplication` leaves in a zero-initialised
`M3`; for `A = [[0,2,0],[0,0,0],[5,0,1]]` and `B = [[1,0,0],[0,0,3],[0,4,0]]` the output
holds exactly the triples `(0,2,6)`, `(2,0,5)`, `(2,1,4)`, each once. -/
theorem multiplyCOO_matches_classical (W n : Nat) (M1 M2 : DenseMatrix) (hW : 1 ≤ W)
    (hM1 : IsSquare M1 n) (hM2 : IsSquare M2 n) :
    toDense n (multiplyCOO (matrixToCOO W M1 n COO.empty) (matrixToCOO W M2 n COO.empty)
        COO.empty)
      = singleClassicalMultiplication M1 M2 (zeroMatrix n) n ∧
    (multiplyCOO (matrixToCOO W [[0, 2, 0], [0, 0, 0], [5, 0, 1]] 3 COO.empty)
        (matrixToCOO W [[1, 0, 0], [0, 0, 3], [0, 4, 0]] 3 COO.empty) COO.empty).triples.Perm
      [(0, 2, 6), (2, 0, 5), (2, 1, 4)] := by
  have _ := hM1
  have _ := hM2
  constructor
  · obtain ⟨h1, h2⟩ := cell_singleClassicalMultiplication M1 M2 (zeroMatrix n) n
      (isSquare_zeroMatrix n) (inIntRange_zeroMatrix n)
    apply isSquare_ext _ _ n (isSquare_toDense n _) h1
    intro i j hi hj
    rw [cell_toDense n _ i j hi hj, cellSum_multiplyCOO, matrixToCOO_eq W hW,
      matrixToCOO_eq W hW, empty_insertEnd, empty_insertEnd, pairSum_scans M1 M2 n i j hi hj,
      h2 i j hi hj, cell_zeroMatrix, Int.zero_add]
  · rw [matrixToCOO_eq W hW, matrixToCOO_eq W hW, empty_insertEnd, empty_insertEnd]
    decide

theorem multiplyCOO_matches_classical_witness :
    1 ≤ 4 ∧ IsSquare [[1, 0], [-2, 3]] 2 ∧ IsSquare [[0, 5], [7, 0]] 2 ∧
    (toDense 2 (multiplyCOO (matrixToCOO 4 [[1, 0], [-2, 3]] 2 COO.empty)
        (matrixToCOO 4 [[0, 5], [7, 0]] 2 COO.empty) COO.empty)
      = singleClassicalMultiplication [[1, 0], [-2, 3]] [[0, 5], [7, 0]] (zeroMatrix 2) 2 ∧
    (multiplyCOO (matrixToCOO 4 [[0, 2, 0], [0, 0, 0], [5, 0, 1]] 3 COO.empty)
        (matrixToCOO 4 [[1, 0, 0], [0, 0, 3], [0, 4, 0]] 3 COO.empty) COO.empty).triples.Perm
      [(0, 2, 6), (2, 0, 5), (2, 1, 4)]) :=
  ⟨by decide, by decide, by decide,
    multiplyCOO_matches_classical 4 2 [[1, 0], [-2, 3]] [[0, 5], [7, 0]] (by decide) (by decide)
      (by decide)⟩

/-! ## The output vectors across a call -/

theorem wellFormed_insertEnd (C D : COO) (hC : C.WellFormed) (hD : D.WellFormed) :
    (C.insertEnd D).WellFormed := by
  unfold COO.WellFormed at *
  simp only [COO.insertEnd, List.length_append]
  omega

theorem ofTriples_triples (C : COO) (h : C.WellFormed) : COO.ofTriples C.triples = C := by
  obtain ⟨h1, h2⟩ := h
  obtain ⟨rows, cols, vals⟩ := C
  simp only at h1 h2
  simp only [COO.ofTriples, COO.triples, List.map_map, COO.mk.injEq]
  refine ⟨?_, ?_, ?_⟩
  · apply List.ext_getElem (by simp)
    intro k hk hk'
    simp [COO.entry, List.getD_eq_getElem?_getD, List.getElem?_eq_getElem hk']
  · apply List.ext_getElem (by simp [h1])
    intro k hk hk'
    simp [COO.entry, List.getD_eq_getElem?_getD, List.getElem?_eq_getElem hk']
  · apply List.ext_getElem (by simp [h1, h2])
    intro k hk hk'
    simp [COO.entry, List.getD_eq_getElem?_getD, List.getElem?_eq_getElem hk']

theorem triples_insertEnd (C : COO) (h : C.WellFormed) (l : List (Int × Int × Int)) :
    (C.insertEnd (COO.ofTriples l)).triples = C.triples ++ l := by
  have e : C.insertEnd (COO.ofTriples l) = COO.ofTriples (C.triples ++ l) := by
    rw [ofTriples_append, ofTriples_triples C h]
  rw [e, triples_ofTriples]

theorem matrixToCOO_append (W : Nat) (hW : 1 ≤ W) (M : DenseMatrix) (n : Nat) (P : COO) :
    matrixToCOO W M n P = P.insertEnd (matrixToCOO W M n COO.empty) := by
  rw [matrixToCOO_eq W hW M n P, matrixToCOO_eq W hW M n COO.empty, empty_insertEnd]

theorem multiplyCOO_append (A B P : COO) :
    multiplyCOO A B P = P.insertEnd (multiplyCOO A B COO.empty) := by
  rw [multiplyCOO_eq A B P, multiplyCOO_eq A B COO.empty, empty_insertEnd]

theorem multiMultiplyCOO_append (W : Nat) (A B P : COO) :
    multiMultiplyCOO W A B P = P.insertEnd (multiMultiplyCOO W A B COO.empty) := by
  rw [multiMultiplyCOO_eq W A B P, multiMultiplyCOO_eq W A B COO.empty, empty_insertEnd]

/-- C14: `matrixToCOO`, `multiplyCOO` and `multiMultiplyCOO` keep the three vectors the same
length: when `rows`, `cols`, `vals` have equal length on entry they have equal length on
return, for every input and every worker count `W ≥ 1`. -/
theorem lengths_stay_equal (W : Nat) (M : DenseMatrix) (n : Nat) (A B out : COO) (hW : 1 ≤ W)
    (hout : out.WellFormed) :
    (matrixToCOO W M n out).WellFormed ∧ (multiplyCOO A B out).WellFormed ∧
    (multiMultiplyCOO W A B out).WellFormed := by
  rw [matrixToCOO_eq W hW, multiplyCOO_eq, multiMultiplyCOO_eq]
  exact ⟨wellFormed_insertEnd _ _ hout (ofTriples_wellFormed _),
    wellFormed_insertEnd _ _ hout (ofTriples_wellFormed _),
    wellFormed_insertEnd _ _ hout (ofTriples_wellFormed _)⟩

theorem lengths_stay_equal_witness :
    1 ≤ 2 ∧ COO.WellFormed ⟨[7, 8], [7, 8], [1, 1]⟩ ∧
    ((matrixToCOO 2 [[0, 2], [3, 0]] 2 ⟨[7, 8], [7, 8], [1, 1]⟩).WellFormed ∧
    (multiplyCOO ⟨[0, 0], [0, 1], [2, 3]⟩ ⟨[0, 1], [1, 1], [4, 5]⟩
      ⟨[7, 8], [7, 8], [1, 1]⟩).WellFormed ∧
    (multiMultiplyCOO 2 ⟨[0, 0], [0, 1], [2, 3]⟩ ⟨[0, 1], [1, 1], [4, 5]⟩
      ⟨[7, 8], [7, 8], [1, 1]⟩).WellFormed) :=
  ⟨by decide, by decide,
    lengths_stay_equal 2 [[0, 2], [3, 0]] 2 ⟨[0, 0], [0, 1], [2, 3]⟩ ⟨[0, 1], [1, 1], [4, 5]⟩
      ⟨[7, 8], [7, 8], [1, 1]⟩ (by decide) (by decide)⟩

/-- C13 (as stated) fails: the calls push to the vectors they are given and never clear
them.  With `A = {(0, 0, 2)}` and `B = {(0, 1, 3)}`, `multiplyCOO` and `multiMultiplyCOO`
return the single triple `(0, 1, 6)` from empty vectors and the two triples `(7, 7, 7)`,
`(0, 1, 6)` from vectors that held `(7, 7, 7)`; `matrixToCOO` behaves alike. -/
theorem result_depends_on_prior_content :
    multiplyCOO ⟨[0], [0], [2]⟩ ⟨[0], [1], [3]⟩ COO.empty = ⟨[0], [1], [6]⟩ ∧
    multiplyCOO ⟨[0], [0], [2]⟩ ⟨[0], [1], [3]⟩ ⟨[7], [7], [7]⟩ = ⟨[7, 0], [7, 1], [7, 6]⟩ ∧
    ¬ (multiplyCOO ⟨[0], [0], [2]⟩ ⟨[0], [1], [3]⟩ ⟨[7], [7], [7]⟩).triples.Perm
        (multiplyCOO ⟨[0], [0], [2]⟩ ⟨[0], [1], [3]⟩ COO.empty).triples ∧
    ¬ (multiMultiplyCOO 2 ⟨[0], [0], [2]⟩ ⟨[0], [1], [3]⟩ ⟨[7], [7], [7]⟩).triples.Perm
        (multiMultiplyCOO 2 ⟨[0], [0], [2]⟩ ⟨[0], [1], [3]⟩ COO.empty).triples ∧
    ¬ (matrixToCOO 2 [[0, 2], [3, 0]] 2 ⟨[7], [7], [7]⟩).triples.Perm
        (matrixToCOO 2 [[0, 2], [3, 0]] 2 COO.empty).triples := by
  decide

/-- C13 (as amended): for the same `A`, `B` and `W ≥ 1` (the same `M`, `n`, `W` for
`matrixToCOO`), the multiset of triples held on return is the multiset held on entry
together with the multiset the call returns from empty vectors; so two calls whose
output vectors hold the same multiset of triples on entry return the same multiset, and
the result is a function of the inputs and the worker count alone when the vectors are
empty on entry. -/
theorem result_modulo_prior_content (W : Nat) (M : DenseMatrix) (n : Nat) (A B P Q : COO)
    (hW : 1 ≤ W) (hP : P.WellFormed) (hQ : Q.WellFormed) (hPQ : P.triples.Perm Q.triples) :
    ((multiplyCOO A B P).triples.Perm (P.triples ++ (multiplyCOO A B COO.empty).triples) ∧
      (multiMultiplyCOO W A B P).triples.Perm
        (P.triples ++ (multiMultiplyCOO W A B COO.empty).triples) ∧
      (matrixToCOO W M n P).triples.Perm (P.triples ++ (matrixToCOO W M n COO.empty).triples)) ∧
    ((multiplyCOO A B P).triples.Perm (multiplyCOO A B Q).triples ∧
      (multiMultiplyCOO W A B P).triples.Perm (multiMultiplyCOO W A B Q).triples ∧
      (matrixToCOO W M n P).triples.Perm (matrixToCOO W M n Q).triples) := by
  rw [matrixToCOO_eq W hW M n P, matrixToCOO_eq W hW M n Q, matrixToCOO_eq W hW M n COO.empty,
    multiplyCOO_eq A B P, multiplyCOO_eq A B Q, multiplyCOO_eq A B COO.empty,
    multiMultiplyCOO_eq W A B P, multiMultiplyCOO_eq W A B Q, multiMultiplyCOO_eq W A B COO.empty]
  simp only [empty_insertEnd, triples_ofTriples, triples_insertEnd P hP, triples_insertEnd Q hQ]
  exact ⟨⟨List.Perm.refl _, List.Perm.refl _, List.Perm.refl _⟩,
    hPQ.append_right _, hPQ.append_right _, hPQ.append_right _⟩

theorem result_modulo_prior_content_witness :
    1 ≤ 2 ∧ COO.WellFormed ⟨[7, 8], [7, 8], [1, 2]⟩ ∧ COO.WellFormed ⟨[8, 7], [8, 7], [2, 1]⟩ ∧
    (COO.triples ⟨[7, 8], [7, 8], [1, 2]⟩).Perm (COO.triples ⟨[8, 7], [8, 7], [2, 1]⟩) ∧
    (((multiplyCOO ⟨[0], [0], [2]⟩ ⟨[0], [1], [3]⟩ ⟨[7, 8], [7, 8], [1, 2]⟩).triples.Perm
        (COO.triples ⟨[7, 8], [7, 8], [1, 2]⟩
          ++ (multiplyCOO ⟨[0], [0], [2]⟩ ⟨[0], [1], [3]⟩ COO.empty).triples) ∧
      (multiMultiplyCOO 2 ⟨[0], [0], [2]⟩ ⟨[0], [1], [3]⟩ ⟨[7, 8], [7, 8], [1, 2]⟩).triples.Perm
        (COO.triples ⟨[7, 8], [7, 8], [1, 2]⟩
          ++ (multiMultiplyCOO 2 ⟨[0], [0], [2]⟩ ⟨[0], [1], [3]⟩ COO.empty).triples) ∧
      (matrixToCOO 2 [[0, 2], [3, 0]] 2 ⟨[7, 8], [7, 8], [1, 2]⟩).triples.Perm
        (COO.triples ⟨[7, 8], [7, 8], [1, 2]⟩
          ++ (matrixToCOO 2 [[0, 2], [3, 0]] 2 COO.empty).triples)) ∧
    ((multiplyCOO ⟨[0], [0], [2]⟩ ⟨[0], [1], [3]⟩ ⟨[7, 8], [7, 8], [1, 2]⟩).triples.Perm
        (multiplyCOO ⟨[0], [0], [2]⟩ ⟨[0], [1], [3]⟩ ⟨[8, 7], [8, 7], [2, 1]⟩).triples ∧
      (multiMultiplyCOO 2 ⟨[0], [0], [2]⟩ ⟨[0], [1], [3]⟩ ⟨[7, 8], [7, 8], [1, 2]⟩).triples.Perm
        (multiMultiplyCOO 2 ⟨[0], [0], [2]⟩ ⟨[0], [1], [3]⟩ ⟨[8, 7], [8, 7], [2, 1]⟩).triples ∧
      (matrixToCOO 2 [[0, 2], [3, 0]] 2 ⟨[7, 8], [7, 8], [1, 2]⟩).triples.Perm
        (matrixToCOO 2 [[0, 2], [3, 0]] 2 ⟨[8, 7], [8, 7], [2, 1]⟩).triples)) :=
  ⟨by decide, by decide, by decide, by decide,
    result_modulo_prior_content 2 [[0, 2], [3, 0]] 2 ⟨[0], [0], [2]⟩ ⟨[0], [1], [3]⟩
      ⟨[7, 8], [7, 8], [1, 2]⟩ ⟨[8, 7], [8, 7], [2, 1]⟩ (by decide) (by decide) (by decide)
      (by decide)⟩

theorem cellCount_eq_countP (C : COO) (r c : Int) :
    cellCount C r c = C.triples.countP (fun t => decide (t.1 = r ∧ t.2.1 = c)) := by
  unfold cellCount COO.triples
  rw [List.countP_map, List.countP_eq_length_filter]
  rfl

theorem countP_key (l : List (Int × Int × Int)) (h : l.Pairwise keyNe)
    (hv : ∀ t ∈ l, t.2.2 ≠ 0) (r c : Int) :
    l.countP (fun t => decide (t.1 = r ∧ t.2.1 = c)) = if tripleSum l r c ≠ 0 then 1 else 0 := by
  induction l with
  | nil => simp [tripleSum]
  | cons a l ih =>
    rw [List.pairwise_cons] at h
    have ih' := ih h.2 (fun t ht => hv t (List.mem_cons_of_mem _ ht))
    rw [tripleSum_cons]
    by_cases hk : a.1 = r ∧ a.2.1 = c
    · have hz : tripleSum l r c = 0 := by
        apply tripleSum_eq_zero
        intro b hb h2
        have h3 := h.1 b hb
        unfold keyNe at h3
        omega
      rw [List.countP_cons_of_pos _ _ (by simpa using hk), ih', hz, if_pos hk, Int.add_zero,
        if_pos (hv a (List.mem_cons_self _ _))]
      simp
    · rw [List.countP_cons_of_neg _ _ (by simpa using hk), ih', if_neg hk, Int.zero_add]

theorem cellCount_emit_twice (acc₁ acc₂ : Accumulator) (h₁ : AccWF acc₁) (h₂ : AccWF acc₂)
    (r c : Int) (h : accGet acc₂ r c = accGet acc₁ r c) :
    cellCount (emit acc₂ (emit acc₁ COO.empty)) r c = if accGet acc₁ r c ≠ 0 then 2 else 0 := by
  rw [cellCount_eq_countP, emit_eq acc₂, emit_eq acc₁, empty_insertEnd,
    triples_insertEnd _ (ofTriples_wellFormed _), triples_ofTriples, List.countP_append,
    countP_key _ ((pairwise_keyNe_allCells _ h₁).filter _) (filter_val_ne_zero _),
    countP_key _ ((pairwise_keyNe_allCells _ h₂).filter _) (filter_val_ne_zero _),
    tripleSum_filter, tripleSum_filter, tripleSum_allCells _ r c h₁, tripleSum_allCells _ r c h₂,
    h]
  split <;> rfl

theorem mainCoordinate_eq (W n : Nat) (M1 M2 : DenseMatrix) :
    mainCoordinate W n M1 M2
      = (multiplyCOO (matrixToCOO W M1 n COO.empty) (matrixToCOO W M2 n COO.empty)
          COO.empty).insertEnd
        (multiMultiplyCOO W (matrixToCOO W M1 n COO.empty) (matrixToCOO W M2 n COO.empty)
          COO.empty) := by
  unfold mainCoordinate
  exact multiMultiplyCOO_append W _ _ _

theorem cellCount_mainCoordinate (W : Nat) (hW : 1 ≤ W) (n : Nat) (M1 M2 : DenseMatrix)
    (r c : Int) :
    cellCount (mainCoordinate W n M1 M2) r c
      = if wrap32 (pairSum (matrixToCOO W M1 n COO.empty) (matrixToCOO W M2 n COO.empty) r c) ≠ 0
        then 2 else 0 := by
  have h := cellCount_emit_twice _ _
    (accWF_joinAll (matrixToCOO W M1 n COO.empty) (matrixToCOO W M2 n COO.empty))
    (accWF_mergedAll W (matrixToCOO W M1 n COO.empty) (matrixToCOO W M2 n COO.empty)) r c
    (by rw [accGet_mergedAll W hW, accGet_joinAll])
  rw [accGet_joinAll] at h
  exact h

/-- C16: `matrixToCOO`, `multiplyCOO` and `multiMultiplyCOO` never clear or rewrite their
output vectors: for every prior content `P` the vectors on return are `P` followed by what
the call returns from empty vectors.  So the two consecutive calls of `main` on `rows3`,
`cols3`, `vals3` leave the output of `multiplyCOO` followed by the output of
`multiMultiplyCOO`, and every cell of the product that is non-zero is stored at exactly
two indices (every other position at none). -/
theorem outputs_are_appended (W n : Nat) (M M1 M2 : DenseMatrix) (A B P : COO) (hW : 1 ≤ W)
    (hM1 : IsSquare M1 n) (hM2 : IsSquare M2 n) :
    (matrixToCOO W M n P = P.insertEnd (matrixToCOO W M n COO.empty) ∧
      multiplyCOO A B P = P.insertEnd (multiplyCOO A B COO.empty) ∧
      multiMultiplyCOO W A B P = P.insertEnd (multiMultiplyCOO W A B COO.empty)) ∧
    mainCoordinate W n M1 M2
      = (multiplyCOO (matrixToCOO W M1 n COO.empty) (matrixToCOO W M2 n COO.empty)
          COO.empty).insertEnd
        (multiMultiplyCOO W (matrixToCOO W M1 n COO.empty) (matrixToCOO W M2 n COO.empty)
          COO.empty) ∧
    (∀ i j : Nat, i < n → j < n →
      cellCount (mainCoordinate W n M1 M2) (i : Int) (j : Int)
        = if cell (singleClassicalMultiplication M1 M2 (zeroMatrix n) n) i j ≠ 0 then 2 else 0) ∧
    (∀ r c : Int,
      cellCount (mainCoordinate W n M1 M2) r c
        = 2 * cellCount (multiplyCOO (matrixToCOO W M1 n COO.empty)
            (matrixToCOO W M2 n COO.empty) COO.empty) r c) := by
  have _ := hM1
  have _ := hM2
  refine ⟨⟨matrixToCOO_append W hW M n P, multiplyCOO_append A B P,
    multiMultiplyCOO_append W A B P⟩, mainCoordinate_eq W n M1 M2, ?_, ?_⟩
  · intro i j hi hj
    rw [cellCount_mainCoordinate W hW,
      (cell_singleClassicalMultiplication M1 M2 (zeroMatrix n) n (isSquare_zeroMatrix n)
        (inIntRange_zeroMatrix n)).2 i j hi hj, cell_zeroMatrix, Int.zero_add,
      matrixToCOO_eq W hW, matrixToCOO_eq W hW, empty_insertEnd, empty_insertEnd,
      pairSum_scans M1 M2 n i j hi hj]
  · intro r c
    rw [cellCount_mainCoordinate W hW, cellCount_eq_countP, multiplyCOO_eq, empty_insertEnd,
      triples_ofTriples,
      countP_key _ ((pairwise_keyNe_allCells _ (accWF_joinAll _ _)).filter _)
        (filter_val_ne_zero _), tripleSum_filter, tripleSum_allCells _ r c (accWF_joinAll _ _),
      accGet_joinAll]
    split <;> rfl

theorem outputs_are_appended_witness :
    1 ≤ 2 ∧ IsSquare [[0, 2, 0], [0, 0, 0], [5, 0, 1]] 3 ∧
    IsSquare [[1, 0, 0], [0, 0, 3], [0, 4, 0]] 3 ∧
    ((matrixToCOO 2 [[0, 2], [3, 0]] 2 ⟨[7], [7], [7]⟩
        = COO.insertEnd ⟨[7], [7], [7]⟩ (matrixToCOO 2 [[0, 2], [3, 0]] 2 COO.empty) ∧
      multiplyCOO ⟨[0], [0], [2]⟩ ⟨[0], [1], [3]⟩ ⟨[7], [7], [7]⟩
        = COO.insertEnd ⟨[7], [7], [7]⟩
            (multiplyCOO ⟨[0], [0], [2]⟩ ⟨[0], [1], [3]⟩ COO.empty) ∧
      multiMultiplyCOO 2 ⟨[0], [0], [2]⟩ ⟨[0], [1], [3]⟩ ⟨[7], [7], [7]⟩
        = COO.insertEnd ⟨[7], [7], [7]⟩
            (multiMultiplyCOO 2 ⟨[0], [0], [2]⟩ ⟨[0], [1], [3]⟩ COO.empty)) ∧
    mainCoordinate 2 3 [[0, 2, 0], [0, 0, 0], [5, 0, 1]] [[1, 0, 0], [0, 0, 3], [0, 4, 0]]
      = (multiplyCOO (matrixToCOO 2 [[0, 2, 0], [0, 0, 0], [5, 0, 1]] 3 COO.empty)
          (matrixToCOO 2 [[1, 0, 0], [0, 0, 3], [0, 4, 0]] 3 COO.empty) COO.empty).insertEnd
        (multiMultiplyCOO 2 (matrixToCOO 2 [[0, 2, 0], [0, 0, 0], [5, 0, 1]] 3 COO.empty)
          (matrixToCOO 2 [[1, 0, 0], [0, 0, 3], [0, 4, 0]] 3 COO.empty) COO.empty) ∧
    (∀ i j : Nat, i < 3 → j < 3 →
      cellCount (mainCoordinate 2 3 [[0, 2, 0], [0, 0, 0], [5, 0, 1]]
          [[1, 0, 0], [0, 0, 3], [0, 4, 0]]) (i : Int) (j : Int)
        = if cell (singleClassicalMultiplication [[0, 2, 0], [0, 0, 0], [5, 0, 1]]
            [[1, 0, 0], [0, 0, 3], [0, 4, 0]] (zeroMatrix 3) 3) i j ≠ 0 then 2 else 0) ∧
    (∀ r c : Int,
      cellCount (mainCoordinate 2 3 [[0, 2, 0], [0, 0, 0], [5, 0, 1]]
          [[1, 0, 0], [0, 0, 3], [0, 4, 0]]) r c
        = 2 * cellCount (multiplyCOO (matrixToCOO 2 [[0, 2, 0], [0, 0, 0], [5, 0, 1]] 3 COO.empty)
            (matrixToCOO 2 [[1, 0, 0], [0, 0, 3], [0, 4, 0]] 3 COO.empty) COO.empty) r c)) :=
  ⟨by decide, by decide, by decide,
    outputs_are_appended 2 3 [[0, 2], [3, 0]] [[0, 2, 0], [0, 0, 0], [5, 0, 1]]
      [[1, 0, 0], [0, 0, 3], [0, 4, 0]] ⟨[0], [0], [2]⟩ ⟨[0], [1], [3]⟩ ⟨[7], [7], [7]⟩
      (by decide) (by decide) (by decide)⟩

/-! ## The order of the merge -/

theorem accGet_mergeLocals (ls : List Accumulator) (acc : Accumulator) (r c S : Int)
    (h : accGet acc r c = wrap32 S) :
    accGet (ls.foldl mergeLocal acc) r c
      = wrap32 (S + (ls.map (fun l => tripleSum (allCells l) r c)).sum) := by
  induction ls generalizing acc S with
  | nil => simpa using h
  | cons l ls ih =>
    rw [List.foldl_cons, List.map_cons, List.sum_cons, ← Int.add_assoc]
    apply ih
    rw [mergeLocal_eq, accGet_addAll _ acc r c S h]

theorem hasKey_iff_mem_allCells (acc : Accumulator) (r c : Int) :
    hasKey acc r c ↔ ∃ v, (r, c, v) ∈ allCells acc := by
  unfold hasKey allCells
  constructor
  · rintro ⟨m, hm, hc⟩
    obtain ⟨ce, hce, rfl⟩ := List.mem_map.mp hc
    exact ⟨ce.2, List.mem_flatMap.mpr ⟨(r, m), hm, List.mem_map.mpr ⟨ce, hce, rfl⟩⟩⟩
  · rintro ⟨v, hv⟩
    obtain ⟨e, he, h2⟩ := List.mem_flatMap.mp hv
    obtain ⟨ce, hce, h3⟩ := List.mem_map.mp h2
    simp only [Prod.mk.injEq] at h3
    obtain ⟨rfl, rfl, rfl⟩ := h3
    exact ⟨e.2, he, List.mem_map.mpr ⟨ce, hce, rfl⟩⟩

theorem hasKey_accAdd (acc : Accumulator) (r c v r' c' : Int) :
    hasKey (accAdd acc r c v) r' c' ↔ (r' = r ∧ c' = c) ∨ hasKey acc r' c' := by
  unfold hasKey
  induction acc with
  | nil =>
    simp only [accAdd, List.mem_singleton, Prod.mk.injEq, List.not_mem_nil, false_and,
      exists_false, or_false]
    constructor
    · rintro ⟨m, ⟨rfl, rfl⟩, hc⟩
      rw [keys_colMapAdd] at hc
      simpa using hc
    · rintro ⟨rfl, rfl⟩
      exact ⟨_, ⟨rfl, rfl⟩, by rw [keys_colMapAdd]; exact Or.inl rfl⟩
  | cons e acc ih =>
    obtain ⟨k, m⟩ := e
    by_cases h1 : k = r
    · subst h1
      simp only [accAdd, if_true, List.mem_cons, Prod.mk.injEq]
      constructor
      · rintro ⟨m', (⟨rfl, rfl⟩ | hm), hc⟩
        · rw [keys_colMapAdd] at hc
          rcases hc with hc | hc
          · exact Or.inl ⟨rfl, hc⟩
          · exact Or.inr ⟨m, Or.inl ⟨rfl, rfl⟩, hc⟩
        · exact Or.inr ⟨m', Or.inr hm, hc⟩
      · rintro (⟨rfl, rfl⟩ | ⟨m', (⟨rfl, rfl⟩ | hm), hc⟩)
        · exact ⟨_, Or.inl ⟨rfl, rfl⟩, by rw [keys_colMapAdd]; exact Or.inl rfl⟩
        · exact ⟨_, Or.inl ⟨rfl, rfl⟩, by rw [keys_colMapAdd]; exact Or.inr hc⟩
        · exact ⟨m', Or.inr hm, hc⟩
    · simp only [accAdd, if_neg h1, List.mem_cons, Prod.mk.injEq]
      constructor
      · rintro ⟨m', (⟨rfl, rfl⟩ | hm), hc⟩
        · exact Or.inr ⟨m', Or.inl ⟨rfl, rfl⟩, hc⟩
        · rcases ih.mp ⟨m', hm, hc⟩ with h2 | ⟨m'', hm'', hc''⟩
          · exact Or.inl h2
          · exact Or.inr ⟨m'', Or.inr hm'', hc''⟩
      · rintro (h2 | ⟨m', (⟨rfl, rfl⟩ | hm), hc⟩)
        · obtain ⟨m'', hm'', hc''⟩ := ih.mpr (Or.inl h2)
          exact ⟨m'', Or.inr hm'', hc''⟩
        · exact ⟨m', Or.inl ⟨rfl, rfl⟩, hc⟩
        · obtain ⟨m'', hm'', hc''⟩ := ih.mpr (Or.inr ⟨m', hm, hc⟩)
          exact ⟨m'', Or.inr hm'', hc''⟩

theorem hasKey_addAll (cs : List (Int × Int × Int)) (acc : Accumulator) (r c : Int) :
    hasKey (addAll cs acc) r c ↔ (∃ t ∈ cs, t.1 = r ∧ t.2.1 = c) ∨ hasKey acc r c := by
  unfold addAll
  induction cs generalizing acc with
  | nil => simp
  | cons t cs ih =>
    rw [List.foldl_cons, ih, hasKey_accAdd]
    simp only [List.mem_cons, exists_eq_or_imp]
    constructor
    · rintro (h | ⟨rfl, rfl⟩ | h)
      · exact Or.inl (Or.inr h)
      · exact Or.inl (Or.inl ⟨rfl, rfl⟩)
      · exact Or.inr h
    · rintro ((⟨h1, h2⟩ | h) | h)
      · exact Or.inr (Or.inl ⟨h1.symm, h2.symm⟩)
      · exact Or.inl h
      · exact Or.inr (Or.inr h)

theorem hasKey_mergeLocals (ls : List Accumulator) (acc : Accumulator) (r c : Int) :
    hasKey (ls.foldl mergeLocal acc) r c ↔ (∃ l ∈ ls, hasKey l r c) ∨ hasKey acc r c := by
  induction ls generalizing acc with
  | nil => simp
  | cons l ls ih =>
    rw [List.foldl_cons, ih, mergeLocal_eq, hasKey_addAll]
    have e : (∃ t ∈ allCells l, t.1 = r ∧ t.2.1 = c) ↔ hasKey l r c := by
      rw [hasKey_iff_mem_allCells]
      constructor
      · rintro ⟨t, ht, rfl, rfl⟩
        exact ⟨t.2.2, ht⟩
      · rintro ⟨v, hv⟩
        exact ⟨_, hv, rfl, rfl⟩
    rw [e]
    simp only [List.mem_cons, exists_eq_or_imp]
    constructor
    · rintro (h | h | h)
      · exact Or.inl (Or.inr h)
      · exact Or.inl (Or.inl h)
      · exact Or.inr h
    · rintro ((h | h) | h)
      · exact Or.inr (Or.inl h)
      · exact Or.inl h
      · exact Or.inr (Or.inr h)

theorem mem_allCells_iff (acc : Accumulator) (h : AccWF acc) (r c v : Int) :
    (r, c, v) ∈ allCells acc ↔ hasKey acc r c ∧ accGet acc r c = v := by
  have key : ∀ v', (r, c, v') ∈ allCells acc → accGet acc r c = v' := by
    intro v' hv'
    have := tripleSum_of_mem _ (pairwise_keyNe_allCells acc h) _ hv'
    rw [tripleSum_allCells _ _ _ h] at this
    exact this
  constructor
  · intro hv
    exact ⟨(hasKey_iff_mem_allCells acc r c).mpr ⟨v, hv⟩, key v hv⟩
  · rintro ⟨hk, hg⟩
    obtain ⟨v', hv'⟩ := (hasKey_iff_mem_allCells acc r c).mp hk
    rw [← hg, key v' hv']
    exact hv'

/-- C12: the merged accumulator of `multiMultiplyCOO` does not depend on the order in
which the local accumulators are combined: for every permutation of the list of local
results, the merge holds the same keys and the same value at every `(row, col)`, hence
the same cells, and the emission loop pushes the same triples (up to their order). -/
theorem merge_order_irrelevant (ls ls' : List Accumulator) (h : ls.Perm ls') :
    (∀ r c, accGet (ls.foldl mergeLocal []) r c = accGet (ls'.foldl mergeLocal []) r c) ∧
    (∀ r c, hasKey (ls.foldl mergeLocal []) r c ↔ hasKey (ls'.foldl mergeLocal []) r c) ∧
    (allCells (ls.foldl mergeLocal [])).Perm (allCells (ls'.foldl mergeLocal [])) ∧
    (emit (ls.foldl mergeLocal []) COO.empty).triples.Perm
      (emit (ls'.foldl mergeLocal []) COO.empty).triples := by
  have hget : ∀ r c, accGet (ls.foldl mergeLocal []) r c
      = accGet (ls'.foldl mergeLocal []) r c := by
    intro r c
    rw [accGet_mergeLocals ls [] r c 0 (by rw [wrap32_zero]; rfl),
      accGet_mergeLocals ls' [] r c 0 (by rw [wrap32_zero]; rfl),
      (h.map (fun l => tripleSum (allCells l) r c)).sum_eq]
  have hkey : ∀ r c, hasKey (ls.foldl mergeLocal []) r c
      ↔ hasKey (ls'.foldl mergeLocal []) r c := by
    intro r c
    rw [hasKey_mergeLocals, hasKey_mergeLocals]
    constructor
    · rintro (⟨l, hl, hk⟩ | hk)
      · exact Or.inl ⟨l, h.mem_iff.mp hl, hk⟩
      · exact Or.inr hk
    · rintro (⟨l, hl, hk⟩ | hk)
      · exact Or.inl ⟨l, h.mem_iff.mpr hl, hk⟩
      · exact Or.inr hk
  have hwf := accWF_mergeAll ls [] accWF_nil
  have hwf' := accWF_mergeAll ls' [] accWF_nil
  have hperm : (allCells (ls.foldl mergeLocal [])).Perm (allCells (ls'.foldl mergeLocal [])) := by
    rw [List.perm_ext_iff_of_nodup
      (nodup_of_pairwise_keyNe _ (pairwise_keyNe_allCells _ hwf))
      (nodup_of_pairwise_keyNe _ (pairwise_keyNe_allCells _ hwf'))]
    rintro ⟨r, c, v⟩
    rw [mem_allCells_iff _ hwf, mem_allCells_iff _ hwf', hkey r c, hget r c]
  refine ⟨hget, hkey, hperm, ?_⟩
  rw [emit_eq, emit_eq, empty_insertEnd, empty_insertEnd, triples_ofTriples, triples_ofTriples]
  exact hperm.filter _

theorem merge_order_irrelevant_witness :
    List.Perm
      [threadTask ⟨[0, 1, 0], [0, 0, 1], [2, 3, 4]⟩ ⟨[0, 1], [1, 1], [5, -2]⟩ 0 2,
       threadTask ⟨[0, 1, 0], [0, 0, 1], [2, 3, 4]⟩ ⟨[0, 1], [1, 1], [5, -2]⟩ 2 3]
      [threadTask ⟨[0, 1, 0], [0, 0, 1], [2, 3, 4]⟩ ⟨[0, 1], [1, 1], [5, -2]⟩ 2 3,
       threadTask ⟨[0, 1, 0], [0, 0, 1], [2, 3, 4]⟩ ⟨[0, 1], [1, 1], [5, -2]⟩ 0 2] ∧
    ((∀ r c, accGet
        ([threadTask ⟨[0, 1, 0], [0, 0, 1], [2, 3, 4]⟩ ⟨[0, 1], [1, 1], [5, -2]⟩ 0 2,
          threadTask ⟨[0, 1, 0], [0, 0, 1], [2, 3, 4]⟩ ⟨[0, 1], [1, 1], [5, -2]⟩ 2 3].foldl
            mergeLocal []) r c
      = accGet
        ([threadTask ⟨[0, 1, 0], [0, 0, 1], [2, 3, 4]⟩ ⟨[0, 1], [1, 1], [5, -2]⟩ 2 3,
          threadTask ⟨[0, 1, 0], [0, 0, 1], [2, 3, 4]⟩ ⟨[0, 1], [1, 1], [5, -2]⟩ 0 2].foldl
            mergeLocal []) r c) ∧
    (∀ r c, hasKey
        ([threadTask ⟨[0, 1, 0], [0, 0, 1], [2, 3, 4]⟩ ⟨[0, 1], [1, 1], [5, -2]⟩ 0 2,
          threadTask ⟨[0, 1, 0], [0, 0, 1], [2, 3, 4]⟩ ⟨[0, 1], [1, 1], [5, -2]⟩ 2 3].foldl
            mergeLocal []) r c
      ↔ hasKey
        ([threadTask ⟨[0, 1, 0], [0, 0, 1], [2, 3, 4]⟩ ⟨[0, 1], [1, 1], [5, -2]⟩ 2 3,
          threadTask ⟨[0, 1, 0], [0, 0, 1], [2, 3, 4]⟩ ⟨[0, 1], [1, 1], [5, -2]⟩ 0 2].foldl
            mergeLocal []) r c) ∧
    (allCells
        ([threadTask ⟨[0, 1, 0], [0, 0, 1], [2, 3, 4]⟩ ⟨[0, 1], [1, 1], [5, -2]⟩ 0 2,
          threadTask ⟨[0, 1, 0], [0, 0, 1], [2, 3, 4]⟩ ⟨[0, 1], [1, 1], [5, -2]⟩ 2 3].foldl
            mergeLocal [])).Perm
      (allCells
        ([threadTask ⟨[0, 1, 0], [0, 0, 1], [2, 3, 4]⟩ ⟨[0, 1], [1, 1], [5, -2]⟩ 2 3,
          threadTask ⟨[0, 1, 0], [0, 0, 1], [2, 3, 4]⟩ ⟨[0, 1], [1, 1], [5, -2]⟩ 0 2].foldl
            mergeLocal [])) ∧
    (emit
        ([threadTask ⟨[0, 1, 0], [0, 0, 1], [2, 3, 4]⟩ ⟨[0, 1], [1, 1], [5, -2]⟩ 0 2,
          threadTask ⟨[0, 1, 0], [0, 0, 1], [2, 3, 4]⟩ ⟨[0, 1], [1, 1], [5, -2]⟩ 2 3].foldl
            mergeLocal []) COO.empty).triples.Perm
      (emit
        ([threadTask ⟨[0, 1, 0], [0, 0, 1], [2, 3, 4]⟩ ⟨[0, 1], [1, 1], [5, -2]⟩ 2 3,
          threadTask ⟨[0, 1, 0], [0, 0, 1], [2, 3, 4]⟩ ⟨[0, 1], [1, 1], [5, -2]⟩ 0 2].foldl
            mergeLocal []) COO.empty).triples) :=
  ⟨List.Perm.swap _ _ _,
    merge_order_irrelevant _ _ (List.Perm.swap _ _ _)⟩

/-! ## The threaded classical multiplication -/

theorem foldl_flatMap_eq {α β σ : Type} (f : α → List β) (g : σ → β → σ) (l : List α) (s : σ) :
    (l.flatMap f).foldl g s = l.foldl (fun s x => (f x).foldl g s) s := by
  induction l generalizing s with
  | nil => rfl
  | cons a l ih => rw [List.flatMap_cons, List.foldl_append, List.foldl_cons, ih]

theorem threaded_eq_single (W : Nat) (hW : 1 ≤ W) (M1 M2 M3 : DenseMatrix) (n : Nat) :
    threadedClassicalMultiplication W M1 M2 M3 n = singleClassicalMultiplication M1 M2 M3 n := by
  unfold threadedClassicalMultiplication singleClassicalMultiplication multiplyRows
  simp only [rowRange_fst, rowRange_snd]
  rw [← foldl_flatMap_eq (fun t => List.range' (blockStart n W t)
      (blockStart n W (t + 1) - blockStart n W t)), range_blocks, blockStart_last n W hW,
    ← List.range_eq_range']

/-- C17 (as amended): for `n × n` matrices, an initial `n × n` matrix `M3` of `int`s and
`W ≥ 1` workers, `threadedClassicalMultiplication` leaves `M3` equal to what
`singleClassicalMultiplication` leaves: every cell holds its initial value plus the dot
product of the row of `M1` and the column of `M2`, reduced to the 32-bit `int` range; it
is the exact sum whenever that sum lies in `[-2^31, 2^31 - 1]`, and with `M3` starting at
zero the cell is the dot product reduced to `int`. -/
theorem threaded_classical_result (W n : Nat) (M1 M2 M3 : DenseMatrix) (hW : 1 ≤ W)
    (hM1 : IsSquare M1 n) (hM2 : IsSquare M2 n) (hM3 : IsSquare M3 n) (hR : InIntRange M3 n) :
    threadedClassicalMultiplication W M1 M2 M3 n = singleClassicalMultiplication M1 M2 M3 n ∧
    IsSquare (threadedClassicalMultiplication W M1 M2 M3 n) n ∧
    (∀ i j, i < n → j < n →
      cell (threadedClassicalMultiplication W M1 M2 M3 n) i j
        = wrap32 (cell M3 i j + dot M1 M2 n i j) ∧
      (-2147483648 ≤ cell M3 i j + dot M1 M2 n i j ∧
        cell M3 i j + dot M1 M2 n i j ≤ 2147483647 →
        cell (threadedClassicalMultiplication W M1 M2 M3 n) i j
          = cell M3 i j + dot M1 M2 n i j) ∧
      cell (threadedClassicalMultiplication W M1 M2 (zeroMatrix n) n) i j
        = wrap32 (dot M1 M2 n i j)) := by
  have _ := hM1
  have _ := hM2
  obtain ⟨h1, h2⟩ := cell_singleClassicalMultiplication M1 M2 M3 n hM3 hR
  obtain ⟨_, h4⟩ := cell_singleClassicalMultiplication M1 M2 (zeroMatrix n) n
    (isSquare_zeroMatrix n) (inIntRange_zeroMatrix n)
  rw [threaded_eq_single W hW, threaded_eq_single W hW]
  refine ⟨rfl, h1, ?_⟩
  intro i j hi hj
  refine ⟨h2 i j hi hj, ?_, ?_⟩
  · intro h
    rw [h2 i j hi hj]
    exact wrap32_of_range _ h.1 (by omega)
  · rw [h4 i j hi hj, cell_zeroMatrix, Int.zero_add]

theorem threaded_classical_result_witness :
    1 ≤ 3 ∧ IsSquare [[1, 2], [0, -3]] 2 ∧ IsSquare [[4, 0], [5, 6]] 2 ∧
    IsSquare [[10, 20], [30, 40]] 2 ∧ InIntRange [[10, 20], [30, 40]] 2 ∧
    (threadedClassicalMultiplication 3 [[1, 2], [0, -3]] [[4, 0], [5, 6]] [[10, 20], [30, 40]] 2
      = singleClassicalMultiplication [[1, 2], [0, -3]] [[4, 0], [5, 6]] [[10, 20], [30, 40]] 2 ∧
    IsSquare (threadedClassicalMultiplication 3 [[1, 2], [0, -3]] [[4, 0], [5, 6]]
      [[10, 20], [30, 40]] 2) 2 ∧
    (∀ i j, i < 2 → j < 2 →
      cell (threadedClassicalMultiplication 3 [[1, 2], [0, -3]] [[4, 0], [5, 6]]
          [[10, 20], [30, 40]] 2) i j
        = wrap32 (cell [[10, 20], [30, 40]] i j + dot [[1, 2], [0, -3]] [[4, 0], [5, 6]] 2 i j) ∧
      (-2147483648 ≤ cell [[10, 20], [30, 40]] i j
          + dot [[1, 2], [0, -3]] [[4, 0], [5, 6]] 2 i j ∧
        cell [[10, 20], [30, 40]] i j + dot [[1, 2], [0, -3]] [[4, 0], [5, 6]] 2 i j
          ≤ 2147483647 →
        cell (threadedClassicalMultiplication 3 [[1, 2], [0, -3]] [[4, 0], [5, 6]]
            [[10, 20], [30, 40]] 2) i j
          = cell [[10, 20], [30, 40]] i j + dot [[1, 2], [0, -3]] [[4, 0], [5, 6]] 2 i j) ∧
      cell (threadedClassicalMultiplication 3 [[1, 2], [0, -3]] [[4, 0], [5, 6]]
          (zeroMatrix 2) 2) i j
        = wrap32 (dot [[1, 2], [0, -3]] [[4, 0], [5, 6]] 2 i j))) :=
  ⟨by decide, by decide, by decide, by decide,
    by
      intro i j hi hj
      have hi' : i = 0 ∨ i = 1 := by omega
      have hj' : j = 0 ∨ j = 1 := by omega
      rcases hi' with rfl | rfl <;> rcases hj' with rfl | rfl <;> decide,
    threaded_classical_result 3 2 [[1, 2], [0, -3]] [[4, 0], [5, 6]] [[10, 20], [30, 40]]
      (by decide) (by decide) (by decide) (by decide)
      (by
        intro i j hi hj
        have hi' : i = 0 ∨ i = 1 := by omega
        have hj' : j = 0 ∨ j = 1 := by omega
        rcases hi' with rfl | rfl <;> rcases hj' with rfl | rfl <;> decide)⟩

/-- C17 (as stated) fails when a sum leaves the `int` range: for the `1 × 1` matrices
`M1 = M2 = [[65536]]` and `M3 = [[0]]` both multiplications leave `[[0]]`, while the initial
cell plus the product is `4294967296`. -/
theorem classical_sum_fails_on_overflow :
    IsSquare [[65536]] 1 ∧ IsSquare [[0]] 1 ∧
    threadedClassicalMultiplication 1 [[65536]] [[65536]] [[0]] 1 = [[0]] ∧
    singleClassicalMultiplication [[65536]] [[65536]] [[0]] 1 = [[0]] ∧
    cell [[0]] 0 0 + dot [[65536]] [[65536]] 1 0 0 = 4294967296 ∧
    cell (threadedClassicalMultiplication 1 [[65536]] [[65536]] [[0]] 1) 0 0
      ≠ cell [[0]] 0 0 + dot [[65536]] [[65536]] 1 0 0 := by
  decide

/-! ## Checked executions -/

theorem foldlM_eq_some {σ α : Type} (f : σ → α → Option σ) (g : σ → α → σ) (l : List α)
    (h : ∀ x ∈ l, ∀ s, f s x = some (g s x)) (s : σ) :
    l.foldlM f s = some (l.foldl g s) := by
  induction l generalizing s with
  | nil => rfl
  | cons a l ih =>
    rw [List.foldlM_cons, h a (List.mem_cons_self _ _) s, List.foldl_cons]
    exact ih (fun x hx => h x (List.mem_cons_of_mem _ hx)) _

theorem getElem?_eq_some_getD (l : List Int) (i : Nat) (h : i < l.length) :
    l[i]? = some (l.getD i 0) := by
  rw [List.getD_eq_getElem?_getD, List.getElem?_eq_getElem h]
  rfl

theorem colMapAddChecked_eq (ar : Arith) (m : ColMap) (c v : Int)
    (h : ar.add (colGet m c) v = some (addInt (colGet m c) v)) :
    colMapAddChecked ar m c v = some (colMapAdd m c v) := by
  induction m with
  | nil =>
    simp only [colGet] at h
    simp [colMapAddChecked, colMapAdd, h]
  | cons e m ih =>
    obtain ⟨k, x⟩ := e
    by_cases h1 : k = c
    · simp only [colGet, if_pos h1] at h
      simp [colMapAddChecked, colMapAdd, h1, h]
    · simp only [colGet, if_neg h1] at h
      simp [colMapAddChecked, colMapAdd, h1, ih h]

theorem accAddChecked_eq (ar : Arith) (acc : Accumulator) (r c v : Int)
    (h : ar.add (accGet acc r c) v = some (addInt (accGet acc r c) v)) :
    accAddChecked ar acc r c v = some (accAdd acc r c v) := by
  induction acc with
  | nil =>
    simp only [accGet] at h
    simp [accAddChecked, accAdd, colMapAddChecked_eq ar [] c v (by simpa [colGet] using h)]
  | cons e acc ih =>
    obtain ⟨k, m⟩ := e
    by_cases h1 : k = r
    · simp only [accGet, if_pos h1] at h
      simp [accAddChecked, accAdd, h1, colMapAddChecked_eq ar m c v h]
    · simp only [accGet, if_neg h1] at h
      simp [accAddChecked, accAdd, h1, ih h]

theorem addAllChecked_wrap (cs : List (Int × Int × Int)) (acc : Accumulator) :
    addAllChecked wrapArith cs acc = some (addAll cs acc) := by
  unfold addAllChecked addAll
  apply foldlM_eq_some
  intro t _ s
  exact accAddChecked_eq wrapArith s t.1 t.2.1 t.2.2 rfl

theorem addAllChecked_append (ar : Arith) (cs₁ cs₂ : List (Int × Int × Int))
    (acc : Accumulator) :
    addAllChecked ar (cs₁ ++ cs₂) acc
      = (addAllChecked ar cs₁ acc).bind (addAllChecked ar cs₂) := by
  unfold addAllChecked
  rw [List.foldlM_append]
  rfl

theorem joinLoopChecked_eq (ar : Arith) (B : COO) (rowA colA valA : Int) (hB : B.WellFormed)
    (hmul : ∀ j, j < B.rows.length →
      ar.mul valA (B.vals.getD j 0) = some (mulInt valA (B.vals.getD j 0)))
    (js : List Nat) (hjs : ∀ j ∈ js, j < B.rows.length) (acc : Accumulator) :
    js.foldlM (fun result j => do
        let rowB ← B.rows[j]?
        if rowB = colA then do
          let colB ← B.cols[j]?
          let valB ← B.vals[j]?
          let product ← ar.mul valA valB
          accAddChecked ar result rowA colB product
        else pure result) acc
      = addAllChecked ar ((js.filterMap (fun j =>
          if B.rows.getD j 0 = colA then
            some (rowA, B.cols.getD j 0, valA * B.vals.getD j 0)
          else none)).map wrapVal) acc := by
  induction js generalizing acc with
  | nil => rfl
  | cons j js ih =>
    have hj := hjs j (List.mem_cons_self _ _)
    have ih' := ih (fun x hx => hjs x (List.mem_cons_of_mem _ hx))
    rw [List.foldlM_cons, List.filterMap_cons,
      getElem?_eq_some_getD B.rows j hj,
      getElem?_eq_some_getD B.cols j (by unfold COO.WellFormed at hB; omega),
      getElem?_eq_some_getD B.vals j (by unfold COO.WellFormed at hB; omega)]
    by_cases h : B.rows.getD j 0 = colA
    · simp only [Option.bind_eq_bind, Option.some_bind, if_pos h, hmul j hj, List.map_cons]
      unfold addAllChecked
      rw [List.foldlM_cons]
      simp only [Option.bind_eq_bind]
      congr 1
      funext acc'
      exact ih' acc'
    · simp only [Option.bind_eq_bind, Option.some_bind, if_neg h]
      exact ih' acc

theorem joinEntryChecked_eq (ar : Arith) (A B : COO) (hA : A.WellFormed) (hB : B.WellFormed)
    (hmul : ∀ i j, i < A.rows.length → j < B.rows.length →
      ar.mul (A.vals.getD i 0) (B.vals.getD j 0)
        = some (mulInt (A.vals.getD i 0) (B.vals.getD j 0)))
    (acc : Accumulator) (i : Nat) (hi : i < A.rows.length) :
    joinEntryChecked ar A B acc i = addAllChecked ar ((exactProducts A B i).map wrapVal) acc := by
  unfold joinEntryChecked
  rw [getElem?_eq_some_getD A.rows i hi,
    getElem?_eq_some_getD A.cols i (by unfold COO.WellFormed at hA; omega),
    getElem?_eq_some_getD A.vals i (by unfold COO.WellFormed at hA; omega)]
  simp only [Option.bind_eq_bind, Option.some_bind]
  exact joinLoopChecked_eq ar B _ _ _ hB (fun j hj => hmul i j hi hj) _
    (fun j hj => List.mem_range.mp hj) acc

theorem joinEntriesChecked_eq (ar : Arith) (A B : COO) (hA : A.WellFormed) (hB : B.WellFormed)
    (hmul : ∀ i j, i < A.rows.length → j < B.rows.length →
      ar.mul (A.vals.getD i 0) (B.vals.getD j 0)
        = some (mulInt (A.vals.getD i 0) (B.vals.getD j 0)))
    (is : List Nat) (his : ∀ i ∈ is, i < A.rows.length) (acc : Accumulator) :
    is.foldlM (joinEntryChecked ar A B) acc
      = addAllChecked ar ((is.flatMap (exactProducts A B)).map wrapVal) acc := by
  induction is generalizing acc with
  | nil => rfl
  | cons i is ih =>
    rw [List.foldlM_cons, List.flatMap_cons, List.map_append, addAllChecked_append,
      joinEntryChecked_eq ar A B hA hB hmul acc i (his i (List.mem_cons_self _ _))]
    simp only [Option.bind_eq_bind]
    congr 1
    funext acc'
    exact ih (fun x hx => his x (List.mem_cons_of_mem _ hx)) acc'

theorem mergeRowChecked_eq (ar : Arith) (k : Int) (ces : ColMap) (result : Accumulator) :
    ces.foldlM (fun result colEntry => accAddChecked ar result k colEntry.1 colEntry.2) result
      = addAllChecked ar (ces.map (fun ce => (k, ce.1, ce.2))) result := by
  unfold addAllChecked
  induction ces generalizing result with
  | nil => rfl
  | cons ce ces ih =>
    rw [List.map_cons, List.foldlM_cons, List.foldlM_cons]
    simp only [Option.bind_eq_bind]
    congr 1
    funext acc'
    exact ih acc'

theorem mergeLocalChecked_eq (ar : Arith) (result localResult : Accumulator) :
    mergeLocalChecked ar result localResult = addAllChecked ar (allCells localResult) result := by
  unfold mergeLocalChecked
  induction localResult generalizing result with
  | nil => rfl
  | cons e localResult ih =>
    obtain ⟨k, m⟩ := e
    rw [List.foldlM_cons, allCells_cons, addAllChecked_append, mergeRowChecked_eq]
    simp only [Option.bind_eq_bind]
    congr 1
    funext acc'
    exact ih acc'

theorem foldlM_push_eq_some {α β : Type} (f : α → Option β) (g : α → β) (l : List α)
    (h : ∀ x ∈ l, f x = some (g x)) (init : List β) :
    l.foldlM (fun acc x => do
        let y ← f x
        pure (acc ++ [y])) init = some (init ++ l.map g) := by
  induction l generalizing init with
  | nil => simp
  | cons a l ih =>
    rw [List.foldlM_cons, h a (List.mem_cons_self _ _)]
    have e := ih (fun x hx => h x (List.mem_cons_of_mem _ hx)) (init ++ [g a])
    rw [List.append_assoc] at e
    exact e

theorem wrapArith_mul (A B : COO) :
    ∀ i j, i < A.rows.length → j < B.rows.length →
      wrapArith.mul (A.vals.getD i 0) (B.vals.getD j 0)
        = some (mulInt (A.vals.getD i 0) (B.vals.getD j 0)) :=
  fun _ _ _ _ => rfl

theorem multiplyCOOChecked_wrap (A B C : COO) (hA : A.WellFormed) (hB : B.WellFormed) :
    multiplyCOOChecked wrapArith A B C = some (multiplyCOO A B C) := by
  unfold multiplyCOOChecked multiplyCOO
  rw [joinEntriesChecked_eq wrapArith A B hA hB (wrapArith_mul A B) _
    (fun i hi => List.mem_range.mp hi), addAllChecked_wrap, joinEntries_eq]
  rfl

theorem blockStart_le (K W t : Nat) (hW : 1 ≤ W) (ht : t ≤ W) : blockStart K W t ≤ K := by
  have h := blockStart_mono K W ht
  rw [blockStart_last K W hW] at h
  exact h

theorem threadTaskChecked_wrap (A B : COO) (hA : A.WellFormed) (hB : B.WellFormed) (a b : Nat)
    (hb : b ≤ A.rows.length) :
    threadTaskChecked wrapArith A B a b = some (threadTask A B a b) := by
  unfold threadTaskChecked threadTask
  rw [joinEntriesChecked_eq wrapArith A B hA hB (wrapArith_mul A B) _
    (fun i hi => by have := List.mem_range'_1.mp hi; omega), addAllChecked_wrap, joinEntries_eq]

theorem mem_entryRanges (K W : Nat) (hW : 1 ≤ W) (r : Nat × Nat) (hr : r ∈ entryRanges K W) :
    r.1 ≤ r.2 ∧ r.2 ≤ K := by
  rw [entryRanges_eq] at hr
  obtain ⟨t, ht, rfl⟩ := List.mem_map.mp hr
  have ht' := List.mem_range.mp ht
  exact ⟨blockStart_mono K W (Nat.le_succ t), blockStart_le K W (t + 1) hW ht'⟩

theorem multiMultiplyCOOChecked_wrap (W : Nat) (hW : 1 ≤ W) (A B C : COO) (hA : A.WellFormed)
    (hB : B.WellFormed) :
    multiMultiplyCOOChecked wrapArith W A B C = some (multiMultiplyCOO W A B C) := by
  unfold multiMultiplyCOOChecked multiMultiplyCOO
  rw [if_neg (by omega),
    foldlM_push_eq_some (fun r => threadTaskChecked wrapArith A B r.1 r.2)
      (fun r => threadTask A B r.1 r.2) _
      (fun r hr => threadTaskChecked_wrap A B hA hB r.1 r.2
        (mem_entryRanges _ W hW r hr).2) []]
  simp only [Option.bind_eq_bind, Option.some_bind, List.nil_append]
  rw [foldlM_eq_some (mergeLocalChecked wrapArith) mergeLocal _
    (fun l _ s => by rw [mergeLocalChecked_eq, addAllChecked_wrap, mergeLocal_eq])]
  rfl

theorem processRowsChecked_eq (M : DenseMatrix) (n : Nat) (hM : IsSquare M n) (buf : COO)
    (a b : Nat) (hb : b ≤ n) :
    processRowsChecked M n buf a b = some (processRows M n buf a b) := by
  unfold processRowsChecked processRows
  apply foldlM_eq_some
  intro i hi s
  have hi' : i < n := by have := List.mem_range'_1.mp hi; omega
  apply foldlM_eq_some
  intro j hj s'
  have hj' : j < n := List.mem_range.mp hj
  obtain ⟨h1, h2⟩ := hM
  have hlen : i < M.length := by omega
  have hrow : (M[i]).length = n := h2 _ (List.getElem_mem hlen)
  have e1 : (M[i]? : Option (List Int)) = some M[i] := List.getElem?_eq_getElem hlen
  have e2 : ((M[i])[j]? : Option Int) = some (cell M i j) := by
    rw [cell_eq, List.getElem?_eq_getElem hlen, Option.getD_some,
      List.getElem?_eq_getElem (by omega)]
    rfl
  rw [e1]
  simp only [Option.bind_eq_bind, Option.some_bind, e2]
  by_cases h0 : cell M i j ≠ 0
  · simp [h0]
  · simp [h0]

theorem matrixToCOOChecked_eq (W : Nat) (hW : 1 ≤ W) (M : DenseMatrix) (n : Nat)
    (hM : IsSquare M n) (out : COO) :
    matrixToCOOChecked W M n out = some (matrixToCOO W M n out) := by
  unfold matrixToCOOChecked matrixToCOO
  rw [if_neg (by omega),
    foldlM_push_eq_some
      (fun t => processRowsChecked M n COO.empty (rowRange n W t).1 (rowRange n W t).2)
      (fun t => processRows M n COO.empty (rowRange n W t).1 (rowRange n W t).2) _
      (fun t ht => processRowsChecked_eq M n hM COO.empty _ _
        (by rw [rowRange_snd]; exact blockStart_le n W (t + 1) hW (List.mem_range.mp ht))) []]
  rfl

/-- C18: with `W ≥ 1`, an `n × n` matrix `M` and operands whose three vectors have equal
length, no step of `matrixToCOO`, `multiplyCOO` or `multiMultiplyCOO` fails: the executions
in which every division by the worker count and every read of `M[i][j]`, `rowsA[i]`,
`colsA[i]`, `valsA[i]`, `rowsB[j]`, `colsB[j]`, `valsB[j]` is checked run to the end and
return what the functions return; every worker range lies inside `[0, n)`, respectively
inside `[0, |A|)`, also when `|A| < W` leaves workers with empty ranges. -/
theorem no_step_fails (W n : Nat) (M : DenseMatrix) (A B out : COO) (hW : 1 ≤ W)
    (hM : IsSquare M n) (hA : A.WellFormed) (hB : B.WellFormed) :
    W ≠ 0 ∧
    matrixToCOOChecked W M n out = some (matrixToCOO W M n out) ∧
    multiplyCOOChecked wrapArith A B out = some (multiplyCOO A B out) ∧
    multiMultiplyCOOChecked wrapArith W A B out = some (multiMultiplyCOO W A B out) ∧
    (∀ t, t < W → (rowRange n W t).1 ≤ (rowRange n W t).2 ∧ (rowRange n W t).2 ≤ n) ∧
    (∀ r ∈ entryRanges A.rows.length W, r.1 ≤ r.2 ∧ r.2 ≤ A.rows.length) :=
  ⟨by omega, matrixToCOOChecked_eq W hW M n hM out, multiplyCOOChecked_wrap A B out hA hB,
    multiMultiplyCOOChecked_wrap W hW A B out hA hB,
    fun t ht => by
      rw [rowRange_fst, rowRange_snd]
      exact ⟨blockStart_mono n W (Nat.le_succ t), blockStart_le n W (t + 1) hW ht⟩,
    fun r hr => mem_entryRanges _ W hW r hr⟩

theorem no_step_fails_witness :
    1 ≤ 8 ∧ IsSquare [[0, 2, 0], [0, 0, 0], [5, 0, 1]] 3 ∧
    COO.WellFormed ⟨[0, 1, 0], [0, 0, 1], [2, 3, 4]⟩ ∧ COO.WellFormed ⟨[0, 1], [1, 1], [5, -2]⟩ ∧
    ((8 : Nat) ≠ 0 ∧
    matrixToCOOChecked 8 [[0, 2, 0], [0, 0, 0], [5, 0, 1]] 3 COO.empty
      = some (matrixToCOO 8 [[0, 2, 0], [0, 0, 0], [5, 0, 1]] 3 COO.empty) ∧
    multiplyCOOChecked wrapArith ⟨[0, 1, 0], [0, 0, 1], [2, 3, 4]⟩ ⟨[0, 1], [1, 1], [5, -2]⟩
        COO.empty
      = some (multiplyCOO ⟨[0, 1, 0], [0, 0, 1], [2, 3, 4]⟩ ⟨[0, 1], [1, 1], [5, -2]⟩
        COO.empty) ∧
    multiMultiplyCOOChecked wrapArith 8 ⟨[0, 1, 0], [0, 0, 1], [2, 3, 4]⟩
        ⟨[0, 1], [1, 1], [5, -2]⟩ COO.empty
      = some (multiMultiplyCOO 8 ⟨[0, 1, 0], [0, 0, 1], [2, 3, 4]⟩ ⟨[0, 1], [1, 1], [5, -2]⟩
        COO.empty) ∧
    (∀ t, t < 8 → (rowRange 3 8 t).1 ≤ (rowRange 3 8 t).2 ∧ (rowRange 3 8 t).2 ≤ 3) ∧
    (∀ r ∈ entryRanges (COO.rows ⟨[0, 1, 0], [0, 0, 1], [2, 3, 4]⟩).length 8,
      r.1 ≤ r.2 ∧ r.2 ≤ (COO.rows ⟨[0, 1, 0], [0, 0, 1], [2, 3, 4]⟩).length)) :=
  ⟨by decide, by decide, by decide, by decide,
    no_step_fails 8 3 [[0, 2, 0], [0, 0, 0], [5, 0, 1]] ⟨[0, 1, 0], [0, 0, 1], [2, 3, 4]⟩
      ⟨[0, 1], [1, 1], [5, -2]⟩ COO.empty (by decide) (by decide) (by decide) (by decide)⟩

/-! ## Degenerate inputs -/

theorem eq_nil_of_tripleSum_zero (l : List (Int × Int × Int)) (h : l.Pairwise keyNe)
    (hv : ∀ t ∈ l, t.2.2 ≠ 0) (hz : ∀ r c, tripleSum l r c = 0) : l = [] := by
  cases l with
  | nil => rfl
  | cons t l =>
    exfalso
    have h1 := tripleSum_of_mem _ h t (List.mem_cons_self _ _)
    rw [hz] at h1
    exact hv t (List.mem_cons_self _ _) h1.symm

theorem pairSum_eq_zero (A B : COO) (h : A.rows = [] ∨ B.rows = []) (r c : Int) :
    pairSum A B r c = 0 := by
  unfold pairSum
  rcases h with h | h
  · simp [h]
  · simp [h]

theorem multipliers_empty (W : Nat) (hW : 1 ≤ W) (A B : COO) (h : A.rows = [] ∨ B.rows = []) :
    multiplyCOO A B COO.empty = COO.empty ∧ multiMultiplyCOO W A B COO.empty = COO.empty := by
  have h1 : ∀ r c, tripleSum (multiplyCOO A B COO.empty).triples r c = 0 := by
    intro r c
    rw [← cellSum_eq_tripleSum, cellSum_multiplyCOO, pairSum_eq_zero A B h, wrap32_zero]
  have h2 : ∀ r c, tripleSum (multiMultiplyCOO W A B COO.empty).triples r c = 0 := by
    intro r c
    rw [← cellSum_eq_tripleSum, cellSum_multiMultiplyCOO W hW, pairSum_eq_zero A B h, wrap32_zero]
  rw [multiplyCOO_eq, multiMultiplyCOO_eq, empty_insertEnd, empty_insertEnd] at *
  rw [triples_ofTriples] at h1 h2
  rw [eq_nil_of_tripleSum_zero _ ((pairwise_keyNe_allCells _ (accWF_joinAll A B)).filter _)
      (filter_val_ne_zero _) h1,
    eq_nil_of_tripleSum_zero _ ((pairwise_keyNe_allCells _ (accWF_mergedAll W A B)).filter _)
      (filter_val_ne_zero _) h2]
  exact ⟨rfl, rfl⟩

theorem matrixToCOO_zero (W : Nat) (hW : 1 ≤ W) (M : DenseMatrix) :
    matrixToCOO W M 0 COO.empty = COO.empty := by
  rw [matrixToCOO_eq W hW, empty_insertEnd]
  rfl

/-- C11: when `A` has no entries or `B` has no entries, then for every other operand and
every worker count `W ≥ 1` (so for `W = 1` and `W = 8`, where every worker's range of an
empty `A` is empty) `multiplyCOO` and `multiMultiplyCOO`, started with empty output
vectors, run to the end without a failing step and return the empty coordinate list; and
`matrixToCOO` with `n = 0` returns the empty list. -/
theorem empty_operands (W : Nat) (M : DenseMatrix) (A B : COO) (hW : 1 ≤ W)
    (hA : A.WellFormed) (hB : B.WellFormed) (hM : IsSquare M 0)
    (h : A.rows = [] ∨ B.rows = []) :
    multiplyCOO A B COO.empty = COO.empty ∧
    multiMultiplyCOO W A B COO.empty = COO.empty ∧
    multiplyCOOChecked wrapArith A B COO.empty = some COO.empty ∧
    multiMultiplyCOOChecked wrapArith W A B COO.empty = some COO.empty ∧
    matrixToCOO W M 0 COO.empty = COO.empty ∧
    matrixToCOOChecked W M 0 COO.empty = some COO.empty := by
  obtain ⟨h1, h2⟩ := multipliers_empty W hW A B h
  refine ⟨h1, h2, ?_, ?_, matrixToCOO_zero W hW M, ?_⟩
  · rw [multiplyCOOChecked_wrap A B _ hA hB, h1]
  · rw [multiMultiplyCOOChecked_wrap W hW A B _ hA hB, h2]
  · rw [matrixToCOOChecked_eq W hW M 0 hM, matrixToCOO_zero W hW M]

theorem empty_operands_witness :
    1 ≤ 8 ∧ COO.WellFormed COO.empty ∧ COO.WellFormed ⟨[0, 1], [1, 1], [5, -2]⟩ ∧
    IsSquare [] 0 ∧
    (COO.rows COO.empty = [] ∨ COO.rows ⟨[0, 1], [1, 1], [5, -2]⟩ = []) ∧
    (multiplyCOO COO.empty ⟨[0, 1], [1, 1], [5, -2]⟩ COO.empty = COO.empty ∧
    multiMultiplyCOO 8 COO.empty ⟨[0, 1], [1, 1], [5, -2]⟩ COO.empty = COO.empty ∧
    multiplyCOOChecked wrapArith COO.empty ⟨[0, 1], [1, 1], [5, -2]⟩ COO.empty
      = some COO.empty ∧
    multiMultiplyCOOChecked wrapArith 8 COO.empty ⟨[0, 1], [1, 1], [5, -2]⟩ COO.empty
      = some COO.empty ∧
    matrixToCOO 8 [] 0 COO.empty = COO.empty ∧
    matrixToCOOChecked 8 [] 0 COO.empty = some COO.empty) :=
  ⟨by decide, by decide, by decide, by decide, by decide,
    empty_operands 8 [] COO.empty ⟨[0, 1], [1, 1], [5, -2]⟩ (by decide) (by decide) (by decide)
      (by decide) (by decide)⟩

/-! ## The generator -/

theorem foldlM_flatMap_eq {α β σ : Type} (f : α → List β) (g : σ → β → Option σ) (l : List α)
    (s : σ) :
    (l.flatMap f).foldlM g s = l.foldlM (fun s x => (f x).foldlM g s) s := by
  induction l generalizing s with
  | nil => rfl
  | cons a l ih =>
    rw [List.flatMap_cons, List.foldlM_append, List.foldlM_cons]
    simp only [Option.bind_eq_bind]
    congr 1
    funext s'
    exact ih s'

theorem writeCell_eq (M : DenseMatrix) (n i j : Nat) (v : Int) (hM : IsSquare M n) (hi : i < n)
    (hj : j < n) : writeCell M i j v = some (updateCell M i j (fun _ => v)) := by
  obtain ⟨h1, h2⟩ := hM
  have hlen : i < M.length := by omega
  have hrow : (M.getD i []).length = n := by
    rw [List.getD_eq_getElem?_getD, List.getElem?_eq_getElem hlen]
    exact h2 _ (List.getElem_mem hlen)
  unfold writeCell
  rw [if_pos ⟨hlen, by omega⟩]

theorem generate_columns (d : Draws) (n i : Nat) (hi : i < n) (D : DenseMatrix)
    (hD : IsSquare D n) (m : Nat) (hm : m ≤ n) :
    ∃ D', (List.range m).foldlM (fun Matrix j =>
        if d.below i j then writeCell Matrix i j (d.value i j) else pure Matrix) D = some D' ∧
      IsSquare D' n ∧
      ∀ i' j', cell D' i' j'
        = if i' = i ∧ j' < m ∧ d.below i j' = true then d.value i j' else cell D i' j' := by
  induction m with
  | zero => exact ⟨D, rfl, hD, by simp⟩
  | succ m ih =>
    obtain ⟨D1, h1, h2, h3⟩ := ih (by omega)
    have hm' : m < n := by omega
    rw [List.range_succ, List.foldlM_append, h1]
    simp only [Option.bind_eq_bind, Option.some_bind, List.foldlM_cons, List.foldlM_nil]
    by_cases hb : d.below i m = true
    · rw [if_pos hb, writeCell_eq D1 n i m _ h2 hi hm']
      refine ⟨_, rfl, isSquare_updateCell D1 n i m _ h2, ?_⟩
      intro i' j'
      rw [cell_updateCell D1 n i m _ h2 hi hm' i' j']
      by_cases h4 : i = i' ∧ m = j'
      · obtain ⟨rfl, rfl⟩ := h4
        rw [if_pos ⟨rfl, rfl⟩, if_pos ⟨rfl, by omega, hb⟩]
      · rw [if_neg h4, h3 i' j']
        by_cases h5 : i' = i ∧ j' < m ∧ d.below i j' = true
        · rw [if_pos h5, if_pos ⟨h5.1, by omega, h5.2.2⟩]
        · rw [if_neg h5, if_neg]
          rintro ⟨h6, h7, h8⟩
          have : j' ≠ m := fun h9 => h4 ⟨h6.symm, h9.symm⟩
          exact h5 ⟨h6, by omega, h8⟩
    · rw [if_neg hb]
      refine ⟨D1, rfl, h2, ?_⟩
      intro i' j'
      rw [h3 i' j']
      by_cases h5 : i' = i ∧ j' < m ∧ d.below i j' = true
      · rw [if_pos h5, if_pos ⟨h5.1, by omega, h5.2.2⟩]
      · rw [if_neg h5, if_neg]
        rintro ⟨h6, h7, h8⟩
        have : j' ≠ m := by
          intro h9
          rw [h9] at h8
          exact hb h8
        exact h5 ⟨h6, by omega, h8⟩

theorem generate_rows (d : Draws) (n : Nat) (D : DenseMatrix) (hD : IsSquare D n) (m : Nat)
    (hm : m ≤ n) :
    ∃ D', (List.range m).foldlM (fun Matrix i =>
        (List.range n).foldlM (fun Matrix j =>
          if d.below i j then writeCell Matrix i j (d.value i j) else pure Matrix) Matrix) D
          = some D' ∧
      IsSquare D' n ∧
      ∀ i' j', cell D' i' j'
        = if i' < m ∧ j' < n ∧ d.below i' j' = true then d.value i' j' else cell D i' j' := by
  induction m with
  | zero => exact ⟨D, rfl, hD, by simp⟩
  | succ m ih =>
    obtain ⟨D1, h1, h2, h3⟩ := ih (by omega)
    have hm' : m < n := by omega
    obtain ⟨D2, h4, h5, h6⟩ := generate_columns d n m hm' D1 h2 n (Nat.le_refl n)
    rw [List.range_succ, List.foldlM_append, h1]
    simp only [Option.bind_eq_bind, Option.some_bind, List.foldlM_cons, List.foldlM_nil]
    refine ⟨D2, by simpa using h4, h5, ?_⟩
    intro i' j'
    rw [h6 i' j']
    by_cases h7 : i' = m ∧ j' < n ∧ d.below m j' = true
    · obtain ⟨rfl, h8, h9⟩ := h7
      rw [if_pos ⟨rfl, h8, h9⟩, if_pos ⟨by omega, h8, h9⟩]
    · rw [if_neg h7, h3 i' j']
      by_cases h8 : i' < m ∧ j' < n ∧ d.below i' j' = true
      · rw [if_pos h8, if_pos ⟨by omega, h8.2⟩]
      · rw [if_neg h8, if_neg]
        rintro ⟨h9, h10, h11⟩
        have : i' ≠ m := by
          intro h12
          subst h12
          exact h7 ⟨rfl, h10, h11⟩
        exact h8 ⟨by omega, h10, h11⟩

theorem sparseMatrixGenerator_eq (W : Nat) (hW : 1 ≤ W) (d : Draws) (D : DenseMatrix) (n : Nat) :
    SparseMatrixGenerator W d D n
      = (List.range n).foldlM (fun Matrix i =>
        (List.range n).foldlM (fun Matrix j =>
          if d.below i j then writeCell Matrix i j (d.value i j) else pure Matrix) Matrix) D := by
  unfold SparseMatrixGenerator generateRows
  rw [if_neg (by omega)]
  simp only [rowRange_fst, rowRange_snd]
  rw [← foldlM_flatMap_eq (fun t => List.range' (blockStart n W t)
      (blockStart n W (t + 1) - blockStart n W t)), range_blocks, blockStart_last n W hW,
    ← List.range_eq_range']

/-- C15: for every `n`, every worker count `W ≥ 1` and every outcome of the random draws
(`randnum` returning numbers of `[1, 100]`), `SparseMatrixGenerator` applied to the
zero-initialised `n × n` matrix writes only existing cells `(i, j)` with `i, j < n` (no
write fails) and leaves an `n × n` matrix whose cell `(i, j)` is the drawn number when the
cell was selected and `0` otherwise, so every cell is `0` or lies in `[1, 100]`. -/
theorem generator_cells (W n : Nat) (d : Draws) (hW : 1 ≤ W)
    (hd : ∀ i j, 1 ≤ d.value i j ∧ d.value i j ≤ 100) :
    ∃ M', SparseMatrixGenerator W d (zeroMatrix n) n = some M' ∧ IsSquare M' n ∧
      (∀ i j, i < n → j < n →
        cell M' i j = if d.below i j = true then d.value i j else 0) ∧
      (∀ i j, i < n → j < n → cell M' i j = 0 ∨ (1 ≤ cell M' i j ∧ cell M' i j ≤ 100)) := by
  obtain ⟨M', h1, h2, h3⟩ := generate_rows d n (zeroMatrix n) (isSquare_zeroMatrix n) n
    (Nat.le_refl n)
  rw [← sparseMatrixGenerator_eq W hW] at h1
  have h4 : ∀ i j, i < n → j < n →
      cell M' i j = if d.below i j = true then d.value i j else 0 := by
    intro i j hi hj
    rw [h3 i j, cell_zeroMatrix]
    by_cases hb : d.below i j = true
    · rw [if_pos ⟨hi, hj, hb⟩, if_pos hb]
    · rw [if_neg (fun h => hb h.2.2), if_neg hb]
  refine ⟨M', h1, h2, h4, ?_⟩
  intro i j hi hj
  rw [h4 i j hi hj]
  by_cases hb : d.below i j = true
  · rw [if_pos hb]
    exact Or.inr (hd i j)
  · rw [if_neg hb]
    exact Or.inl rfl

theorem generator_cells_witness :
    1 ≤ 2 ∧
    (∀ i j, 1 ≤ Draws.value ⟨fun i j => i == j, fun _ _ => 42⟩ i j ∧
      Draws.value ⟨fun i j => i == j, fun _ _ => 42⟩ i j ≤ 100) ∧
    (∃ M', SparseMatrixGenerator 2 ⟨fun i j => i == j, fun _ _ => 42⟩ (zeroMatrix 3) 3 = some M' ∧
      IsSquare M' 3 ∧
      (∀ i j, i < 3 → j < 3 →
        cell M' i j = if Draws.below ⟨fun i j => i == j, fun _ _ => 42⟩ i j = true
          then Draws.value ⟨fun i j => i == j, fun _ _ => 42⟩ i j else 0) ∧
      (∀ i j, i < 3 → j < 3 → cell M' i j = 0 ∨ (1 ≤ cell M' i j ∧ cell M' i j ≤ 100))) :=
  ⟨by decide, fun _ _ => (by decide : (1 : Int) ≤ 42 ∧ (42 : Int) ≤ 100),
    generator_cells 2 3 ⟨fun i j => i == j, fun _ _ => 42⟩ (by decide)
      (fun _ _ => (by decide : (1 : Int) ≤ 42 ∧ (42 : Int) ≤ 100))⟩

/-! ## Executions without overflow -/

theorem tripleSum_nonneg (l : List (Int × Int × Int)) (h : ∀ t ∈ l, 0 ≤ t.2.2) (r c : Int) :
    0 ≤ tripleSum l r c := by
  induction l with
  | nil => exact Int.le_refl 0
  | cons t l ih =>
    rw [tripleSum_cons]
    have h1 := ih (fun x hx => h x (List.mem_cons_of_mem _ hx))
    have h2 := h t (List.mem_cons_self _ _)
    split <;> omega

theorem map_wrapVal_eq (l : List (Int × Int × Int))
    (h : ∀ t ∈ l, -2147483648 ≤ t.2.2 ∧ t.2.2 < 2147483648) : l.map wrapVal = l := by
  induction l with
  | nil => rfl
  | cons t l ih =>
    rw [List.map_cons, ih (fun x hx => h x (List.mem_cons_of_mem _ hx))]
    have h1 := h t (List.mem_cons_self _ _)
    have e : wrapVal t = t := by
      unfold wrapVal
      rw [wrap32_of_range _ h1.1 h1.2]
    rw [e]

theorem boundedArith_add (hi x v : Int) (hhi : hi ≤ 2147483647) (h0 : 0 ≤ x + v)
    (h1 : x + v ≤ hi) : (boundedArith 0 hi).add x v = some (addInt x v) := by
  unfold boundedArith addInt
  simp only
  rw [if_pos ⟨h0, h1⟩, wrap32_of_range _ (by omega) (by omega)]

theorem boundedArith_mul (hi a b : Int) (hhi : hi ≤ 2147483647) (h0 : 0 ≤ a * b)
    (h1 : a * b ≤ hi) : (boundedArith 0 hi).mul a b = some (mulInt a b) := by
  unfold boundedArith mulInt
  simp only
  rw [if_pos ⟨h0, h1⟩, wrap32_of_range _ (by omega) (by omega)]

theorem addAllChecked_bounded (hi : Int) (hhi : hi ≤ 2147483647) (cs : List (Int × Int × Int))
    (acc : Accumulator) (hv : ∀ t ∈ cs, 0 ≤ t.2.2)
    (hb : ∀ r c, 0 ≤ accGet acc r c ∧ accGet acc r c + tripleSum cs r c ≤ hi) :
    addAllChecked (boundedArith 0 hi) cs acc = some (addAll cs acc) ∧
    ∀ r c, accGet (addAll cs acc) r c = accGet acc r c + tripleSum cs r c := by
  induction cs generalizing acc with
  | nil =>
    refine ⟨rfl, ?_⟩
    intro r c
    simp [addAll, tripleSum]
  | cons t cs ih =>
    have hv' : ∀ x ∈ cs, 0 ≤ x.2.2 := fun x hx => hv x (List.mem_cons_of_mem _ hx)
    have ht := hv t (List.mem_cons_self _ _)
    have hkey := hb t.1 t.2.1
    rw [tripleSum_cons, if_pos ⟨rfl, rfl⟩] at hkey
    have hrest := tripleSum_nonneg cs hv' t.1 t.2.1
    have hadd : (boundedArith 0 hi).add (accGet acc t.1 t.2.1) t.2.2
        = some (addInt (accGet acc t.1 t.2.1) t.2.2) :=
      boundedArith_add hi _ _ hhi (by omega) (by omega)
    have hexact : addInt (accGet acc t.1 t.2.1) t.2.2 = accGet acc t.1 t.2.1 + t.2.2 := by
      unfold addInt
      exact wrap32_of_range _ (by omega) (by omega)
    have hget : ∀ r c, accGet (accAdd acc t.1 t.2.1 t.2.2) r c
        = accGet acc r c + (if t.1 = r ∧ t.2.1 = c then t.2.2 else 0) := by
      intro r c
      rw [accGet_accAdd]
      by_cases h : t.1 = r ∧ t.2.1 = c
      · rw [if_pos h, if_pos h, hexact, h.1, h.2]
      · rw [if_neg h, if_neg h, Int.add_zero]
    have hb' : ∀ r c, 0 ≤ accGet (accAdd acc t.1 t.2.1 t.2.2) r c ∧
        accGet (accAdd acc t.1 t.2.1 t.2.2) r c + tripleSum cs r c ≤ hi := by
      intro r c
      have h1 := hb r c
      rw [tripleSum_cons] at h1
      rw [hget r c]
      constructor
      · split <;> omega
      · omega
    obtain ⟨h1, h2⟩ := ih _ hv' hb'
    constructor
    · unfold addAllChecked at h1 ⊢
      rw [List.foldlM_cons, accAddChecked_eq _ acc t.1 t.2.1 t.2.2 hadd]
      exact h1
    · intro r c
      have e : addAll (t :: cs) acc = addAll cs (accAdd acc t.1 t.2.1 t.2.2) := rfl
      rw [e, h2 r c, hget r c, tripleSum_cons, Int.add_assoc]

theorem mem_allCells_nonneg (P : List (Int × Int × Int)) (hP : ∀ t ∈ P, 0 ≤ t.2.2)
    (hget : ∀ r c, accGet (addAll P []) r c = tripleSum P r c) :
    ∀ t ∈ allCells (addAll P []), 0 ≤ t.2.2 := by
  intro t ht
  obtain ⟨r, c, v⟩ := t
  have h := ((mem_allCells_iff _ (accWF_addAll P [] accWF_nil) r c v).mp ht).2
  rw [hget] at h
  rw [← h]
  exact tripleSum_nonneg P hP r c

theorem mergeAllChecked_bounded (hi : Int) (hhi : hi ≤ 2147483647)
    (Ps : List (List (Int × Int × Int))) (acc : Accumulator)
    (hP : ∀ P ∈ Ps, ∀ t ∈ P, 0 ≤ t.2.2)
    (hb : ∀ r c, 0 ≤ accGet acc r c ∧ accGet acc r c + tripleSum (Ps.flatMap id) r c ≤ hi) :
    (Ps.map (fun P => addAll P [])).foldlM (mergeLocalChecked (boundedArith 0 hi)) acc
      = some ((Ps.map (fun P => addAll P [])).foldl mergeLocal acc) := by
  induction Ps generalizing acc with
  | nil => rfl
  | cons P Ps ih =>
    have hP0 := hP P (List.mem_cons_self _ _)
    have hP' : ∀ Q ∈ Ps, ∀ t ∈ Q, 0 ≤ t.2.2 := fun Q hQ => hP Q (List.mem_cons_of_mem _ hQ)
    have hrest : ∀ r c, 0 ≤ tripleSum (Ps.flatMap id) r c := by
      intro r c
      apply tripleSum_nonneg
      intro t ht
      obtain ⟨Q, hQ, hin⟩ := List.mem_flatMap.mp ht
      exact hP' Q hQ t hin
    have hsplit : ∀ r c, tripleSum ((P :: Ps).flatMap id) r c
        = tripleSum P r c + tripleSum (Ps.flatMap id) r c := by
      intro r c
      rw [List.flatMap_cons, tripleSum_append]
      rfl
    have hloc : ∀ r c, accGet (addAll P []) r c = tripleSum P r c := by
      intro r c
      have := (addAllChecked_bounded hi hhi P [] hP0 (by
        intro r c
        have h1 := hb r c
        rw [hsplit] at h1
        have h2 := hrest r c
        have h3 := tripleSum_nonneg P hP0 r c
        exact ⟨Int.le_refl 0, by simp only [accGet]; omega⟩)).2 r c
      simpa [accGet] using this
    have hcells : ∀ r c, tripleSum (allCells (addAll P [])) r c = tripleSum P r c := by
      intro r c
      rw [tripleSum_allCells _ r c (accWF_addAll P [] accWF_nil), hloc]
    obtain ⟨h1, h2⟩ := addAllChecked_bounded hi hhi (allCells (addAll P [])) acc
      (mem_allCells_nonneg P hP0 hloc) (by
        intro r c
        have h1 := hb r c
        rw [hsplit] at h1
        have h2 := hrest r c
        rw [hcells]
        exact ⟨h1.1, by omega⟩)
    rw [List.map_cons, List.foldlM_cons, List.foldl_cons, mergeLocalChecked_eq, h1, mergeLocal_eq]
    apply ih _ hP'
    intro r c
    have h3 := hb r c
    rw [hsplit] at h3
    rw [h2 r c, hcells]
    have h4 := tripleSum_nonneg P hP0 r c
    exact ⟨by omega, by omega⟩

theorem mem_exactProducts (A B : COO) (i : Nat) (t : Int × Int × Int)
    (h : t ∈ exactProducts A B i) :
    ∃ j, j < B.rows.length ∧
      t = (A.rows.getD i 0, B.cols.getD j 0, A.vals.getD i 0 * B.vals.getD j 0) := by
  unfold exactProducts at h
  obtain ⟨j, hj, h1⟩ := List.mem_filterMap.mp h
  by_cases h2 : B.rows.getD j 0 = A.cols.getD i 0
  · rw [if_pos h2] at h1
    exact ⟨j, List.mem_range.mp hj, (Option.some.inj h1).symm⟩
  · rw [if_neg h2] at h1
    exact absurd h1 (by simp)

theorem mul_bounds (a b : Int) (ha : 0 ≤ a ∧ a ≤ 100) (hb : 0 ≤ b ∧ b ≤ 100) :
    0 ≤ a * b ∧ a * b ≤ 10000 := by
  constructor
  · exact Int.mul_nonneg ha.1 hb.1
  · calc a * b ≤ 100 * b := Int.mul_le_mul_of_nonneg_right ha.2 hb.1
      _ ≤ 100 * 100 := Int.mul_le_mul_of_nonneg_left hb.2 (by decide)
      _ = 10000 := by decide

theorem products_bounds (A B : COO)
    (hvA : ∀ i, i < A.rows.length → 0 ≤ A.vals.getD i 0 ∧ A.vals.getD i 0 ≤ 100)
    (hvB : ∀ j, j < B.rows.length → 0 ≤ B.vals.getD j 0 ∧ B.vals.getD j 0 ≤ 100)
    (is : List Nat) (his : ∀ i ∈ is, i < A.rows.length) :
    ∀ t ∈ is.flatMap (exactProducts A B), 0 ≤ t.2.2 ∧ t.2.2 ≤ 10000 := by
  intro t ht
  obtain ⟨i, hi, h1⟩ := List.mem_flatMap.mp ht
  obtain ⟨j, hj, rfl⟩ := mem_exactProducts A B i t h1
  exact mul_bounds _ _ (hvA i (his i hi)) (hvB j hj)

theorem products_wrapVal (A B : COO)
    (hvA : ∀ i, i < A.rows.length → 0 ≤ A.vals.getD i 0 ∧ A.vals.getD i 0 ≤ 100)
    (hvB : ∀ j, j < B.rows.length → 0 ≤ B.vals.getD j 0 ∧ B.vals.getD j 0 ≤ 100)
    (is : List Nat) (his : ∀ i ∈ is, i < A.rows.length) :
    (is.flatMap (exactProducts A B)).map wrapVal = is.flatMap (exactProducts A B) := by
  apply map_wrapVal_eq
  intro t ht
  have := products_bounds A B hvA hvB is his t ht
  omega

theorem bounded_mul_ok (A B : COO)
    (hvA : ∀ i, i < A.rows.length → 0 ≤ A.vals.getD i 0 ∧ A.vals.getD i 0 ≤ 100)
    (hvB : ∀ j, j < B.rows.length → 0 ≤ B.vals.getD j 0 ∧ B.vals.getD j 0 ≤ 100) :
    ∀ i j, i < A.rows.length → j < B.rows.length →
      (boundedArith 0 2147483647).mul (A.vals.getD i 0) (B.vals.getD j 0)
        = some (mulInt (A.vals.getD i 0) (B.vals.getD j 0)) := by
  intro i j hi hj
  have := mul_bounds _ _ (hvA i hi) (hvB j hj)
  exact boundedArith_mul _ _ _ (Int.le_refl _) this.1 (by omega)

theorem tripleSum_block_le (f : Nat → List (Int × Int × Int)) (K a b : Nat) (hab : a ≤ b)
    (hb : b ≤ K) (hf : ∀ i, i < K → ∀ t ∈ f i, 0 ≤ t.2.2) (r c : Int) :
    tripleSum ((List.range' a (b - a)).flatMap f) r c
      ≤ tripleSum ((List.range K).flatMap f) r c := by
  have e1 : List.range' 0 a ++ List.range' a (b - a) = List.range' 0 b := by
    have := List.range'_append 0 a (b - a) 1
    simp only [Nat.zero_add, Nat.one_mul] at this
    rw [this]
    congr 1
    omega
  have e2 : List.range' 0 b ++ List.range' b (K - b) = List.range' 0 K := by
    have := List.range'_append 0 b (K - b) 1
    simp only [Nat.zero_add, Nat.one_mul] at this
    rw [this]
    congr 1
    omega
  rw [List.range_eq_range', ← e2, ← e1, List.flatMap_append, List.flatMap_append,
    tripleSum_append, tripleSum_append]
  have h1 : 0 ≤ tripleSum ((List.range' 0 a).flatMap f) r c := by
    apply tripleSum_nonneg
    intro t ht
    obtain ⟨i, hi, h⟩ := List.mem_flatMap.mp ht
    have := List.mem_range'_1.mp hi
    exact hf i (by omega) t h
  have h2 : 0 ≤ tripleSum ((List.range' b (K - b)).flatMap f) r c := by
    apply tripleSum_nonneg
    intro t ht
    obtain ⟨i, hi, h⟩ := List.mem_flatMap.mp ht
    have := List.mem_range'_1.mp hi
    exact hf i (by omega) t h
  omega

/-- With values in `[0, 100]` and every exact sum of products at most `2^31 - 1`, the
sequential multiplier finishes when each product and each accumulated value is required
to lie in `[0, 2^31 - 1]`. -/
theorem multiplyCOOChecked_bounded (A B C : COO) (hA : A.WellFormed) (hB : B.WellFormed)
    (hvA : ∀ i, i < A.rows.length → 0 ≤ A.vals.getD i 0 ∧ A.vals.getD i 0 ≤ 100)
    (hvB : ∀ j, j < B.rows.length → 0 ≤ B.vals.getD j 0 ∧ B.vals.getD j 0 ≤ 100)
    (hsum : ∀ r c, pairSum A B r c ≤ 2147483647) :
    multiplyCOOChecked (boundedArith 0 2147483647) A B C = some (multiplyCOO A B C) := by
  have hrange : ∀ i ∈ List.range A.rows.length, i < A.rows.length :=
    fun i hi => List.mem_range.mp hi
  unfold multiplyCOOChecked multiplyCOO
  rw [joinEntriesChecked_eq _ A B hA hB (bounded_mul_ok A B hvA hvB) _ hrange, joinEntries_eq,
    products_wrapVal A B hvA hvB _ hrange,
    (addAllChecked_bounded 2147483647 (Int.le_refl _) _ []
      (fun t ht => (products_bounds A B hvA hvB _ hrange t ht).1) (by
        intro r c
        rw [tripleSum_allProducts]
        exact ⟨Int.le_refl 0, by simp only [accGet]; have := hsum r c; omega⟩)).1]
  rfl

/-- The same for the parallel multiplier: every local accumulator and every merge step
stays in `[0, 2^31 - 1]`. -/
theorem multiMultiplyCOOChecked_bounded (W : Nat) (hW : 1 ≤ W) (A B C : COO) (hA : A.WellFormed)
    (hB : B.WellFormed)
    (hvA : ∀ i, i < A.rows.length → 0 ≤ A.vals.getD i 0 ∧ A.vals.getD i 0 ≤ 100)
    (hvB : ∀ j, j < B.rows.length → 0 ≤ B.vals.getD j 0 ∧ B.vals.getD j 0 ≤ 100)
    (hsum : ∀ r c, pairSum A B r c ≤ 2147483647) :
    multiMultiplyCOOChecked (boundedArith 0 2147483647) W A B C
      = some (multiMultiplyCOO W A B C) := by
  have hnn : ∀ i, i < A.rows.length → ∀ t ∈ exactProducts A B i, 0 ≤ t.2.2 := by
    intro i hi t ht
    exact (products_bounds A B hvA hvB [i] (by simpa using hi) t (by simpa using ht)).1
  have hblock : ∀ r ∈ entryRanges A.rows.length W,
      ∀ i ∈ List.range' r.1 (r.2 - r.1), i < A.rows.length := by
    intro r hr i hi
    have h1 := (mem_entryRanges _ W hW r hr).2
    have h2 := List.mem_range'_1.mp hi
    omega
  have htask : ∀ r ∈ entryRanges A.rows.length W,
      threadTask A B r.1 r.2 = addAll ((List.range' r.1 (r.2 - r.1)).flatMap (exactProducts A B)) []
        := by
    intro r hr
    rw [threadTask_eq, products_wrapVal A B hvA hvB _ (hblock r hr)]
  have hchecked : ∀ r ∈ entryRanges A.rows.length W,
      threadTaskChecked (boundedArith 0 2147483647) A B r.1 r.2
        = some (threadTask A B r.1 r.2) := by
    intro r hr
    have hr' := mem_entryRanges _ W hW r hr
    rw [htask r hr]
    unfold threadTaskChecked
    rw [joinEntriesChecked_eq _ A B hA hB (bounded_mul_ok A B hvA hvB) _ (hblock r hr),
      products_wrapVal A B hvA hvB _ (hblock r hr)]
    exact (addAllChecked_bounded 2147483647 (Int.le_refl _) _ []
      (fun t ht => (products_bounds A B hvA hvB _ (hblock r hr) t ht).1) (by
        intro x y
        have h1 := tripleSum_block_le (exactProducts A B) A.rows.length r.1 r.2 hr'.1 hr'.2
          hnn x y
        rw [tripleSum_allProducts] at h1
        have h2 := hsum x y
        exact ⟨Int.le_refl 0, by simp only [accGet]; omega⟩)).1
  have hpush := foldlM_push_eq_some
    (fun (r : Nat × Nat) => threadTaskChecked (boundedArith 0 2147483647) A B r.1 r.2)
    (fun r => threadTask A B r.1 r.2) (entryRanges A.rows.length W) hchecked []
  unfold multiMultiplyCOOChecked multiMultiplyCOO
  rw [if_neg (by omega), hpush]
  simp only [Option.bind_eq_bind, Option.some_bind, List.nil_append]
  have hfut : (entryRanges A.rows.length W).map (fun r => threadTask A B r.1 r.2)
      = ((entryRanges A.rows.length W).map (fun r =>
          (List.range' r.1 (r.2 - r.1)).flatMap (exactProducts A B))).map
            (fun P => addAll P []) := by
    rw [List.map_map]
    apply List.map_congr_left
    intro r hr
    exact htask r hr
  rw [hfut, mergeAllChecked_bounded 2147483647 (Int.le_refl _) _ []]
  · rfl
  · intro P hP t ht
    obtain ⟨r, hr, rfl⟩ := List.mem_map.mp hP
    exact (products_bounds A B hvA hvB _ (hblock r hr) t ht).1
  · intro x y
    have e : ((entryRanges A.rows.length W).map (fun r =>
        (List.range' r.1 (r.2 - r.1)).flatMap (exactProducts A B))).flatMap id
        = (List.range A.rows.length).flatMap (exactProducts A B) := by
      rw [flatMap_id_map, entryRanges_eq, List.flatMap_map, ← List.flatMap_assoc]
      have := range_blocks A.rows.length W W
      rw [blockStart_last _ W hW] at this
      rw [List.range_eq_range' A.rows.length, ← this]
    rw [e, tripleSum_allProducts]
    have := hsum x y
    exact ⟨Int.le_refl 0, by simp only [accGet]; omega⟩

/-! ## The multipliers on converted matrices with entries in `[0, 100]` -/

theorem entry_mem_ofTriples (l : List (Int × Int × Int)) (i : Nat)
    (hi : i < (COO.ofTriples l).rows.length) : (COO.ofTriples l).entry i ∈ l := by
  have hlen : (COO.ofTriples l).rows.length = l.length := by simp [COO.ofTriples]
  rw [hlen] at hi
  rw [entry_ofTriples l i hi]
  exact List.getElem_mem hi

theorem scan_entry (M : DenseMatrix) (n i : Nat)
    (hi : i < (COO.ofTriples (rowMajorScan M n)).rows.length) :
    ∃ a b, a < n ∧ b < n ∧ cell M a b ≠ 0 ∧
      (COO.ofTriples (rowMajorScan M n)).rows.getD i 0 = (a : Int) ∧
      (COO.ofTriples (rowMajorScan M n)).cols.getD i 0 = (b : Int) ∧
      (COO.ofTriples (rowMajorScan M n)).vals.getD i 0 = cell M a b := by
  have h := entry_mem_ofTriples _ i hi
  obtain ⟨a, b, ha, hb, h0, h1⟩ := (mem_rowMajorScan M n _).mp h
  unfold COO.entry at h1
  simp only [Prod.mk.injEq] at h1
  exact ⟨a, b, ha, hb, h0, h1.1, h1.2.1, h1.2.2⟩

theorem scan_vals_bounds (M : DenseMatrix) (n : Nat)
    (hM : ∀ i j, i < n → j < n → 0 ≤ cell M i j ∧ cell M i j ≤ 100) :
    ∀ i, i < (COO.ofTriples (rowMajorScan M n)).rows.length →
      0 ≤ (COO.ofTriples (rowMajorScan M n)).vals.getD i 0 ∧
      (COO.ofTriples (rowMajorScan M n)).vals.getD i 0 ≤ 100 := by
  intro i hi
  obtain ⟨a, b, ha, hb, _, _, _, h3⟩ := scan_entry M n i hi
  rw [h3]
  exact hM a b ha hb

theorem sum_range_bounds (n : Nat) (f : Nat → Int) (b : Int)
    (h : ∀ k, k < n → 0 ≤ f k ∧ f k ≤ b) :
    0 ≤ ((List.range n).map f).sum ∧ ((List.range n).map f).sum ≤ n * b ∧
    ∀ k, k < n → f k ≤ ((List.range n).map f).sum := by
  induction n with
  | zero => simp
  | succ n ih =>
    obtain ⟨h1, h2, h3⟩ := ih (fun k hk => h k (by omega))
    have h4 := h n (by omega)
    rw [List.range_succ, List.map_append, List.sum_append]
    simp only [List.map_cons, List.map_nil, List.sum_cons, List.sum_nil, Int.add_zero]
    refine ⟨by omega, ?_, ?_⟩
    · have e : ((n + 1 : Nat) : Int) * b = (n : Int) * b + b := by
        rw [Int.natCast_add, Int.add_mul]
        simp
      rw [e]
      omega
    · intro k hk
      by_cases hkn : k = n
      · subst hkn
        omega
      · have := h3 k (by omega)
        omega

theorem dot_bounds (M1 M2 : DenseMatrix) (n : Nat)
    (h1 : ∀ i j, i < n → j < n → 0 ≤ cell M1 i j ∧ cell M1 i j ≤ 100)
    (h2 : ∀ i j, i < n → j < n → 0 ≤ cell M2 i j ∧ cell M2 i j ≤ 100)
    (i j : Nat) (hi : i < n) (hj : j < n) :
    0 ≤ dot M1 M2 n i j ∧ dot M1 M2 n i j ≤ n * 10000 ∧
    ∀ k, k < n → cell M1 i k * cell M2 k j ≤ dot M1 M2 n i j := by
  unfold dot
  exact sum_range_bounds n (fun k => cell M1 i k * cell M2 k j) 10000
    (fun k hk => mul_bounds _ _ (h1 i k hi hk) (h2 k j hk hj))

theorem pairSum_scans_le (M1 M2 : DenseMatrix) (n : Nat) (hn : n ≤ 214748)
    (h1 : ∀ i j, i < n → j < n → 0 ≤ cell M1 i j ∧ cell M1 i j ≤ 100)
    (h2 : ∀ i j, i < n → j < n → 0 ≤ cell M2 i j ∧ cell M2 i j ≤ 100) (r c : Int) :
    pairSum (COO.ofTriples (rowMajorScan M1 n)) (COO.ofTriples (rowMajorScan M2 n)) r c
      ≤ 2147483647 := by
  by_cases hin : 0 ≤ r ∧ r < n ∧ 0 ≤ c ∧ c < n
  · have e1 : ((r.toNat : Nat) : Int) = r := Int.toNat_of_nonneg hin.1
    have e2 : ((c.toNat : Nat) : Int) = c := Int.toNat_of_nonneg hin.2.2.1
    have h := pairSum_scans M1 M2 n r.toNat c.toNat (by omega) (by omega)
    rw [e1, e2] at h
    rw [h]
    have := (dot_bounds M1 M2 n h1 h2 r.toNat c.toNat (by omega) (by omega)).2.1
    omega
  · rw [← tripleSum_allProducts, tripleSum_eq_zero]
    · decide
    · intro t ht hkey
      obtain ⟨i, hi, h3⟩ := List.mem_flatMap.mp ht
      obtain ⟨j, hj, rfl⟩ := mem_exactProducts _ _ i t h3
      obtain ⟨a, _, ha, _, _, h4, _, _⟩ := scan_entry M1 n i (List.mem_range.mp hi)
      obtain ⟨_, b, _, hb, _, _, h5, _⟩ := scan_entry M2 n j hj
      simp only at hkey
      rw [h4, h5] at hkey
      apply hin
      omega

theorem mem_of_tripleSum_ne_zero (l : List (Int × Int × Int)) (h : l.Pairwise keyNe) (r c : Int)
    (hne : tripleSum l r c ≠ 0) : (r, c, tripleSum l r c) ∈ l := by
  obtain ⟨t, ht, h1, h2⟩ := exists_key_of_tripleSum_ne_zero l r c hne
  have h3 := tripleSum_of_mem l h t ht
  rw [h1, h2] at h3
  have e : t = (r, c, tripleSum l r c) := Prod.ext h1 (Prod.ext h2 h3.symm)
  rw [← e]
  exact ht

theorem pairwise_keyNe_multiMultiplyCOO (W : Nat) (A B : COO) :
    (multiMultiplyCOO W A B COO.empty).triples.Pairwise keyNe := by
  rw [multiMultiplyCOO_eq, empty_insertEnd, triples_ofTriples]
  exact (pairwise_keyNe_allCells _ (accWF_mergedAll W A B)).filter _

/-- C19: for `n ≤ 214748`, `W ≥ 1` and `n × n` matrices `M1`, `M2` with entries in
`[0, 100]`, `multiplyCOO` and `multiMultiplyCOO` on the two `matrixToCOO` conversions run
to the end when every product `valA * valB` and every accumulated value (local
accumulators and the merge included) is required to lie in `[0, 2^31 - 1]`: no `int`
operation overflows.  Each output cell is the exact dot product, and a cell with a
non-zero `M1[i][k]` and a non-zero `M2[k][j]` is present in both outputs. -/
theorem no_overflow_in_generated_range (W n : Nat) (M1 M2 : DenseMatrix) (hW : 1 ≤ W)
    (hn : n ≤ 214748) (hM1 : IsSquare M1 n) (hM2 : IsSquare M2 n)
    (h1 : ∀ i j, i < n → j < n → 0 ≤ cell M1 i j ∧ cell M1 i j ≤ 100)
    (h2 : ∀ i j, i < n → j < n → 0 ≤ cell M2 i j ∧ cell M2 i j ≤ 100) :
    multiplyCOOChecked (boundedArith 0 2147483647) (matrixToCOO W M1 n COO.empty)
        (matrixToCOO W M2 n COO.empty) COO.empty
      = some (multiplyCOO (matrixToCOO W M1 n COO.empty) (matrixToCOO W M2 n COO.empty)
          COO.empty) ∧
    multiMultiplyCOOChecked (boundedArith 0 2147483647) W (matrixToCOO W M1 n COO.empty)
        (matrixToCOO W M2 n COO.empty) COO.empty
      = some (multiMultiplyCOO W (matrixToCOO W M1 n COO.empty) (matrixToCOO W M2 n COO.empty)
          COO.empty) ∧
    (∀ i j : Nat, i < n → j < n →
      0 ≤ dot M1 M2 n i j ∧ dot M1 M2 n i j ≤ 2147483647 ∧
      cellSum (multiplyCOO (matrixToCOO W M1 n COO.empty) (matrixToCOO W M2 n COO.empty)
          COO.empty) (i : Int) (j : Int) = dot M1 M2 n i j ∧
      cellSum (multiMultiplyCOO W (matrixToCOO W M1 n COO.empty) (matrixToCOO W M2 n COO.empty)
          COO.empty) (i : Int) (j : Int) = dot M1 M2 n i j) ∧
    (∀ i j k : Nat, i < n → j < n → k < n → cell M1 i k ≠ 0 → cell M2 k j ≠ 0 →
      dot M1 M2 n i j ≠ 0 ∧
      ((i : Int), (j : Int), dot M1 M2 n i j)
        ∈ (multiplyCOO (matrixToCOO W M1 n COO.empty) (matrixToCOO W M2 n COO.empty)
            COO.empty).triples ∧
      ((i : Int), (j : Int), dot M1 M2 n i j)
        ∈ (multiMultiplyCOO W (matrixToCOO W M1 n COO.empty) (matrixToCOO W M2 n COO.empty)
            COO.empty).triples) := by
  have _ := hM1
  have _ := hM2
  rw [matrixToCOO_eq W hW M1, matrixToCOO_eq W hW M2, empty_insertEnd, empty_insertEnd]
  have hsum := pairSum_scans_le M1 M2 n hn h1 h2
  have hvA := scan_vals_bounds M1 n h1
  have hvB := scan_vals_bounds M2 n h2
  have hcell : ∀ i j : Nat, i < n → j < n →
      0 ≤ dot M1 M2 n i j ∧ dot M1 M2 n i j ≤ 2147483647 ∧
      cellSum (multiplyCOO (COO.ofTriples (rowMajorScan M1 n))
          (COO.ofTriples (rowMajorScan M2 n)) COO.empty) (i : Int) (j : Int)
        = dot M1 M2 n i j ∧
      cellSum (multiMultiplyCOO W (COO.ofTriples (rowMajorScan M1 n))
          (COO.ofTriples (rowMajorScan M2 n)) COO.empty) (i : Int) (j : Int)
        = dot M1 M2 n i j := by
    intro i j hi hj
    obtain ⟨d1, d2, _⟩ := dot_bounds M1 M2 n h1 h2 i j hi hj
    have d3 : dot M1 M2 n i j ≤ 2147483647 := by omega
    rw [cellSum_multiplyCOO, cellSum_multiMultiplyCOO W hW, pairSum_scans M1 M2 n i j hi hj,
      wrap32_of_range _ (by omega) (by omega)]
    exact ⟨d1, d3, rfl, rfl⟩
  refine ⟨multiplyCOOChecked_bounded _ _ _ (ofTriples_wellFormed _) (ofTriples_wellFormed _)
      hvA hvB hsum,
    multiMultiplyCOOChecked_bounded W hW _ _ _ (ofTriples_wellFormed _) (ofTriples_wellFormed _)
      hvA hvB hsum, hcell, ?_⟩
  intro i j k hi hj hk hik hkj
  obtain ⟨_, _, e1, e2⟩ := hcell i j hi hj
  have hpos : dot M1 M2 n i j ≠ 0 := by
    have d := (dot_bounds M1 M2 n h1 h2 i j hi hj).2.2 k hk
    have a1 := h1 i k hi hk
    have a2 := h2 k j hk hj
    have : 0 < cell M1 i k * cell M2 k j :=
      Int.mul_pos (by omega) (by omega)
    omega
  rw [cellSum_eq_tripleSum] at e1 e2
  refine ⟨hpos, ?_, ?_⟩
  · have := mem_of_tripleSum_ne_zero _ (pairwise_keyNe_multiplyCOO _ _) (i : Int) (j : Int)
      (by rw [e1]; exact hpos)
    rw [e1] at this
    exact this
  · have := mem_of_tripleSum_ne_zero _ (pairwise_keyNe_multiMultiplyCOO W _ _) (i : Int) (j : Int)
      (by rw [e2]; exact hpos)
    rw [e2] at this
    exact this

theorem no_overflow_in_generated_range_witness :
    1 ≤ 2 ∧ 2 ≤ 214748 ∧ IsSquare [[1, 0], [100, 3]] 2 ∧ IsSquare [[0, 5], [7, 0]] 2 ∧
    (∀ i j, i < 2 → j < 2 → 0 ≤ cell [[1, 0], [100, 3]] i j ∧ cell [[1, 0], [100, 3]] i j ≤ 100) ∧
    (∀ i j, i < 2 → j < 2 → 0 ≤ cell [[0, 5], [7, 0]] i j ∧ cell [[0, 5], [7, 0]] i j ≤ 100) ∧
    (multiplyCOOChecked (boundedArith 0 2147483647) (matrixToCOO 2 [[1, 0], [100, 3]] 2 COO.empty)
        (matrixToCOO 2 [[0, 5], [7, 0]] 2 COO.empty) COO.empty
      = some (multiplyCOO (matrixToCOO 2 [[1, 0], [100, 3]] 2 COO.empty) (matrixToCOO 2 [[0, 5], [7, 0]] 2 COO.empty)
          COO.empty) ∧
    multiMultiplyCOOChecked (boundedArith 0 2147483647) 2 (matrixToCOO 2 [[1, 0], [100, 3]] 2 COO.empty)
        (matrixToCOO 2 [[0, 5], [7, 0]] 2 COO.empty) COO.empty
      = some (multiMultiplyCOO 2 (matrixToCOO 2 [[1, 0], [100, 3]] 2 COO.empty) (matrixToCOO 2 [[0, 5], [7, 0]] 2 COO.empty)
          COO.empty) ∧
    (∀ i j : Nat, i < 2 → j < 2 →
      0 ≤ dot [[1, 0], [100, 3]] [[0, 5], [7, 0]] 2 i j ∧ dot [[1, 0], [100, 3]] [[0, 5], [7, 0]] 2 i j ≤ 2147483647 ∧
      cellSum (multiplyCOO (matrixToCOO 2 [[1, 0], [100, 3]] 2 COO.empty) (matrixToCOO 2 [[0, 5], [7, 0]] 2 COO.empty)
          COO.empty) (i : Int) (j : Int) = dot [[1, 0], [100, 3]] [[0, 5], [7, 0]] 2 i j ∧
      cellSum (multiMultiplyCOO 2 (matrixToCOO 2 [[1, 0], [100, 3]] 2 COO.empty) (matrixToCOO 2 [[0, 5], [7, 0]] 2 COO.empty)
          COO.empty) (i : Int) (j : Int) = dot [[1, 0], [100, 3]] [[0, 5], [7, 0]] 2 i j) ∧
    (∀ i j k : Nat, i < 2 → j < 2 → k < 2 → cell [[1, 0], [100, 3]] i k ≠ 0 → cell [[0, 5], [7, 0]] k j ≠ 0 →
      dot [[1, 0], [100, 3]] [[0, 5], [7, 0]] 2 i j ≠ 0 ∧
      ((i : Int), (j : Int), dot [[1, 0], [100, 3]] [[0, 5], [7, 0]] 2 i j)
        ∈ (multiplyCOO (matrixToCOO 2 [[1, 0], [100, 3]] 2 COO.empty) (matrixToCOO 2 [[0, 5], [7, 0]] 2 COO.empty)
            COO.empty).triples ∧
      ((i : Int), (j : Int), dot [[1, 0], [100, 3]] [[0, 5], [7, 0]] 2 i j)
        ∈ (multiMultiplyCOO 2 (matrixToCOO 2 [[1, 0], [100, 3]] 2 COO.empty) (matrixToCOO 2 [[0, 5], [7, 0]] 2 COO.empty)
            COO.empty).triples)) :=
  ⟨by decide, by decide, by decide, by decide,
    by
      intro i j hi hj
      have hi' : i = 0 ∨ i = 1 := by omega
      have hj' : j = 0 ∨ j = 1 := by omega
      rcases hi' with rfl | rfl <;> rcases hj' with rfl | rfl <;> decide,
    by
      intro i j hi hj
      have hi' : i = 0 ∨ i = 1 := by omega
      have hj' : j = 0 ∨ j = 1 := by omega
      rcases hi' with rfl | rfl <;> rcases hj' with rfl | rfl <;> decide,
    no_overflow_in_generated_range 2 2 [[1, 0], [100, 3]] [[0, 5], [7, 0]] (by decide) (by decide) (by decide)
      (by decide)
      (by
        intro i j hi hj
        have hi' : i = 0 ∨ i = 1 := by omega
        have hj' : j = 0 ∨ j = 1 := by omega
        rcases hi' with rfl | rfl <;> rcases hj' with rfl | rfl <;> decide)
      (by
        intro i j hi hj
        have hi' : i = 0 ∨ i = 1 := by omega
        have hj' : j = 0 ∨ j = 1 := by omega
        rcases hi' with rfl | rfl <;> rcases hj' with rfl | rfl <;> decide)⟩

end SparseMatrix
